import Mathlib

/-!
Pony front end: the lexer (`Part 1/Lexer.h`) and the parser (`Part 2/parser.cpp`).

A shallow embedding of the hand-written tokenizer and of the recursive-descent
parser routines, followed by theorems about them.

Conventions of the embedding.

* Characters of the input are `Char`, one per byte; `code c` is the `int` the
  C++ code sees for the character, by the conversion of a signed `char`:
  bytes 0 to 127 give their code point, bytes 128 to 255 give `-128` to `-1`,
  so byte 255 gives `EOF`.
* `Token` is the C++ `enum Token : int`; `lastChar` and `curTok` are `Int`.
* The `int` counters `curLineNum` / `curCol` are 32-bit: an increment wraps
  around from `2147483647` to `-2147483648` (`wrapInt`).
* The virtual `readNextLine()` is modelled by the sequence of lines it is
  going to return (`supply`); once that sequence is used up it returns the
  empty line.
* Output to `std::cerr` is modelled by the list `cerr` of emitted diagnostics.
* `numVal = strtod(numStr)` is a `double`; the embedding keeps the numeral
  text `numStr` from which it is computed.
* The loops of `getTok` and its recursion after a comment run on a bound
  computed from the input that is left (`remaining`); `getTokFuel_enough` and
  the `_spec` lemmas of the loops show that the bound is never used up. The
  `Run` versions of the loops count the rounds and return `none` while a loop
  is still running; they show that every loop comes to an end.
* `assert` is taken to be enabled: a failing assertion ends a parse routine
  with `Outcome.assertFail`.
* Routines and classes that `parser.cpp` uses but that are not part of the
  sources (`parsePrimary`, `parseExpression`, `parseType`, `parseError`, the
  AST classes) are parameters of the embedded routines, or are modelled from
  the specification where a concrete run is needed; these are marked.
-/

namespace pony

/-! ## Tokens and character classes -/

/-- The C++ `enum Token : int`. -/
abbrev Token := Int

def tok_semicolon : Token := 59
def tok_parenthese_open : Token := 40
def tok_parenthese_close : Token := 41
def tok_bracket_open : Token := 123
def tok_bracket_close : Token := 125
def tok_sbracket_open : Token := 91
def tok_sbracket_close : Token := 93
def tok_eof : Token := -1
def tok_return : Token := -2
def tok_var : Token := -3
def tok_def : Token := -4
def tok_identifier : Token := -5
def tok_number : Token := -6

/-- The token `Token(0)` returned for a malformed identifier or number. -/
def tok_error : Token := 0

/-- The `<cstdio>` constant `EOF`. -/
def EOF : Int := -1

/-- The `int` value of an input character, as `getNextChar` returns it. The
bytes of the input are the characters 0 to 255. Plain `char` is a signed 8-bit
type for the compilers the project is built with, so the conversion to `int`
gives -128 to -1 for the bytes 128 to 255: byte 255 has the value of `EOF`. A
`Char` above 255 stands for no byte; it keeps its code point, a value that no
byte has and that belongs to no character class. -/
def code (c : Char) : Int :=
  if 128 ≤ c.toNat ∧ c.toNat < 256 then (c.toNat : Int) - 256 else (c.toNat : Int)

/-- The `char` appended to a `std::string` from an `int` holding a character:
the byte with the same low 8 bits. -/
def toChar (t : Int) : Char :=
  if t < 256 then Char.ofNat (t % 256).toNat else Char.ofNat t.toNat

/-- The value an `int` counter holds after an increment whose exact result is
`x`: 32-bit two's complement, the signed overflow wraps around. -/
def wrapInt (x : Int) : Int := (x + 2147483648) % 4294967296 - 2147483648

/-- Embeds `isspace` of `<cctype>` in the C locale. -/
def isspace (c : Int) : Bool := c == 32 || (9 ≤ c && c ≤ 13)

/-- Embeds `isdigit` of `<cctype>`. -/
def isdigit (c : Int) : Bool := 48 ≤ c && c ≤ 57

/-- Embeds `isalpha` of `<cctype>` in the C locale. -/
def isalpha (c : Int) : Bool := (65 ≤ c && c ≤ 90) || (97 ≤ c && c ≤ 122)

/-- Embeds `isalnum` of `<cctype>` in the C locale. -/
def isalnum (c : Int) : Bool := isalpha c || isdigit c

/-! ## Lexer state -/

/-- Embeds `struct Location`. -/
structure Location where
  file : String
  line : Int
  col : Int
deriving DecidableEq

/-- One line written to `std::cerr` by the lexer. -/
structure LexDiag where
  msg : String
  line : Int
  col : Int
deriving DecidableEq

/-- The data members of `class Lexer`, the line supply and the error stream. -/
structure Lexer where
  curTok : Token
  lastLocation : Location
  identifierStr : List Char
  numStr : List Char
  lastChar : Token
  curLineNum : Int
  curCol : Int
  curLineBuffer : List Char
  supply : List (List Char)
  cerr : List LexDiag
deriving DecidableEq

/-- The constructor `Lexer(filename)` with the default member initialisers. -/
def Lexer.new (filename : String) (supply : List (List Char)) : Lexer :=
  { curTok := tok_eof
    lastLocation := { file := filename, line := 0, col := 0 }
    identifierStr := []
    numStr := []
    lastChar := 32
    curLineNum := 0
    curCol := 0
    curLineBuffer := ['\n']
    supply := supply
    cerr := [] }

/-- The virtual `readNextLine()`: the next line of the supply, or the empty
line when there is none left. -/
def readNextLine (l : Lexer) : List Char × Lexer :=
  match l.supply with
  | [] => ([], l)
  | x :: xs => (x, { l with supply := xs })

/-- Embeds `Lexer::getNextChar` (the misspelt `curLineBufer` of its first test is read
as `curLineBuffer`). -/
def getNextChar (l : Lexer) : Int × Lexer :=
  match l.curLineBuffer with
  | [] => (EOF, l)
  | nextChar :: rest =>
    let l1 := { l with curLineBuffer := rest, curCol := wrapInt (l.curCol + 1) }
    if rest.isEmpty then
      let r := readNextLine { l1 with curLineNum := wrapInt (l1.curLineNum + 1), curCol := 0 }
      (code nextChar, { r.2 with curLineBuffer := r.1 })
    else
      (code nextChar, l1)

/-- The statement `lastChar = Token(getNextChar())`. -/
def advance (l : Lexer) : Lexer :=
  let r := getNextChar l
  { r.2 with lastChar := r.1 }

/-- The characters of the supply that `getNextChar` can still deliver: the
lines up to the first empty one. -/
def pendingChars : List (List Char) → List Char
  | [] => []
  | [] :: _ => []
  | (c :: cs) :: ls => (c :: cs) ++ pendingChars ls

/-- The characters that successive `getNextChar` calls are going to return. -/
def upcoming (l : Lexer) : List Char :=
  match l.curLineBuffer with
  | [] => []
  | b => b ++ pendingChars l.supply

/-- Number of characters not yet delivered; bounds every loop of `getTok`. -/
def remaining (l : Lexer) : Nat := (upcoming l).length

/-! ## `Lexer::getTok` -/

/-- Embeds `while (isspace(lastChar)) lastChar = Token(getNextChar());` -/
def skipSpacesFuel : Nat → Lexer → Lexer
  | 0, l => l
  | n + 1, l => if isspace l.lastChar then skipSpacesFuel n (advance l) else l

/-- The whitespace loop, with the bound that the input left allows. -/
def skipSpaces (l : Lexer) : Lexer := skipSpacesFuel (remaining l + 1) l

/-- The local flags of the identifier branch. -/
structure IdFlags where
  underline_in_row : Bool
  digit_in_middle : Bool
  digit_in_middle_error : Bool
  underline_in_row_error : Bool
  start_with_underline_error : Bool
deriving DecidableEq

/-- The body of the identifier `while` loop, run after `lastChar` was read and
found to be alphanumeric or `_`. -/
def identBody (l : Lexer) (f : IdFlags) : Lexer × IdFlags :=
  let l1 := { l with identifierStr := l.identifierStr ++ [toChar l.lastChar] }
  let f1 := if isdigit l1.lastChar then { f with digit_in_middle := true } else f
  let dbl := l1.lastChar == 95 && f1.underline_in_row
  let l2 := if dbl then
      { l1 with cerr := l1.cerr ++ [⟨":multiple underline in a row", l1.curLineNum, l1.curCol⟩] }
    else l1
  let f2 := if dbl then { f1 with underline_in_row_error := true } else f1
  let f3 := { f2 with underline_in_row := (l2.lastChar == 95) }
  let bad := f3.digit_in_middle && isalpha l2.lastChar
  let l3 := if bad then
      { l2 with cerr := l2.cerr ++ [⟨":digit in the middle of the identifier", l2.curLineNum, l2.curCol⟩] }
    else l2
  let f4 := if bad then { f3 with digit_in_middle_error := true } else f3
  (l3, f4)

/-- Embeds `while (isalnum((lastChar = Token(getNextChar()))) || lastChar == '_') { ... }` -/
def identLoopFuel : Nat → Lexer → IdFlags → Lexer × IdFlags
  | 0, l, f => (l, f)
  | n + 1, l, f =>
    let l1 := advance l
    if isalnum l1.lastChar || l1.lastChar == 95 then
      let r := identBody l1 f
      identLoopFuel n r.1 r.2
    else (l1, f)

/-- The identifier loop, with the bound that the input left allows. -/
def identLoop (l : Lexer) (f : IdFlags) : Lexer × IdFlags :=
  identLoopFuel (remaining l + 1) l f

/-- The statements of the identifier branch before its loop: `identifierStr =
lastChar` and the report of a leading underscore. -/
def identStart (l : Lexer) : Lexer :=
  let l1 := { l with identifierStr := [toChar l.lastChar] }
  if l1.lastChar == 95 then
    { l1 with cerr := l1.cerr ++ [⟨":identifier starts with underline", l1.curLineNum, l1.curCol⟩] }
  else l1

/-- The identifier / keyword branch of `getTok`. -/
def lexIdentifier (l : Lexer) : Token × Lexer :=
  let f : IdFlags := ⟨false, false, false, false, l.lastChar == 95⟩
  let r := identLoop (identStart l) f
  if r.1.identifierStr = "return".toList then (tok_return, r.1)
  else if r.1.identifierStr = "def".toList then (tok_def, r.1)
  else if r.1.identifierStr = "var".toList then (tok_var, r.1)
  else if r.2.underline_in_row_error || r.2.start_with_underline_error
      || r.2.digit_in_middle_error then (tok_error, r.1)
  else (tok_identifier, r.1)

/-- The `do { ... } while (isdigit(lastChar) || lastChar == '.')` loop of the
number branch; the accumulator is `numStr` and `dot_count`. -/
def numLoopFuel : Nat → Lexer → List Char → Nat → Lexer × List Char × Nat
  | 0, l, s, d => (l, s, d)
  | n + 1, l, s, d =>
    let d1 := if l.lastChar == 46 then d + 1 else d
    let s1 := s ++ [toChar l.lastChar]
    let l1 := advance l
    if isdigit l1.lastChar || l1.lastChar == 46 then numLoopFuel n l1 s1 d1
    else (l1, s1, d1)

/-- The number loop, started with empty `numStr` and `dot_count = 0`. -/
def numLoop (l : Lexer) : Lexer × List Char × Nat :=
  numLoopFuel (remaining l + 1) l [] 0

/-- The number branch of `getTok`. -/
def lexNumber (l : Lexer) : Token × Lexer :=
  let r := numLoop l
  let l1 := r.1
  let numStr := r.2.1
  let dot_count := r.2.2
  if numStr.getLast? = some '.' || numStr.head? = some '.' then
    (tok_error, { l1 with cerr := l1.cerr ++
      [⟨":the decimal point is at the beginning or end of the number", l1.curLineNum, l1.curCol⟩] })
  else if dot_count > 1 then
    (tok_error, { l1 with cerr := l1.cerr ++
      [⟨":multiple decimal points", l1.curLineNum, l1.curCol⟩] })
  else
    (tok_number, { l1 with numStr := numStr })

/-- Embeds `do { lastChar = Token(getNextChar()); } while (lastChar != EOF && lastChar != '\n' && lastChar != '\r');` -/
def commentLoopFuel : Nat → Lexer → Lexer
  | 0, l => l
  | n + 1, l =>
    let l1 := advance l
    if l1.lastChar != EOF && l1.lastChar != 10 && l1.lastChar != 13 then commentLoopFuel n l1
    else l1

/-- The comment loop, with the bound that the input left allows. -/
def commentLoop (l : Lexer) : Lexer := commentLoopFuel (remaining l + 1) l

/-- Embeds `lastLocation.line = curLineNum; lastLocation.col = curCol;` -/
def markLocation (l : Lexer) : Lexer :=
  { l with lastLocation := { l.lastLocation with line := l.curLineNum, col := l.curCol } }

/-- The body of `getTok`; `self` stands for the recursive call `getTok()` made
after a comment. -/
def getTokBody (self : Lexer → Token × Lexer) (l : Lexer) : Token × Lexer :=
  let l2 := markLocation (skipSpaces l)
  if isalpha l2.lastChar || l2.lastChar == 95 then lexIdentifier l2
  else if isdigit l2.lastChar || l2.lastChar == 46 then lexNumber l2
  else
    let isComment := l2.lastChar == 35
    let l3 := if isComment then commentLoop l2 else l2
    if isComment && l3.lastChar != EOF then self l3
    else if l3.lastChar == EOF then (tok_eof, l3)
    else (l3.lastChar, advance l3)

/-- Embeds `getTok` with a bound on the number of comment recursions. -/
def getTokFuel : Nat → Lexer → Token × Lexer
  | 0 => getTokBody (fun l => (tok_eof, l))
  | n + 1 => getTokBody (getTokFuel n)

/-- Embeds `Lexer::getTok`: every comment recursion has consumed a character, so
`remaining l` recursions are enough. -/
def getTok (l : Lexer) : Token × Lexer := getTokFuel (remaining l) l

/-- Embeds `Lexer::getNextToken`. -/
def getNextToken (l : Lexer) : Lexer :=
  let r := getTok l
  { r.2 with curTok := r.1 }

/-- Embeds `Lexer::getCurToken`. -/
def getCurToken (l : Lexer) : Token := l.curTok

/-! ## `LexerBuffer` -/

/-- Embeds `LexerBuffer::readNextLine` on the part of the buffer from `current` on;
the byte at `end` is the terminating NUL of the memory buffer, so an exhausted
buffer reads as `*current == 0`. Returns the line and the new `current`. -/
def LexerBuffer.readNextLine (cur : List Char) : List Char × List Char :=
  let inLine := fun c : Char => c != '\x00' && c != '\n'
  let line := cur.takeWhile inLine
  match cur.dropWhile inLine with
  | [] => (line, [])
  | c :: rest => if c != '\x00' then (line ++ [c], rest) else (line, c :: rest)

/-- The lines `readNextLine` returns before its first empty line. -/
def LexerBuffer.linesFuel : Nat → List Char → List (List Char)
  | 0, _ => []
  | n + 1, cur =>
    let r := LexerBuffer.readNextLine cur
    if r.1.isEmpty then [] else r.1 :: LexerBuffer.linesFuel n r.2

/-- The lines of the whole buffer, in the order `readNextLine` returns them. -/
def LexerBuffer.lines (buf : List Char) : List (List Char) :=
  LexerBuffer.linesFuel buf.length buf

/-- The constructor `LexerBuffer(begin, end, filename)`. -/
def LexerBuffer.new (buf : List Char) (filename : String) : Lexer :=
  Lexer.new filename (LexerBuffer.lines buf)

/-! ## The token stream -/

/-- Embeds `Lexer::getId`: `none` stands for the failure of its assertion
`curTok == tok_identifier`. -/
def getId (l : Lexer) : Option (List Char) :=
  if l.curTok = tok_identifier then some l.identifierStr else none

/-- Embeds `Lexer::getValue`, on the numeral text; `none` stands for the failure of
its assertion `curTok == tok_number`. -/
def getValue (l : Lexer) : Option (List Char) :=
  if l.curTok = tok_number then some l.numStr else none

/-- Embeds `Lexer::consume`: `none` stands for the failure of its assertion
`tok == curTok`. -/
def consume (l : Lexer) (tok : Token) : Option Lexer :=
  if tok = l.curTok then some (getNextToken l) else none

/-- A token as a client of the lexer observes it: its kind, its text when it is
an identifier, its numeral when it is a number. -/
structure TokenRec where
  kind : Token
  text : Option (List Char)
  value : Option (List Char)
deriving DecidableEq

/-- The current token of `l` as a `TokenRec`. -/
def curTokenRec (l : Lexer) : TokenRec :=
  { kind := l.curTok, text := getId l, value := getValue l }

/-- The tokens delivered by successive `getNextToken` calls, up to the first
end-of-stream token. -/
def tokensFuel : Nat → Lexer → List TokenRec
  | 0, _ => []
  | n + 1, l =>
    let l1 := getNextToken l
    if l1.curTok = tok_eof then [] else curTokenRec l1 :: tokensFuel n l1

/-- Every token before end-of-stream consumes a character, so
`remaining l + 1` rounds are enough. -/
def tokens (l : Lexer) : List TokenRec := tokensFuel (remaining l + 1) l

/-! ## AST and parser state -/

/-- Modelled from the spec: the expression node classes of the AST (their
declarations are not part of the sources at hand): number literal, variable
reference, call, print and binary expression. The source location stored in
every node is left out. -/
inductive ExprAST where
  | Number (value : List Char)
  | Variable (name : List Char)
  | Call (callee : List Char) (args : List ExprAST)
  | Print (arg : ExprAST)
  | Binary (op : Int) (lhs rhs : ExprAST)

/-- Modelled from the spec: the node `VarDeclExprAST`, with name, type and
initializer; `τ` is the class `VarType`. The initializer is the owning pointer
handed to the constructor and can be null (`none`). -/
structure VarDeclExprAST (τ : Type) where
  name : List Char
  type : τ
  init : Option ExprAST

/-- One message of `parseError`: "expected `expected` `context`" with the
location of the current token and the current token. -/
structure ParseDiag where
  expected : String
  context : String
  loc : Location
  tok : Token
deriving DecidableEq

/-- The parser: its lexer and the messages it has reported. -/
structure Parser where
  lexer : Lexer
  errs : List ParseDiag
deriving DecidableEq

/-- How a parse routine ends: it returns a node or the null pointer (`ret`),
an assertion of the lexer fails (`assertFail`), or the bound on loop rounds of
the embedding is used up (`outOfFuel`). -/
inductive Outcome (α : Type) where
  | ret (node : Option α) (p : Parser)
  | assertFail
  | outOfFuel

/-- Modelled from the spec: `parseError` (declared outside the sources at
hand) reports "expected ... ..." at the current location and returns
failure. -/
def parseError {α : Type} (p : Parser) (expected context : String) : Outcome α :=
  .ret none { p with errs := p.errs ++
    [⟨expected, context, p.lexer.lastLocation, p.lexer.curTok⟩] }

/-- Embeds `lexer.getNextToken()` inside the parser. -/
def Parser.next (p : Parser) : Parser := { p with lexer := getNextToken p.lexer }

/-- Embeds `lexer.getCurToken()` inside the parser. -/
def Parser.cur (p : Parser) : Token := getCurToken p.lexer

/-- Embeds `lexer.consume(tok)` inside the parser. -/
def Parser.consume (p : Parser) (tok : Token) : Option Parser :=
  match pony.consume p.lexer tok with
  | none => none
  | some l => some { p with lexer := l }

/-- A parser on a fresh `LexerBuffer`, primed with the first token. -/
def Parser.new (buf : List Char) (filename : String) : Parser :=
  { lexer := getNextToken (LexerBuffer.new buf filename), errs := [] }

/-! ## `parser.cpp` -/

/-- The tail of `parseDeclaration`, from `if (!type)` on. -/
def parseDeclarationInit {τ : Type} (dflt : τ)
    (parseExpression : Parser → Outcome ExprAST)
    (id : List Char) (type : Option τ) (p : Parser) : Outcome (VarDeclExprAST τ) :=
  let ty := match type with
    | none => dflt
    | some t => t
  match p.consume 61 with
  | none => .assertFail
  | some p1 =>
    match parseExpression p1 with
    | .ret expr p2 => .ret (some ⟨id, ty, expr⟩) p2
    | .assertFail => .assertFail
    | .outOfFuel => .outOfFuel

/-- Embeds `parseDeclaration`. The routines `parseType` and `parseExpression` and the
default-constructed `VarType` (`dflt`) are parameters. -/
def parseDeclaration {τ : Type} (dflt : τ) (parseType : Parser → Outcome τ)
    (parseExpression : Parser → Outcome ExprAST) (p : Parser) :
    Outcome (VarDeclExprAST τ) :=
  if p.cur ≠ tok_var then parseError p "var" "in variable declaration"
  else
    let p1 := p.next
    if p1.cur ≠ tok_identifier ∧ p1.cur ≠ 60 then
      parseError p1 "identifier or type" "in variable and type declaration"
    else if p1.cur = tok_identifier then
      match getId p1.lexer with
      | none => .assertFail
      | some id =>
        let p2 := p1.next
        if p2.cur = 60 then
          match parseType p2 with
          | .ret none p3 => .ret none p3
          | .ret (some ty) p3 => parseDeclarationInit dflt parseExpression id (some ty) p3
          | .assertFail => .assertFail
          | .outOfFuel => .outOfFuel
        else parseDeclarationInit dflt parseExpression id none p2
    else if p1.cur = 60 then
      match parseType p1 with
      | .ret none p2 => .ret none p2
      | .ret (some ty) p2 =>
        if p2.cur ≠ tok_identifier then parseError p2 "identifier" "in variable declaration"
        else
          match getId p2.lexer with
          | none => .assertFail
          | some id => parseDeclarationInit dflt parseExpression id (some ty) p2.next
      | .assertFail => .assertFail
      | .outOfFuel => .outOfFuel
    else parseDeclarationInit dflt parseExpression [] none p1

/-- The `while (true)` loop of `parseIdentifierExpr` that collects the
arguments; returns the argument list, or the null pointer after a failure. -/
def parseArgs (parseExpression : Parser → Outcome ExprAST) :
    Nat → List ExprAST → Parser → Outcome (List ExprAST)
  | 0, _, _ => .outOfFuel
  | n + 1, args, p =>
    match parseExpression p with
    | .ret none p1 => .ret none p1
    | .ret (some arg) p1 =>
      let args1 := args ++ [arg]
      if p1.cur = 41 then .ret (some args1) p1
      else if p1.cur ≠ 44 then
        parseError p1 ") or ," "to close function call or input arguments"
      else parseArgs parseExpression n args1 p1.next
    | .assertFail => .assertFail
    | .outOfFuel => .outOfFuel

/-- The end of `parseIdentifierExpr`, from `lexer.consume(Token(')'))` on. -/
def finishCall (identifier : List Char) (args : List ExprAST) (p : Parser) : Outcome ExprAST :=
  match p.consume 41 with
  | none => .assertFail
  | some p1 =>
    if identifier = "print".toList then
      match args with
      | [arg] => .ret (some (.Print arg)) p1
      | _ => parseError p1 "one argument" "for print statement"
    else .ret (some (.Call identifier args)) p1

/-- Embeds `parseIdentifierExpr`, with `parseExpression` as a parameter and a bound on
the rounds of the argument loop. -/
def parseIdentifierExpr (parseExpression : Parser → Outcome ExprAST) (fuel : Nat)
    (p : Parser) : Outcome ExprAST :=
  match getId p.lexer with
  | none => .assertFail
  | some identifier =>
    let p1 := p.next
    if p1.cur ≠ 40 then .ret (some (.Variable identifier)) p1
    else
      match p1.consume 40 with
      | none => .assertFail
      | some p2 =>
        if p2.cur ≠ 41 then
          match parseArgs parseExpression fuel [] p2 with
          | .ret none p3 => .ret none p3
          | .ret (some args) p3 => finishCall identifier args p3
          | .assertFail => .assertFail
          | .outOfFuel => .outOfFuel
        else finishCall identifier [] p2

/-- Embeds `isascii`. -/
def isascii (c : Int) : Bool := 0 ≤ c && c ≤ 127

/-- Embeds `getTokPrecedence`. -/
def getTokPrecedence (p : Parser) : Int :=
  if !isascii p.cur then -1
  else if p.cur = 45 then 20
  else if p.cur = 43 then 20
  else if p.cur = 42 then 40
  else if p.cur = 64 then 40
  else -1

/-- Embeds `parseBinOpRHS`, with `parsePrimary` as a parameter; the bound counts the
rounds of the `while (true)` loop and the nested calls. -/
def parseBinOpRHS (parsePrimary : Parser → Outcome ExprAST) :
    Nat → Int → ExprAST → Parser → Outcome ExprAST
  | 0, _, _, _ => .outOfFuel
  | n + 1, exprPrec, lhs, p =>
    let tokPrec := getTokPrecedence p
    if tokPrec < exprPrec then .ret (some lhs) p
    else
      let binOp := p.cur
      match p.consume binOp with
      | none => .assertFail
      | some p1 =>
        match parsePrimary p1 with
        | .ret none p2 => parseError p2 "primary" "in binary expression"
        | .ret (some rhs) p2 =>
          let nextPrec := getTokPrecedence p2
          if nextPrec < nextPrec then
            match parseBinOpRHS parsePrimary n (tokPrec + 1) rhs p2 with
            | .ret none p3 => .ret none p3
            | .ret (some rhs1) p3 => parseBinOpRHS parsePrimary n exprPrec (.Binary binOp lhs rhs1) p3
            | .assertFail => .assertFail
            | .outOfFuel => .outOfFuel
          else parseBinOpRHS parsePrimary n exprPrec (.Binary binOp lhs rhs) p2
        | .assertFail => .assertFail
        | .outOfFuel => .outOfFuel

/-- Modelled from the spec: `parseExpression` (not in the sources at hand) is
`parsePrimary` followed by `parseBinOpRHS(0, lhs)`; a failed primary is
returned as failure. -/
def parseExpression (parsePrimary : Parser → Outcome ExprAST) (fuel : Nat) (p : Parser) :
    Outcome ExprAST :=
  match parsePrimary p with
  | .ret none p1 => .ret none p1
  | .ret (some lhs) p1 => parseBinOpRHS parsePrimary fuel 0 lhs p1
  | .assertFail => .assertFail
  | .outOfFuel => .outOfFuel

/-- Modelled from the spec: `parsePrimary` (not in the sources at hand)
dispatches on the current token to a number literal, a parenthesized
expression, an identifier expression, and reports "expected expression"
otherwise. -/
def parsePrimary : Nat → Parser → Outcome ExprAST
  | 0, _ => .outOfFuel
  | n + 1, p =>
    if p.cur = tok_identifier then
      parseIdentifierExpr (parseExpression (parsePrimary n) n) n p
    else if p.cur = tok_number then
      match getValue p.lexer with
      | none => .assertFail
      | some v => .ret (some (.Number v)) p.next
    else if p.cur = 40 then
      match parseExpression (parsePrimary n) n p.next with
      | .ret none p1 => .ret none p1
      | .ret (some e) p1 =>
        if p1.cur ≠ 41 then parseError p1 ")" "to close expression with parentheses"
        else .ret (some e) p1.next
      | .assertFail => .assertFail
      | .outOfFuel => .outOfFuel
    else parseError p "expression" "in primary expression"

/-- The tokens of a type annotation up to the closing `>`, for `parseType`
below. -/
def parseTypeTokens : Nat → List TokenRec → Parser → Outcome (List TokenRec)
  | 0, _, _ => .outOfFuel
  | n + 1, acc, p =>
    if p.cur = 62 then .ret (some acc) p.next
    else if p.cur = tok_eof then parseError p ">" "to end type"
    else parseTypeTokens n (acc ++ [curTokenRec p.lexer]) p.next

/-- Modelled from the spec: `parseType` (not in the sources at hand) parses a
bracketed type annotation `<` ... `>` and returns a type node or fails with a
diagnostic; the node is kept as the list of the tokens between the brackets. -/
def parseType (fuel : Nat) (p : Parser) : Outcome (List TokenRec) :=
  if p.cur ≠ 60 then parseError p "<" "to begin type"
  else parseTypeTokens fuel [] p.next

/-! ## What the lexer sees -/

/-- The lookahead character of `l` followed by the input not yet delivered is
the text `cs` (`[]`: the lookahead is `EOF` and nothing is left). -/
def Sees (l : Lexer) : List Char → Prop
  | [] => l.lastChar = EOF ∧ upcoming l = []
  | c :: t => l.lastChar = code c ∧ upcoming l = t

/-- The three keywords. -/
def keywords : List (List Char) := ["return".toList, "def".toList, "var".toList]

/-- Characters that continue an identifier: letters, digits, underscore. -/
def isIdentChar (c : Char) : Bool := isalnum (code c) || code c == 95

/-- Characters that continue a number: digits and the decimal point. -/
def isNumChar (c : Char) : Bool := isdigit (code c) || code c == 46

/-- Characters of a comment body: all but newline and carriage return. -/
def isCommentChar (c : Char) : Bool := c != '\n' && c != '\r'

/-- The test `lastChar != EOF && lastChar != '\n' && lastChar != '\r'` of the
comment loop on the value of the character `c`: byte 255 ends the loop as a
line break does. -/
def continuesComment (c : Char) : Bool := code c != EOF && code c != 10 && code c != 13

/-- Effect of one identifier-loop iteration on the flags, for the character
code `c` just read. -/
def idStep (f : IdFlags) (c : Char) : IdFlags :=
  let d := f.digit_in_middle || isdigit (code c)
  { underline_in_row := (c == '_')
    digit_in_middle := d
    digit_in_middle_error := f.digit_in_middle_error || (d && isalpha (code c))
    underline_in_row_error := f.underline_in_row_error || (c == '_' && f.underline_in_row)
    start_with_underline_error := f.start_with_underline_error }

/-- The node a parse routine returned, if it returned one. -/
def Outcome.node {α : Type} : Outcome α → Option α
  | .ret n _ => n
  | .assertFail => none
  | .outOfFuel => none

/-! ## Token streams in front of the parser, in the words of the specification -/

/-- The parser at `q` is in front of `e1 , e2 , ... , ek )` with `k ≥ 1`: the
expression parser `parseExpression` returns `e1`, ..., `ek` in turn, a comma
follows each but the last, and `q'` is the parser whose current token is the
closing parenthesis. -/
inductive ArgList (parseExpression : Parser → Outcome ExprAST) :
    Parser → List ExprAST → Parser → Prop where
  | last {q q' : Parser} {e : ExprAST} :
      parseExpression q = .ret (some e) q' → q'.cur = 41 → ArgList parseExpression q [e] q'
  | more {q q' q'' : Parser} {e : ExprAST} {es : List ExprAST} :
      parseExpression q = .ret (some e) q' → q'.cur = 44 →
      ArgList parseExpression q'.next es q'' → ArgList parseExpression q (e :: es) q''

/-- The parser at `q`, just after `(`, is in front of `e1 , ... , ek )` with
`k ≥ 0`; `q'` is the parser whose current token is the closing parenthesis. -/
def CallArgs (parseExpression : Parser → Outcome ExprAST) (q : Parser) (es : List ExprAST)
    (q' : Parser) : Prop :=
  (es = [] ∧ q.cur = 41 ∧ q' = q) ∨ (q.cur ≠ 41 ∧ ArgList parseExpression q es q')

/-- The parser at `p` is in front of `var n <t> = e`: `parseType` accepts the
annotation as `ty`, `parseExpression` returns `e` and leaves the parser `r`. -/
def DeclNameThenType {τ : Type} (parseType : Parser → Outcome τ)
    (parseExpression : Parser → Outcome ExprAST) (p : Parser) (n : List Char) (ty : τ)
    (e : ExprAST) (r : Parser) : Prop :=
  p.cur = tok_var ∧ p.next.cur = tok_identifier ∧ p.next.lexer.identifierStr = n ∧
  p.next.next.cur = 60 ∧
  ∃ q, parseType p.next.next = .ret (some ty) q ∧ q.cur = 61 ∧
    parseExpression q.next = .ret (some e) r

/-- The parser at `p` is in front of `var <t> n = e`. -/
def DeclTypeThenName {τ : Type} (parseType : Parser → Outcome τ)
    (parseExpression : Parser → Outcome ExprAST) (p : Parser) (n : List Char) (ty : τ)
    (e : ExprAST) (r : Parser) : Prop :=
  p.cur = tok_var ∧ p.next.cur = 60 ∧
  ∃ q, parseType p.next = .ret (some ty) q ∧ q.cur = tok_identifier ∧
    q.lexer.identifierStr = n ∧ q.next.cur = 61 ∧
    parseExpression q.next.next = .ret (some e) r

/-- The parser at `p` is in front of `var n = e`. -/
def DeclNoType (parseExpression : Parser → Outcome ExprAST) (p : Parser) (n : List Char)
    (e : ExprAST) (r : Parser) : Prop :=
  p.cur = tok_var ∧ p.next.cur = tok_identifier ∧ p.next.lexer.identifierStr = n ∧
  p.next.next.cur = 61 ∧ parseExpression p.next.next.next = .ret (some e) r

/-! ## Shapes of identifiers and numbers, in the words of the specification -/

/-- The text starts with a letter. -/
def StartsWithLetter (r : List Char) : Prop :=
  ∃ c t, r = c :: t ∧ isalpha (code c) = true

/-- The text contains two consecutive underscores. -/
def HasDoubleUnderscore (r : List Char) : Prop := ['_', '_'] <:+: r

/-- Somewhere in the text a letter comes after a digit. -/
def HasLetterAfterDigit (r : List Char) : Prop :=
  ∃ a d b x c, r = a ++ d :: (b ++ x :: c) ∧ isdigit (code d) = true ∧ isalpha (code x) = true

/-- A well-formed identifier: starts with a letter, no doubled underscore, no
letter after a digit. -/
def ValidIdentifier (r : List Char) : Prop :=
  StartsWithLetter r ∧ ¬ HasDoubleUnderscore r ∧ ¬ HasLetterAfterDigit r

/-- The text matches `[a-zA-Z][a-zA-Z_]*[0-9]*`. -/
def MatchesIdentifierRegex (s : List Char) : Prop :=
  ∃ c a d, s = c :: (a ++ d) ∧ isalpha (code c) = true ∧
    (∀ x ∈ a, isalpha (code x) = true ∨ x = '_') ∧ (∀ x ∈ d, isdigit (code x) = true)

/-- Two results of `getTok` that a client of the lexer cannot tell apart: the
same token kind, the same identifier text and numeral held by the lexer, and
both lexers are left in front of the same text, which has at most `N`
characters (fewer than `N` unless the token is end-of-stream). -/
def Agree (N : Nat) (r1 r2 : Token × Lexer) : Prop :=
  r1.1 = r2.1 ∧
  r1.2.identifierStr = r2.2.identifierStr ∧
  r1.2.numStr = r2.2.numStr ∧
  ∃ ds, Sees r1.2 ds ∧ Sees r2.2 ds ∧ ds.length ≤ N ∧ (r1.1 ≠ tok_eof → ds.length < N)

/-- At its scan position (after optional whitespace) the lexer `l` is in front
of the run `r` of characters of the class `p`, and the run is maximal: the
input ends after it or goes on with a character outside the class. -/
def ScansRun (l : Lexer) (p : Char → Bool) (r : List Char) : Prop :=
  ∃ ws rest, Sees l (ws ++ r ++ rest) ∧ (∀ c ∈ ws, isspace (code c) = true) ∧
    r ≠ [] ∧ (∀ c ∈ r, p c = true) ∧ (∀ c ∈ rest.head?, p c = false)


/-! ## Operator chains, in the words of the specification -/

/-- The loop of `parseBinOpRHS` with the recursive call on the right-hand side
left out: the operator is consumed, the next primary becomes the right operand,
and the two operands are combined. -/
def parseBinOpRHSLoop (parsePrimary : Parser → Outcome ExprAST) :
    Nat → Int → ExprAST → Parser → Outcome ExprAST
  | 0, _, _, _ => .outOfFuel
  | n + 1, exprPrec, lhs, p =>
    if getTokPrecedence p < exprPrec then .ret (some lhs) p
    else
      match p.consume p.cur with
      | none => .assertFail
      | some p1 =>
        match parsePrimary p1 with
        | .ret none p2 => parseError p2 "primary" "in binary expression"
        | .ret (some rhs) p2 => parseBinOpRHSLoop parsePrimary n exprPrec (.Binary p.cur lhs rhs) p2
        | .assertFail => .assertFail
        | .outOfFuel => .outOfFuel

/-- The parser at `p` is in front of `op1 p1 op2 p2 ... opn pn` followed by a
token that is no binary operator: every `opi` is a binary operator,
`parsePrimary` returns `pi` after it, and `q` is the parser left after `pn`.
The chain is listed as the pairs `(opi, pi)`. -/
inductive OperatorChain (parsePrimary : Parser → Outcome ExprAST) :
    Parser → List (Int × ExprAST) → Parser → Prop where
  | stop {p : Parser} : getTokPrecedence p < 0 → OperatorChain parsePrimary p [] p
  | op {p p' q : Parser} {e : ExprAST} {rest : List (Int × ExprAST)} :
      0 ≤ getTokPrecedence p → parsePrimary p.next = .ret (some e) p' →
      OperatorChain parsePrimary p' rest q →
      OperatorChain parsePrimary p ((p.cur, e) :: rest) q

/-- The left-nested tree `BinaryExpr(opn, ... BinaryExpr(op1, lhs, p1) ..., pn)`. -/
def leftNested (lhs : ExprAST) (ops : List (Int × ExprAST)) : ExprAST :=
  ops.foldl (fun acc oe => .Binary oe.1 acc oe.2) lhs

/-! ## `dumpToken` of `ponyc.cpp` -/

/-- Embeds `std::string::find(c)`: the index of the first `c`, `none` for `npos`. -/
def strFind (s : List Char) (c : Char) : Option Nat :=
  match s with
  | [] => none
  | x :: t => if x = c then some 0 else (strFind t c).map (· + 1)

/-- Embeds `std::string::find_last_not_of(c)`: the index of the last character
other than `c`, `none` for `npos`. -/
def strFindLastNotOf (s : List Char) (c : Char) : Option Nat :=
  match s with
  | [] => none
  | x :: t =>
    match strFindLastNotOf t c with
    | some i => some (i + 1)
    | none => if x ≠ c then some 0 else none

/-- The trimming of the printed number in `dumpToken`: the two `erase` calls
on `numStr`. `npos + 1` wraps to 0; `erase(npos)` throws `std::out_of_range`,
which is the result `none`. -/
def trimNumber (numStr : List Char) : Option (List Char) :=
  let dot := strFind numStr '.'
  let last := strFindLastNotOf numStr '0'
  if dot ≠ last then
    some (numStr.take (match last with
      | none => 0
      | some i => i + 1))
  else
    match dot with
    | some i => some (numStr.take i)
    | none => none

/-- The body of the `do` loop of `dumpToken`: what the current token adds to
the vector `tokens`. The parameter `to_string` stands for
`std::to_string(strtod(numStr))` on the numeral text; `none` is a failed
assertion or an exception. -/
def dumpStep (to_string : List Char → List Char) (l : Lexer) (tokens : List (List Char)) :
    Option (List (List Char)) :=
  if getCurToken l = tok_identifier then
    match getId l with
    | none => none
    | some s => some (tokens ++ [s])
  else if getCurToken l = tok_number then
    match getValue l with
    | none => none
    | some v =>
      match trimNumber (to_string v) with
      | none => none
      | some t => some (tokens ++ [t])
  else if getCurToken l = tok_def then some (tokens ++ ["def".toList])
  else if getCurToken l = tok_var then some (tokens ++ ["var".toList])
  else if getCurToken l = tok_return then some (tokens ++ ["return".toList])
  else if getCurToken l = tok_eof then some tokens
  else if getCurToken l = 59 ∨ getCurToken l = 40 ∨ getCurToken l = 41 ∨ getCurToken l = 123 ∨
      getCurToken l = 125 ∨ getCurToken l = 91 ∨ getCurToken l = 93 ∨ getCurToken l = 44 then
    some (tokens ++ [[toChar (getCurToken l)]])
  else if getCurToken l = 0 then some (tokens ++ ["ERROR_TOKEN".toList])
  else some tokens

/-- The loop `do { ... } while (lexer.getNextToken() != tok_eof)` of
`dumpToken`. -/
def dumpLoop (to_string : List Char → List Char) :
    Nat → Lexer → List (List Char) → Option (List (List Char))
  | 0, _, tokens => some tokens
  | n + 1, l, tokens =>
    match dumpStep to_string l tokens with
    | none => none
    | some tokens1 =>
      let l1 := getNextToken l
      if getCurToken l1 ≠ tok_eof then dumpLoop to_string n l1 tokens1 else some tokens1

/-- Embeds `dumpToken` from the point where the buffer is loaded: the vector
`tokens` at the end of the loop. Every round but the last has delivered a token
that is not end-of-stream, so `remaining + 2` rounds are enough. -/
def dumpToken (to_string : List Char → List Char) (buffer : List Char)
    (inputFilename : String) : Option (List (List Char)) :=
  let lexer := getNextToken (LexerBuffer.new buffer inputFilename)
  dumpLoop to_string (remaining lexer + 2) lexer []

/-- The text written to `std::cout` at the end of `dumpToken`: every entry of
the vector followed by a space, then the end of line. -/
def dumpOutput (tokens : List (List Char)) : List Char :=
  (tokens.map (fun t => t ++ [' '])).flatten ++ ['\n']

/-- The kinds of token `getTok` can return: a keyword, an identifier, a number,
end-of-stream, the lexical-error token, or a single character. -/
def IsToken (t : Token) : Prop :=
  t ∈ [tok_return, tok_def, tok_var, tok_identifier, tok_number, tok_eof, tok_error] ∨
  ∃ c : Char, t = code c

/-! ## Blank text, the character pump and locations -/

/-- Text that `getTok` passes over: whitespace and comments that end with a
line break. -/
inductive Skippable : List Char → Prop where
  | nil : Skippable []
  | space {x : Char} {s : List Char} :
      isspace (code x) = true → Skippable s → Skippable (x :: s)
  | comment {body s : List Char} {e : Char} :
      (∀ x ∈ body, isCommentChar x = true) → (e = '\n' ∨ e = '\r') → Skippable s →
      Skippable ('#' :: (body ++ e :: s))

/-- Text that consists of whitespace and `#` line comments only; the last
comment may end with the input. -/
def OnlyBlank (cs : List Char) : Prop :=
  ∃ skip tail, cs = skip ++ tail ∧ Skippable skip ∧
    (tail = [] ∨ ∃ body, tail = '#' :: body ∧ ∀ x ∈ body, isCommentChar x = true)

/-- The members of the lexer that `getNextChar` reads and writes. -/
def pump (l : Lexer) : Int × Int × List Char × List (List Char) :=
  (l.curLineNum, l.curCol, l.curLineBuffer, l.supply)

/-- The character pump of `l'` is the one of `l` after some `getNextChar`
calls. -/
inductive Pumped : Lexer → Lexer → Prop where
  | same {l l' : Lexer} : pump l' = pump l → Pumped l l'
  | step {l l' l'' : Lexer} : Pumped l l' → pump l'' = pump (advance l') → Pumped l l''

/-- The lexer `l'` comes from `l` by reading characters, the recorded location
untouched. -/
def Moves (l l' : Lexer) : Prop := Pumped l l' ∧ l'.lastLocation = l.lastLocation

/-- The lexer `r` comes from `l` by one token scan: characters are read up to a
state `m`, whose line and column counter become the recorded location, and
more characters are read after that. -/
def ScanFrom (l r : Lexer) : Prop :=
  ∃ m, Pumped l m ∧ Pumped m r ∧ r.lastLocation.file = l.lastLocation.file ∧
    r.lastLocation.line = m.curLineNum ∧ r.lastLocation.col = m.curCol

/-- The order of locations: by line, then by column. -/
def locLe (line1 col1 line2 col2 : Int) : Prop :=
  line1 < line2 ∨ (line1 = line2 ∧ col1 ≤ col2)

/-- The character pump of `l` is at a position of the text `L`, given as the
list of its lines with the initial buffer first: `B` are the lines read,
`p ++ q` is the line in the buffer, of which `p` is read and `q` is left; the
line counter is the number of lines read and the column counter the number of
characters read of the line, both as 32-bit `int`. When the text is read to
its end the buffer is empty, the column counter is zero and the line counter
is the number of lines read. -/
def PumpAt (L : List (List Char)) (l : Lexer) : Prop :=
  (∃ B p q A, L = B ++ (p ++ q) :: A ∧ q ≠ [] ∧ l.curLineBuffer = q ∧ l.supply = A ∧
    l.curLineNum = wrapInt (B.length : Int) ∧ l.curCol = wrapInt (p.length : Int)) ∨
  (l.curLineBuffer = [] ∧ l.curCol = 0 ∧
    ∃ k : Nat, k ≤ L.length ∧ l.curLineNum = wrapInt (k : Int))

/-! ## Successive calls of the two readers -/

/-- The values returned by `n` successive `getNextChar` calls. -/
def getNextChars : Nat → Lexer → List Int
  | 0, _ => []
  | n + 1, l => (getNextChar l).1 :: getNextChars n (getNextChar l).2

/-- The lines returned by `n` successive `LexerBuffer::readNextLine` calls,
`cur` being the part of the buffer from `current` on. -/
def LexerBuffer.readNextLines : Nat → List Char → List (List Char)
  | 0, _ => []
  | n + 1, cur =>
    (LexerBuffer.readNextLine cur).1 ::
      LexerBuffer.readNextLines n (LexerBuffer.readNextLine cur).2

/-! ## The diagnostics of the identifier loop -/

/-- The number of letters of `r` that stand after its first digit. -/
def lettersAfterFirstDigit (r : List Char) : Nat :=
  ((r.dropWhile (fun c => !isdigit (code c))).filter (fun c => isalpha (code c))).length

/-- The messages the identifier loop writes to `std::cerr` while it reads the
characters `m` one by one, started with the flags `f`. -/
def idMsgs : IdFlags → List Char → List String
  | _, [] => []
  | f, c :: t =>
    (if c == '_' && f.underline_in_row then [":multiple underline in a row"] else []) ++
    (if (idStep f c).digit_in_middle && isalpha (code c) then
      [":digit in the middle of the identifier"] else []) ++
    idMsgs (idStep f c) t

/-! ## The loops of `getTok`, counted -/

/-- Embeds `while (isspace(lastChar)) lastChar = Token(getNextChar());` run for at
most `n` tests of its condition: `none` when the loop is still running after
them. -/
def skipSpacesRun : Nat → Lexer → Option Lexer
  | 0, _ => none
  | n + 1, l => if isspace l.lastChar then skipSpacesRun n (advance l) else some l

/-- Embeds `while (isalnum((lastChar = Token(getNextChar()))) || lastChar == '_') { ... }`
run for at most `n` tests of its condition: `none` when the loop is still
running after them. -/
def identLoopRun : Nat → Lexer → IdFlags → Option (Lexer × IdFlags)
  | 0, _, _ => none
  | n + 1, l, f =>
    let l1 := advance l
    if isalnum l1.lastChar || l1.lastChar == 95 then
      let r := identBody l1 f
      identLoopRun n r.1 r.2
    else some (l1, f)

/-- Embeds `do { ... } while (isdigit(lastChar) || lastChar == '.')` of the number
branch run for at most `n` rounds: `none` when the loop is still running after
them. -/
def numLoopRun : Nat → Lexer → List Char → Nat → Option (Lexer × List Char × Nat)
  | 0, _, _, _ => none
  | n + 1, l, s, d =>
    let d1 := if l.lastChar == 46 then d + 1 else d
    let s1 := s ++ [toChar l.lastChar]
    let l1 := advance l
    if isdigit l1.lastChar || l1.lastChar == 46 then numLoopRun n l1 s1 d1
    else some (l1, s1, d1)

/-- Embeds `do { lastChar = Token(getNextChar()); } while (lastChar != EOF && lastChar != '\n' && lastChar != '\r');`
run for at most `n` rounds: `none` when the loop is still running after
them. -/
def commentLoopRun : Nat → Lexer → Option Lexer
  | 0, _ => none
  | n + 1, l =>
    let l1 := advance l
    if l1.lastChar != EOF && l1.lastChar != 10 && l1.lastChar != 13 then commentLoopRun n l1
    else some l1

/-- The identifier / keyword branch of `getTok` with its loop run for at most
`n` tests. -/
def lexIdentifierRun (n : Nat) (l : Lexer) : Option (Token × Lexer) :=
  let f : IdFlags := ⟨false, false, false, false, l.lastChar == 95⟩
  match identLoopRun n (identStart l) f with
  | none => none
  | some r =>
    if r.1.identifierStr = "return".toList then some (tok_return, r.1)
    else if r.1.identifierStr = "def".toList then some (tok_def, r.1)
    else if r.1.identifierStr = "var".toList then some (tok_var, r.1)
    else if r.2.underline_in_row_error || r.2.start_with_underline_error
        || r.2.digit_in_middle_error then some (tok_error, r.1)
    else some (tok_identifier, r.1)

/-- The number branch of `getTok` with its loop run for at most `n` rounds. -/
def lexNumberRun (n : Nat) (l : Lexer) : Option (Token × Lexer) :=
  match numLoopRun n l [] 0 with
  | none => none
  | some r =>
    let l1 := r.1
    let numStr := r.2.1
    let dot_count := r.2.2
    if numStr.getLast? = some '.' || numStr.head? = some '.' then
      some (tok_error, { l1 with cerr := l1.cerr ++
        [⟨":the decimal point is at the beginning or end of the number",
          l1.curLineNum, l1.curCol⟩] })
    else if dot_count > 1 then
      some (tok_error, { l1 with cerr := l1.cerr ++
        [⟨":multiple decimal points", l1.curLineNum, l1.curCol⟩] })
    else
      some (tok_number, { l1 with numStr := numStr })

/-- Embeds `Lexer::getTok` with every loop run for at most `n` rounds and at most
`n` nested calls after comments: `none` when a loop or the recursion is still
running after them, `some` with the token and the lexer when `getTok`
returns. -/
def getTokRun : Nat → Lexer → Option (Token × Lexer)
  | 0, _ => none
  | n + 1, l =>
    match skipSpacesRun n l with
    | none => none
    | some l1 =>
      let l2 := markLocation l1
      if isalpha l2.lastChar || l2.lastChar == 95 then lexIdentifierRun n l2
      else if isdigit l2.lastChar || l2.lastChar == 46 then lexNumberRun n l2
      else
        let isComment := l2.lastChar == 35
        match (if isComment then commentLoopRun n l2 else some l2) with
        | none => none
        | some l3 =>
          if isComment && l3.lastChar != EOF then getTokRun n l3
          else if l3.lastChar == EOF then some (tok_eof, l3)
          else some (l3.lastChar, advance l3)

/-! ## Characters and codes -/

theorem code_inj {a b : Char} (h : code a = code b) : a = b := by
  unfold code at h
  have : a.toNat = b.toNat := by
    split_ifs at h <;> omega
  rw [← Char.ofNat_toNat a, ← Char.ofNat_toNat b, this]

theorem toChar_code (c : Char) : toChar (code c) = c := by
  unfold toChar code
  by_cases h : 128 ≤ c.toNat ∧ c.toNat < 256
  · rw [if_pos h, if_pos (by omega)]
    have : ((c.toNat : Int) - 256) % 256 = (c.toNat : Int) := by omega
    rw [this]
    simp
  · rw [if_neg h]
    by_cases h2 : (c.toNat : Int) < 256
    · rw [if_pos h2]
      have : (c.toNat : Int) % 256 = (c.toNat : Int) := by omega
      rw [this]
      simp
    · rw [if_neg h2]
      simp

/-- Byte 255 is the one character whose `int` value is `EOF`. -/
theorem code_eq_EOF_iff (c : Char) : code c = EOF ↔ c = '\xFF' := by
  constructor
  · intro h
    unfold code EOF at h
    have : c.toNat = 255 := by
      split_ifs at h
      omega
    rw [← Char.ofNat_toNat c, this]
  · rintro rfl
    decide

theorem code_ne_EOF (c : Char) (h : c ≠ '\xFF') : code c ≠ EOF :=
  fun e => h ((code_eq_EOF_iff c).mp e)

/-- A character with a non-negative `int` value is not byte 255. -/
theorem code_of_nonneg (c : Char) (h : 0 ≤ code c) : c ≠ '\xFF' := by
  rintro rfl
  exact absurd h (by decide)

theorem code_beq (c d : Char) : (code c == code d) = (c == d) := by
  by_cases h : c = d
  · subst h; simp
  · have : code c ≠ code d := fun e => h (code_inj e)
    simp [h, this]

theorem code_underscore : code '_' = 95 := by decide
theorem code_dot : code '.' = 46 := by decide
theorem code_newline : code '\n' = 10 := by decide
theorem code_return : code '\r' = 13 := by decide
theorem code_hash : code '#' = 35 := by decide

theorem code_beq_underscore (c : Char) : (code c == 95) = (c == '_') := by
  rw [← code_underscore, code_beq]

theorem code_beq_dot (c : Char) : (code c == 46) = (c == '.') := by
  rw [← code_dot, code_beq]

/-! ## The character pump, seen through `upcoming` -/

theorem upcoming_nil_iff (l : Lexer) : upcoming l = [] ↔ l.curLineBuffer = [] := by
  unfold upcoming
  cases h : l.curLineBuffer <;> simp

theorem getNextChar_nil (l : Lexer) (h : upcoming l = []) : getNextChar l = (EOF, l) := by
  rw [upcoming_nil_iff] at h
  unfold getNextChar
  rw [h]

theorem getNextChar_cons (l : Lexer) (c : Char) (t : List Char) (h : upcoming l = c :: t) :
    (getNextChar l).1 = code c ∧ upcoming (getNextChar l).2 = t := by
  unfold upcoming at h
  unfold getNextChar
  cases hb : l.curLineBuffer with
  | nil => rw [hb] at h; simp at h
  | cons b bs =>
    rw [hb] at h
    simp only [List.cons_append, List.cons.injEq] at h
    obtain ⟨rfl, h⟩ := h
    cases bs with
    | nil =>
      simp only [List.nil_append] at h
      simp only [List.isEmpty_nil, if_true]
      unfold readNextLine
      cases hs : l.supply with
      | nil =>
        rw [hs] at h
        simp [upcoming, ← h, pendingChars]
      | cons x xs =>
        rw [hs] at h
        cases x with
        | nil => simp [upcoming, ← h, pendingChars]
        | cons y ys => simp [upcoming, ← h, pendingChars]
    | cons b2 bs2 =>
      simp [upcoming, ← h]

/-- The function `getNextChar` touches only the cursor members. -/
theorem getNextChar_fields (l : Lexer) :
    (getNextChar l).2.identifierStr = l.identifierStr ∧
    (getNextChar l).2.numStr = l.numStr ∧
    (getNextChar l).2.cerr = l.cerr ∧
    (getNextChar l).2.curTok = l.curTok := by
  unfold getNextChar
  cases l.curLineBuffer with
  | nil => simp
  | cons b bs =>
    cases bs with
    | nil =>
      simp only [List.isEmpty_nil, if_true]
      unfold readNextLine
      cases l.supply <;> simp
    | cons b2 bs2 => simp

@[simp] theorem advance_identifierStr (l : Lexer) :
    (advance l).identifierStr = l.identifierStr := (getNextChar_fields l).1

@[simp] theorem advance_numStr (l : Lexer) : (advance l).numStr = l.numStr :=
  (getNextChar_fields l).2.1

@[simp] theorem advance_cerr (l : Lexer) : (advance l).cerr = l.cerr :=
  (getNextChar_fields l).2.2.1

@[simp] theorem advance_curTok (l : Lexer) : (advance l).curTok = l.curTok :=
  (getNextChar_fields l).2.2.2

theorem sees_nil {l : Lexer} : Sees l [] ↔ l.lastChar = EOF ∧ upcoming l = [] := Iff.rfl

theorem sees_cons {l : Lexer} {c : Char} {t : List Char} :
    Sees l (c :: t) ↔ l.lastChar = code c ∧ upcoming l = t := Iff.rfl

theorem sees_length_le {l : Lexer} {cs : List Char} (h : Sees l cs) :
    cs.length ≤ remaining l + 1 := by
  cases cs with
  | nil => simp
  | cons c t => simp [remaining, h.2]

/-- What the lexer sees determines the text, when it is not at its end. -/
theorem sees_unique {l : Lexer} {c d : Char} {t u : List Char} (h : Sees l (c :: t))
    (h2 : Sees l (d :: u)) : c :: t = d :: u := by
  have e : code c = code d := h.1.symm.trans h2.1
  rw [code_inj e, ← h.2, ← h2.2]

theorem sees_advance {l : Lexer} {cs : List Char} (h : Sees l cs) :
    Sees (advance l) cs.tail := by
  have key : ∀ t, upcoming l = t → Sees (advance l) t := by
    intro t ht
    cases t with
    | nil =>
      have := getNextChar_nil l ht
      simp [Sees, advance, this, upcoming] at *
      exact ht
    | cons d u =>
      have := getNextChar_cons l d u ht
      simp only [Sees, advance]
      refine ⟨this.1, ?_⟩
      rw [← this.2]
      simp [upcoming]
  cases cs with
  | nil => exact key [] h.2
  | cons c t => exact key t h.2

/-! ## The loops of `getTok`, as functions of the text seen -/

theorem isspace_EOF : isspace EOF = false := by decide
theorem isalnum_EOF : isalnum EOF = false := by decide
theorem isalpha_EOF : isalpha EOF = false := by decide
theorem isdigit_EOF : isdigit EOF = false := by decide

theorem skipSpacesFuel_sees : ∀ (n : Nat) (l : Lexer) (cs : List Char), Sees l cs →
    cs.length ≤ n →
    Sees (skipSpacesFuel n l) (cs.dropWhile (fun c => isspace (code c))) := by
  intro n
  induction n with
  | zero =>
    intro l cs h hn
    have : cs = [] := List.length_eq_zero.mp (Nat.le_zero.mp hn)
    subst this
    simpa [skipSpacesFuel] using h
  | succ n ih =>
    intro l cs h hn
    cases cs with
    | nil =>
      have h1 : l.lastChar = EOF := h.1
      simp [skipSpacesFuel, h1, isspace_EOF]
      exact h
    | cons c t =>
      have h1 : l.lastChar = code c := h.1
      by_cases hsp : isspace (code c) = true
      · simp only [skipSpacesFuel, h1, hsp, if_true, List.dropWhile_cons]
        exact ih _ t (sees_advance h) (by simpa using hn)
      · simp only [skipSpacesFuel, h1, hsp, List.dropWhile_cons]
        exact h

theorem skipSpacesFuel_fields : ∀ (n : Nat) (l : Lexer),
    (skipSpacesFuel n l).identifierStr = l.identifierStr ∧
    (skipSpacesFuel n l).numStr = l.numStr ∧
    (skipSpacesFuel n l).cerr = l.cerr ∧
    (skipSpacesFuel n l).curTok = l.curTok := by
  intro n
  induction n with
  | zero => intro l; simp [skipSpacesFuel]
  | succ n ih =>
    intro l
    unfold skipSpacesFuel
    split
    · have := ih (advance l)
      simpa using this
    · simp

theorem skipSpaces_sees {l : Lexer} {cs : List Char} (h : Sees l cs) :
    Sees (skipSpaces l) (cs.dropWhile (fun c => isspace (code c))) :=
  skipSpacesFuel_sees _ l cs h (sees_length_le h)


theorem identBody_spec (l : Lexer) (f : IdFlags) (c : Char) (h : l.lastChar = code c) :
    (identBody l f).2 = idStep f c ∧
    (identBody l f).1.lastChar = l.lastChar ∧
    upcoming (identBody l f).1 = upcoming l ∧
    (identBody l f).1.identifierStr = l.identifierStr ++ [c] ∧
    (identBody l f).1.numStr = l.numStr ∧
    (identBody l f).1.curTok = l.curTok := by
  obtain ⟨u, d, de, ue, se⟩ := f
  unfold identBody idStep
  simp only [h, toChar_code, code_beq_underscore]
  refine ⟨?_, ?_, ?_, ?_, ?_, ?_⟩
  · cases hd : isdigit (code c) <;> cases hu : (c == '_') <;> cases u <;> cases d <;>
      cases ha : isalpha (code c) <;> simp [h, code_beq_underscore, hu, hd, ha]
  all_goals (split_ifs <;> simp [upcoming, h])

theorem identBody_sees {l : Lexer} {f : IdFlags} {c : Char} {t : List Char}
    (h : Sees l (c :: t)) : Sees (identBody l f).1 (c :: t) := by
  have := identBody_spec l f c h.1
  exact ⟨this.2.1.trans h.1, this.2.2.1.trans h.2⟩

theorem identLoopFuel_spec : ∀ (n : Nat) (l : Lexer) (f : IdFlags) (cs : List Char),
    Sees l cs → cs.length ≤ n →
    Sees (identLoopFuel n l f).1 (cs.tail.dropWhile isIdentChar) ∧
    (identLoopFuel n l f).1.identifierStr = l.identifierStr ++ cs.tail.takeWhile isIdentChar ∧
    (identLoopFuel n l f).2 = (cs.tail.takeWhile isIdentChar).foldl idStep f ∧
    (identLoopFuel n l f).1.numStr = l.numStr ∧
    (identLoopFuel n l f).1.curTok = l.curTok := by
  intro n
  induction n with
  | zero =>
    intro l f cs h hn
    have : cs = [] := List.length_eq_zero.mp (Nat.le_zero.mp hn)
    subst this
    simpa [identLoopFuel] using h
  | succ n ih =>
    intro l f cs h hn
    have h1 := sees_advance h
    cases ht : cs.tail with
    | nil =>
      rw [ht] at h1
      have e : (advance l).lastChar = EOF := h1.1
      simp only [identLoopFuel, e, isalnum_EOF]
      simp [EOF]
      exact h1
    | cons d t =>
      rw [ht] at h1
      have e : (advance l).lastChar = code d := h1.1
      have hlen : (d :: t).length ≤ n := by
        have : cs.tail.length = cs.length - 1 := List.length_tail cs
        rw [ht] at this
        omega
      by_cases hc : isIdentChar d = true
      · have hc2 : (isalnum (code d) || code d == 95) = true := hc
        have hb := identBody_spec (advance l) f d e
        have hs : Sees (identBody (advance l) f).1 (d :: t) := identBody_sees h1
        have := ih (identBody (advance l) f).1 (identBody (advance l) f).2 (d :: t) hs hlen
        simp only [identLoopFuel, e, hc2, if_true, List.dropWhile_cons, List.takeWhile_cons, hc,
          List.foldl_cons]
        simp only [List.tail_cons] at this
        refine ⟨this.1, ?_, ?_, ?_, ?_⟩
        · rw [this.2.1, hb.2.2.2.1]; simp
        · rw [this.2.2.1, hb.1]
        · rw [this.2.2.2.1, hb.2.2.2.2.1]; simp
        · rw [this.2.2.2.2, hb.2.2.2.2.2]; simp
      · have hc2 : (isalnum (code d) || code d == 95) = false := by
          simpa [isIdentChar] using hc
        simp only [identLoopFuel, e, hc2, List.dropWhile_cons, List.takeWhile_cons, hc]
        simp
        exact h1

theorem identLoop_spec {l : Lexer} (f : IdFlags) {cs : List Char} (h : Sees l cs) :
    Sees (identLoop l f).1 (cs.tail.dropWhile isIdentChar) ∧
    (identLoop l f).1.identifierStr = l.identifierStr ++ cs.tail.takeWhile isIdentChar ∧
    (identLoop l f).2 = (cs.tail.takeWhile isIdentChar).foldl idStep f ∧
    (identLoop l f).1.numStr = l.numStr ∧
    (identLoop l f).1.curTok = l.curTok :=
  identLoopFuel_spec _ l f cs h (sees_length_le h)

theorem numLoopFuel_spec : ∀ (n : Nat) (l : Lexer) (s : List Char) (d : Nat) (c : Char)
    (t : List Char), Sees l (c :: t) → t.length + 1 ≤ n →
    Sees (numLoopFuel n l s d).1 (t.dropWhile isNumChar) ∧
    (numLoopFuel n l s d).2.1 = s ++ c :: t.takeWhile isNumChar ∧
    (numLoopFuel n l s d).2.2 = d + (c :: t.takeWhile isNumChar).count '.' ∧
    (numLoopFuel n l s d).1.identifierStr = l.identifierStr ∧
    (numLoopFuel n l s d).1.cerr = l.cerr ∧
    (numLoopFuel n l s d).1.curTok = l.curTok ∧
    (numLoopFuel n l s d).1.numStr = l.numStr := by
  intro n
  induction n with
  | zero => intro l s d c t _ hn; omega
  | succ n ih =>
    intro l s d c t h hn
    have h0 : l.lastChar = code c := h.1
    have h1 : Sees (advance l) t := sees_advance h
    have hd : (if (code c == 46) = true then d + 1 else d) = d + List.count '.' [c] := by
      rw [code_beq_dot]
      by_cases hc : c = '.'
      · subst hc; simp
      · simp [hc, List.count_cons]
    cases t with
    | nil =>
      have e : (advance l).lastChar = EOF := h1.1
      simp only [numLoopFuel, h0, e, isdigit_EOF, toChar_code, hd]
      simp [EOF]
      exact h1
    | cons x u =>
      have e : (advance l).lastChar = code x := h1.1
      by_cases hc : isNumChar x = true
      · have hc2 : (isdigit (code x) || code x == 46) = true := hc
        have := ih (advance l) (s ++ [c]) (d + List.count '.' [c]) x u h1
          (by simpa using hn)
        simp only [numLoopFuel, h0, e, hc2, if_true, toChar_code, hd, List.dropWhile_cons,
          List.takeWhile_cons, hc]
        refine ⟨this.1, ?_, ?_, ?_, ?_, ?_, ?_⟩
        · rw [this.2.1]; simp
        · rw [this.2.2.1, List.count_cons (a := '.') (b := c)]
          simp only [List.count_cons, List.count_nil]
          omega
        · rw [this.2.2.2.1]; simp
        · rw [this.2.2.2.2.1]; simp
        · rw [this.2.2.2.2.2.1]; simp
        · rw [this.2.2.2.2.2.2]; simp
      · have hc2 : (isdigit (code x) || code x == 46) = false := by
          simpa [isNumChar] using hc
        simp only [numLoopFuel, h0, e, hc2, toChar_code, hd, List.dropWhile_cons,
          List.takeWhile_cons, hc]
        simp
        exact h1

theorem numLoop_spec {l : Lexer} {c : Char} {t : List Char} (h : Sees l (c :: t)) :
    Sees (numLoop l).1 (t.dropWhile isNumChar) ∧
    (numLoop l).2.1 = c :: t.takeWhile isNumChar ∧
    (numLoop l).2.2 = (c :: t.takeWhile isNumChar).count '.' ∧
    (numLoop l).1.identifierStr = l.identifierStr ∧
    (numLoop l).1.cerr = l.cerr ∧
    (numLoop l).1.curTok = l.curTok ∧
    (numLoop l).1.numStr = l.numStr := by
  have := numLoopFuel_spec (remaining l + 1) l [] 0 c t h (by simp [remaining, h.2])
  simpa [numLoop] using this

theorem commentLoopFuel_spec : ∀ (n : Nat) (l : Lexer) (cs : List Char),
    Sees l cs → cs.length ≤ n →
    Sees (commentLoopFuel n l) (cs.tail.dropWhile continuesComment) ∧
    (commentLoopFuel n l).identifierStr = l.identifierStr ∧
    (commentLoopFuel n l).numStr = l.numStr ∧
    (commentLoopFuel n l).cerr = l.cerr ∧
    (commentLoopFuel n l).curTok = l.curTok := by
  intro n
  induction n with
  | zero =>
    intro l cs h hn
    have : cs = [] := List.length_eq_zero.mp (Nat.le_zero.mp hn)
    subst this
    simpa [commentLoopFuel] using h
  | succ n ih =>
    intro l cs h hn
    have h1 := sees_advance h
    cases ht : cs.tail with
    | nil =>
      rw [ht] at h1
      have e : (advance l).lastChar = EOF := h1.1
      simp only [commentLoopFuel, e]
      simp
      exact h1
    | cons d t =>
      rw [ht] at h1
      have e : (advance l).lastChar = code d := h1.1
      have hlen : (d :: t).length ≤ n := by
        have : cs.tail.length = cs.length - 1 := List.length_tail cs
        rw [ht] at this
        omega
      have hcond : (code d != EOF && code d != 10 && code d != 13) = continuesComment d := rfl
      by_cases hc : continuesComment d = true
      · have := ih (advance l) (d :: t) h1 hlen
        simp only [commentLoopFuel, e, hcond, hc, if_true, List.dropWhile_cons]
        simpa using this
      · simp only [commentLoopFuel, e, hcond, hc, List.dropWhile_cons]
        simp
        exact h1

theorem commentLoop_spec {l : Lexer} {cs : List Char} (h : Sees l cs) :
    Sees (commentLoop l) (cs.tail.dropWhile continuesComment) ∧
    (commentLoop l).identifierStr = l.identifierStr ∧
    (commentLoop l).numStr = l.numStr ∧
    (commentLoop l).cerr = l.cerr ∧
    (commentLoop l).curTok = l.curTok :=
  commentLoopFuel_spec _ l cs h (sees_length_le h)


/-- The comment loop goes on at every character but newline, carriage return
and byte 255. -/
theorem continuesComment_iff (c : Char) :
    continuesComment c = true ↔ c ≠ '\n' ∧ c ≠ '\r' ∧ c ≠ '\xFF' := by
  unfold continuesComment
  have h1 : (code c != EOF) = true ↔ c ≠ '\xFF' := by
    rw [bne_iff_ne, ne_eq, code_eq_EOF_iff]
  have h2 : (code c != 10) = (c != '\n') := by
    rw [← code_newline]; simp only [bne, code_beq]
  have h3 : (code c != 13) = (c != '\r') := by
    rw [← code_return]; simp only [bne, code_beq]
  rw [Bool.and_eq_true, Bool.and_eq_true, h1, h2, h3, bne_iff_ne, bne_iff_ne]
  tauto

theorem continuesComment_of {c : Char} (h1 : c ≠ '\n') (h2 : c ≠ '\r') (h3 : c ≠ '\xFF') :
    continuesComment c = true :=
  (continuesComment_iff c).mpr ⟨h1, h2, h3⟩

theorem takeWhile_run {p : Char → Bool} (a b : List Char) (ha : ∀ c ∈ a, p c = true)
    (hb : ∀ c ∈ b.head?, p c = false) :
    (a ++ b).takeWhile p = a ∧ (a ++ b).dropWhile p = b := by
  induction a with
  | nil =>
    cases b with
    | nil => simp
    | cons x t =>
      have : p x = false := hb x (by simp)
      simp [List.takeWhile_cons, List.dropWhile_cons, this]
  | cons x t ih =>
    have hx : p x = true := ha x (by simp)
    have := ih (fun c hc => ha c (List.mem_cons_of_mem _ hc))
    simp [List.takeWhile_cons, List.dropWhile_cons, hx, this]

/-- The token chosen at the end of the identifier branch. -/
theorem lexIdentifier_spec {l : Lexer} {c : Char} {t : List Char} (h : Sees l (c :: t)) :
    (lexIdentifier l).2.identifierStr = c :: t.takeWhile isIdentChar ∧
    Sees (lexIdentifier l).2 (t.dropWhile isIdentChar) ∧
    (lexIdentifier l).2.numStr = l.numStr ∧
    (lexIdentifier l).1 =
      (if c :: t.takeWhile isIdentChar = "return".toList then tok_return
       else if c :: t.takeWhile isIdentChar = "def".toList then tok_def
       else if c :: t.takeWhile isIdentChar = "var".toList then tok_var
       else if (((t.takeWhile isIdentChar).foldl idStep
          ⟨false, false, false, false, c == '_'⟩).underline_in_row_error ||
          ((t.takeWhile isIdentChar).foldl idStep
          ⟨false, false, false, false, c == '_'⟩).start_with_underline_error ||
          ((t.takeWhile isIdentChar).foldl idStep
          ⟨false, false, false, false, c == '_'⟩).digit_in_middle_error) = true
       then tok_error else tok_identifier) := by
  have h0 : l.lastChar = code c := h.1
  have hs2 : Sees (identStart l) (c :: t) ∧ (identStart l).identifierStr = [c] ∧
      (identStart l).numStr = l.numStr := by
    unfold identStart
    simp only [h0, toChar_code]
    split_ifs
    · exact ⟨⟨rfl, by simpa [upcoming] using h.2⟩, rfl, rfl⟩
    · exact ⟨⟨rfl, by simpa [upcoming] using h.2⟩, rfl, rfl⟩
  obtain ⟨hs2, hid2, hn2⟩ := hs2
  have hl2 : lexIdentifier l =
        (let r := identLoop (identStart l) ⟨false, false, false, false, c == '_'⟩
         if r.1.identifierStr = "return".toList then (tok_return, r.1)
         else if r.1.identifierStr = "def".toList then (tok_def, r.1)
         else if r.1.identifierStr = "var".toList then (tok_var, r.1)
         else if r.2.underline_in_row_error || r.2.start_with_underline_error
            || r.2.digit_in_middle_error then (tok_error, r.1)
         else (tok_identifier, r.1)) := by
    unfold lexIdentifier
    simp only [h0, code_beq_underscore]
  have hsp := identLoop_spec ⟨false, false, false, false, c == '_'⟩ hs2
  simp only [List.tail_cons] at hsp
  obtain ⟨hsee, hid, hfl, hnum, -⟩ := hsp
  rw [hid2] at hid
  simp only [List.singleton_append] at hid
  rw [hl2]
  simp only [hid, hfl]
  refine ⟨?_, ?_, ?_, ?_⟩
  · split_ifs <;> exact hid
  · split_ifs <;> exact hsee
  · split_ifs <;> simp [hnum, hn2]
  · split_ifs <;> rfl

theorem lexNumber_spec {l : Lexer} {c : Char} {t : List Char} (h : Sees l (c :: t)) :
    Sees (lexNumber l).2 (t.dropWhile isNumChar) ∧
    (lexNumber l).2.identifierStr = l.identifierStr ∧
    ((lexNumber l).1 = tok_number → (lexNumber l).2.numStr = c :: t.takeWhile isNumChar) ∧
    (lexNumber l).1 =
      (if ((c :: t.takeWhile isNumChar).getLast? = some '.' ||
          (c :: t.takeWhile isNumChar).head? = some '.') = true then tok_error
       else if (c :: t.takeWhile isNumChar).count '.' > 1 then tok_error
       else tok_number) := by
  obtain ⟨hsee, hs, hd, hid, -, -, -⟩ := numLoop_spec h
  unfold lexNumber
  simp only [hs, hd]
  refine ⟨?_, ?_, ?_, ?_⟩
  · split_ifs <;> exact hsee
  · split_ifs <;> simp [hid]
  · split_ifs <;> simp [tok_error, tok_number]
  · split_ifs <;> rfl


theorem sees_markLocation {l : Lexer} {cs : List Char} (h : Sees l cs) :
    Sees (markLocation l) cs := by
  cases cs with
  | nil => exact ⟨h.1, by simpa [upcoming, markLocation] using h.2⟩
  | cons c t => exact ⟨h.1, by simpa [upcoming, markLocation] using h.2⟩

/-- After the whitespace loop the lexer sees the text without its leading
whitespace. -/
theorem sees_scanStart {l : Lexer} {cs : List Char} (h : Sees l cs) :
    Sees (markLocation (skipSpaces l)) (cs.dropWhile (fun c => isspace (code c))) :=
  sees_markLocation (skipSpaces_sees h)

theorem scanStart_fields (l : Lexer) :
    (markLocation (skipSpaces l)).identifierStr = l.identifierStr ∧
    (markLocation (skipSpaces l)).numStr = l.numStr ∧
    (markLocation (skipSpaces l)).cerr = l.cerr := by
  have := skipSpacesFuel_fields (remaining l + 1) l
  exact ⟨this.1, this.2.1, this.2.2.1⟩

theorem getTokBody_ident (self : Lexer → Token × Lexer) (l : Lexer)
    (h : (isalpha (markLocation (skipSpaces l)).lastChar ||
      (markLocation (skipSpaces l)).lastChar == 95) = true) :
    getTokBody self l = lexIdentifier (markLocation (skipSpaces l)) := by
  unfold getTokBody
  simp only [h, if_true]

theorem getTokBody_number (self : Lexer → Token × Lexer) (l : Lexer)
    (h : (isalpha (markLocation (skipSpaces l)).lastChar ||
      (markLocation (skipSpaces l)).lastChar == 95) = false)
    (h2 : (isdigit (markLocation (skipSpaces l)).lastChar ||
      (markLocation (skipSpaces l)).lastChar == 46) = true) :
    getTokBody self l = lexNumber (markLocation (skipSpaces l)) := by
  unfold getTokBody
  simp only [h, h2, if_true]
  simp

theorem getTokBody_comment (self : Lexer → Token × Lexer) (l : Lexer)
    (h : (markLocation (skipSpaces l)).lastChar = 35) :
    getTokBody self l =
      if (commentLoop (markLocation (skipSpaces l))).lastChar = EOF then
        (tok_eof, commentLoop (markLocation (skipSpaces l)))
      else self (commentLoop (markLocation (skipSpaces l))) := by
  unfold getTokBody
  simp only [h]
  by_cases he : (commentLoop (markLocation (skipSpaces l))).lastChar = EOF
  · simp [he, isalpha, isdigit]
  · simp [he, isalpha, isdigit]

theorem getTokBody_eof (self : Lexer → Token × Lexer) (l : Lexer)
    (h : (markLocation (skipSpaces l)).lastChar = EOF) :
    getTokBody self l = (tok_eof, markLocation (skipSpaces l)) := by
  unfold getTokBody
  simp [h, isalpha, isdigit, EOF]

theorem getTokBody_other (self : Lexer → Token × Lexer) (l : Lexer)
    (h : (isalpha (markLocation (skipSpaces l)).lastChar ||
      (markLocation (skipSpaces l)).lastChar == 95) = false)
    (h2 : (isdigit (markLocation (skipSpaces l)).lastChar ||
      (markLocation (skipSpaces l)).lastChar == 46) = false)
    (h3 : (markLocation (skipSpaces l)).lastChar ≠ 35)
    (h4 : (markLocation (skipSpaces l)).lastChar ≠ EOF) :
    getTokBody self l = ((markLocation (skipSpaces l)).lastChar,
      advance (markLocation (skipSpaces l))) := by
  unfold getTokBody
  simp only [h, h2]
  simp [h3, h4]

theorem getTokFuel_eq_body (n : Nat) (l : Lexer) :
    ∃ self, getTokFuel n l = getTokBody self l := by
  cases n with
  | zero => exact ⟨_, rfl⟩
  | succ n => exact ⟨_, rfl⟩

/-! ## The identifier flags and the shape of the run -/

theorem double_underscore_cons (x : Char) (t : List Char) :
    HasDoubleUnderscore (x :: t) ↔ (x = '_' ∧ t.head? = some '_') ∨ HasDoubleUnderscore t := by
  unfold HasDoubleUnderscore
  rw [List.infix_cons_iff]
  apply or_congr_left
  constructor
  · rintro ⟨s, hs⟩
    simp only [List.cons_append, List.cons.injEq] at hs
    obtain ⟨rfl, hs⟩ := hs
    exact ⟨rfl, by rw [← hs]; rfl⟩
  · rintro ⟨rfl, ht⟩
    cases t with
    | nil => simp at ht
    | cons y u =>
      simp only [List.head?_cons, Option.some.injEq] at ht
      subst ht
      exact ⟨u, rfl⟩

theorem not_double_underscore_nil : ¬ HasDoubleUnderscore [] := by
  unfold HasDoubleUnderscore
  simp

theorem letter_after_digit_cons (x : Char) (t : List Char) :
    HasLetterAfterDigit (x :: t) ↔
      (isdigit (code x) = true ∧ ∃ y ∈ t, isalpha (code y) = true) ∨ HasLetterAfterDigit t := by
  unfold HasLetterAfterDigit
  constructor
  · rintro ⟨a, d, b, y, c, he, hd, hy⟩
    cases a with
    | nil =>
      simp only [List.nil_append, List.cons.injEq] at he
      obtain ⟨rfl, rfl⟩ := he
      exact Or.inl ⟨hd, y, by simp, hy⟩
    | cons a0 a =>
      simp only [List.cons_append, List.cons.injEq] at he
      exact Or.inr ⟨a, d, b, y, c, he.2, hd, hy⟩
  · rintro (⟨hd, y, hy, hay⟩ | ⟨a, d, b, y, c, he, hd, hy⟩)
    · obtain ⟨b, c, rfl⟩ := List.append_of_mem hy
      exact ⟨[], x, b, y, c, rfl, hd, hay⟩
    · exact ⟨x :: a, d, b, y, c, by simp [he], hd, hy⟩

theorem not_letter_after_digit_nil : ¬ HasLetterAfterDigit [] := by
  rintro ⟨a, d, b, y, c, he, -, -⟩
  simp at he

theorem not_digit_and_alpha (c : Int) : ¬ (isdigit c = true ∧ isalpha c = true) := by
  unfold isdigit isalpha
  simp only [Bool.and_eq_true, Bool.or_eq_true, decide_eq_true_eq]
  omega

theorem foldl_idStep_start (m : List Char) (f : IdFlags) :
    (m.foldl idStep f).start_with_underline_error = f.start_with_underline_error := by
  induction m generalizing f with
  | nil => rfl
  | cons x t ih => rw [List.foldl_cons, ih]; rfl

theorem foldl_idStep_underline (m : List Char) (f : IdFlags) :
    (m.foldl idStep f).underline_in_row_error = true ↔
      f.underline_in_row_error = true ∨ (f.underline_in_row = true ∧ m.head? = some '_') ∨
      HasDoubleUnderscore m := by
  induction m generalizing f with
  | nil => simp [not_double_underscore_nil]
  | cons x t ih =>
    rw [List.foldl_cons, ih, double_underscore_cons]
    simp only [idStep, Bool.or_eq_true, Bool.and_eq_true, beq_iff_eq, List.head?_cons,
      Option.some.injEq]
    tauto

theorem foldl_idStep_digit (m : List Char) (f : IdFlags) :
    (m.foldl idStep f).digit_in_middle_error = true ↔
      f.digit_in_middle_error = true ∨
      (f.digit_in_middle = true ∧ ∃ y ∈ m, isalpha (code y) = true) ∨
      HasLetterAfterDigit m := by
  induction m generalizing f with
  | nil => simp [not_letter_after_digit_nil]
  | cons x t ih =>
    rw [List.foldl_cons, ih, letter_after_digit_cons]
    have hx := not_digit_and_alpha (code x)
    simp only [idStep, Bool.or_eq_true, Bool.and_eq_true, List.mem_cons, exists_eq_or_imp]
    generalize (∃ y, y ∈ t ∧ isalpha (code y) = true) = P
    generalize HasLetterAfterDigit t = H
    tauto

/-- The error test at the end of the identifier branch fails exactly for the
well-formed identifiers. -/
theorem flags_valid (c : Char) (m : List Char)
    (hc : isalpha (code c) = true ∨ c = '_') :
    (((m.foldl idStep ⟨false, false, false, false, c == '_'⟩).underline_in_row_error ||
      (m.foldl idStep ⟨false, false, false, false, c == '_'⟩).start_with_underline_error ||
      (m.foldl idStep ⟨false, false, false, false, c == '_'⟩).digit_in_middle_error) = false)
    ↔ ValidIdentifier (c :: m) := by
  have halpha : isalpha (code '_') = false := by decide
  have hnd : isdigit (code c) = false := by
    rcases hc with hc | rfl
    · have := not_digit_and_alpha (code c)
      cases hd : isdigit (code c)
      · rfl
      · exact absurd ⟨hd, hc⟩ this
    · decide
  have h1 := foldl_idStep_underline m ⟨false, false, false, false, c == '_'⟩
  have h2 := foldl_idStep_digit m ⟨false, false, false, false, c == '_'⟩
  have h3 := foldl_idStep_start m ⟨false, false, false, false, c == '_'⟩
  simp only [Bool.false_eq_true, false_and, false_or] at h1 h2
  simp only at h3
  have hstart : StartsWithLetter (c :: m) ↔ c ≠ '_' := by
    constructor
    · rintro ⟨c', t, he, ha⟩ rfl
      simp only [List.cons.injEq] at he
      rw [← he.1, halpha] at ha
      exact Bool.false_ne_true ha
    · intro hne
      rcases hc with hc | rfl
      · exact ⟨c, m, rfl, hc⟩
      · exact absurd rfl hne
  have hdu : HasDoubleUnderscore (c :: m) ↔ (c = '_' ∧ m.head? = some '_') ∨
      HasDoubleUnderscore m := double_underscore_cons c m
  have hlad : HasLetterAfterDigit (c :: m) ↔ HasLetterAfterDigit m := by
    rw [letter_after_digit_cons, hnd]
    simp
  unfold ValidIdentifier
  rw [hstart, hdu, hlad, ← h1, ← h2]
  rw [Bool.or_eq_false_iff, Bool.or_eq_false_iff, h3]
  by_cases hu : c = '_'
  · subst hu; simp
  · simp [hu]


theorem isIdentChar_not_space (c : Char) (h : isIdentChar c = true) :
    isspace (code c) = false := by
  unfold isIdentChar isalnum isalpha isdigit at h
  unfold isspace
  simp only [Bool.or_eq_true, Bool.and_eq_true, decide_eq_true_eq, beq_iff_eq] at h
  simp only [Bool.or_eq_false_iff, Bool.and_eq_false_iff, decide_eq_false_iff_not,
    beq_eq_false_iff_ne]
  omega

/-- A lexer in front of a run: after the whitespace loop it sees the run and
what follows it. -/
theorem scansRun_start {l : Lexer} {p : Char → Bool} {r : List Char}
    (h : ScansRun l p r) (hp : ∀ c, p c = true → isspace (code c) = false) :
    ∃ c m rest, r = c :: m ∧ p c = true ∧
      Sees (markLocation (skipSpaces l)) (c :: (m ++ rest)) ∧
      (m ++ rest).takeWhile p = m ∧ (m ++ rest).dropWhile p = rest := by
  obtain ⟨ws, rest, hsee, hws, hne, hr, hrest⟩ := h
  cases r with
  | nil => exact absurd rfl hne
  | cons c m =>
    have hc : p c = true := hr c (by simp)
    have hdrop : (ws ++ (c :: m ++ rest)).dropWhile (fun c => isspace (code c)) =
        c :: m ++ rest :=
      (takeWhile_run (p := fun c => isspace (code c)) ws (c :: m ++ rest) hws
        (by intro x hx; simp at hx; subst hx; exact hp _ hc)).2
    have hs := sees_scanStart hsee
    rw [List.append_assoc, hdrop] at hs
    have htd := takeWhile_run (p := p) m rest (fun x hx => hr x (List.mem_cons_of_mem _ hx)) hrest
    exact ⟨c, m, rest, rfl, hc, hs, htd.1, htd.2⟩

theorem getTok_eq_body (l : Lexer) : ∃ self, getTok l = getTokBody self l :=
  getTokFuel_eq_body _ l

/-- The token returned in front of a run that starts like an identifier. -/
theorem getTok_identRun {l : Lexer} {ws r rest : List Char}
    (hsee : Sees l (ws ++ r ++ rest)) (hws : ∀ c ∈ ws, isspace (code c) = true)
    (hr : ∀ c ∈ r, isIdentChar c = true) (hrest : ∀ c ∈ rest.head?, isIdentChar c = false)
    (hstart : ∃ c ∈ r.head?, isalpha (code c) = true ∨ c = '_') :
    (getTok l).2.identifierStr = r ∧
    Sees (getTok l).2 rest ∧
    (r = "return".toList → (getTok l).1 = tok_return) ∧
    (r = "def".toList → (getTok l).1 = tok_def) ∧
    (r = "var".toList → (getTok l).1 = tok_var) ∧
    (r ∉ keywords → ValidIdentifier r → (getTok l).1 = tok_identifier) ∧
    (r ∉ keywords → ¬ ValidIdentifier r → (getTok l).1 = tok_error) := by
  have hne : r ≠ [] := by
    rintro rfl
    obtain ⟨c, hc, -⟩ := hstart
    simp at hc
  have h : ScansRun l isIdentChar r := ⟨ws, rest, hsee, hws, hne, hr, hrest⟩
  obtain ⟨c, m, rest', rfl, hc, hs, htake, hdrop⟩ := scansRun_start h isIdentChar_not_space
  have hrest' : rest' = rest := by
    have h0 := sees_scanStart hsee
    rw [List.append_assoc, (takeWhile_run (p := fun c => isspace (code c)) ws (c :: m ++ rest) hws
        (by intro x hx; simp at hx; subst hx; exact isIdentChar_not_space _ hc)).2] at h0
    have := sees_unique h0 hs
    simpa using this.symm
  subst hrest'
  obtain ⟨c', hc', hstart⟩ := hstart
  simp only [List.head?_cons, Option.mem_def, Option.some.injEq] at hc'
  subst hc'
  have hlast : (markLocation (skipSpaces l)).lastChar = code c := hs.1
  have hcond : (isalpha (markLocation (skipSpaces l)).lastChar ||
      (markLocation (skipSpaces l)).lastChar == 95) = true := by
    rw [hlast, code_beq_underscore]
    rcases hstart with h1 | h1
    · simp [h1]
    · simp [h1]
  obtain ⟨self, hself⟩ := getTok_eq_body l
  rw [hself, getTokBody_ident self l hcond]
  obtain ⟨hid, hsee2, -, htok⟩ := lexIdentifier_spec hs
  rw [htake] at hid htok
  rw [hdrop] at hsee2
  refine ⟨hid, hsee2, ?_⟩
  rw [htok]
  have hv := flags_valid c m hstart
  have hkw : ∀ {x : List Char}, x ∉ keywords →
      x ≠ "return".toList ∧ x ≠ "def".toList ∧ x ≠ "var".toList := by
    intro x hx
    simp only [keywords, List.mem_cons, List.mem_singleton, not_or, List.not_mem_nil,
      or_false] at hx
    exact hx
  refine ⟨?_, ?_, ?_, ?_, ?_⟩
  · intro e; rw [if_pos e]
  · intro e
    rw [e, if_neg (by decide), if_pos rfl]
  · intro e
    rw [e, if_neg (by decide), if_neg (by decide), if_pos rfl]
  · intro hk hvalid
    obtain ⟨k1, k2, k3⟩ := hkw hk
    rw [if_neg k1, if_neg k2, if_neg k3, hv.mpr hvalid]
    simp
  · intro hk hvalid
    obtain ⟨k1, k2, k3⟩ := hkw hk
    have : ¬ _ := fun e => hvalid (hv.mp e)
    simp only [Bool.not_eq_false] at this
    rw [if_neg k1, if_neg k2, if_neg k3, if_pos this]


theorem length_dropWhile_le (p : Char → Bool) (l : List Char) :
    (l.dropWhile p).length ≤ l.length :=
  (List.dropWhile_sublist p).length_le

theorem tok_eof_ne_identifier : tok_eof ≠ tok_identifier := by decide

theorem tok_eof_ne_number : tok_eof ≠ tok_number := by decide

theorem lexNumber_numStr {l : Lexer} {c : Char} {t : List Char} (h : Sees l (c :: t))
    (hk : (lexNumber l).1 ≠ tok_number) : (lexNumber l).2.numStr = l.numStr := by
  obtain ⟨-, -, -, -, -, -, hnum⟩ := numLoop_spec h
  unfold lexNumber at hk ⊢
  simp only at hk ⊢
  split_ifs at hk ⊢
  · exact hnum
  · exact hnum
  · exact absurd rfl hk

theorem Agree.mono {N M : Nat} {r1 r2 : Token × Lexer} (h : Agree N r1 r2) (hNM : N ≤ M) :
    Agree M r1 r2 := by
  obtain ⟨h1, h2, h3, ds, s1, s2, hle, hlt⟩ := h
  exact ⟨h1, h2, h3, ds, s1, s2, le_trans hle hNM, fun e => lt_of_lt_of_le (hlt e) hNM⟩

/-- One round of `getTok` on two lexers that hold the same identifier text and
numeral and see the same text after the leading whitespace gives
indistinguishable results, if the recursive calls do. -/
theorem getTokBody_agree (self1 self2 : Lexer → Token × Lexer) (l1 l2 : Lexer)
    (cs1 cs2 : List Char) (h1 : Sees l1 cs1) (h2 : Sees l2 cs2)
    (hid : l1.identifierStr = l2.identifierStr) (hnum : l1.numStr = l2.numStr)
    (hcs : cs1.dropWhile (fun c => isspace (code c)) =
      cs2.dropWhile (fun c => isspace (code c)))
    (hself : ∀ l1' l2' ds, Sees l1' ds → Sees l2' ds →
      l1'.identifierStr = l2'.identifierStr → l1'.numStr = l2'.numStr → ds ≠ [] →
      ds.length < (cs1.dropWhile (fun c => isspace (code c))).length →
      Agree ds.length (self1 l1') (self2 l2')) :
    Agree (cs1.dropWhile (fun c => isspace (code c))).length
      (getTokBody self1 l1) (getTokBody self2 l2) := by
  have m1 := sees_scanStart h1
  have m2 := sees_scanStart h2
  rw [← hcs] at m2
  obtain ⟨f1, g1, -⟩ := scanStart_fields l1
  obtain ⟨f2, g2, -⟩ := scanStart_fields l2
  have mid : (markLocation (skipSpaces l1)).identifierStr =
      (markLocation (skipSpaces l2)).identifierStr := by rw [f1, f2, hid]
  have mnum : (markLocation (skipSpaces l1)).numStr =
      (markLocation (skipSpaces l2)).numStr := by rw [g1, g2, hnum]
  generalize cs1.dropWhile (fun c => isspace (code c)) = cs at m1 m2 hself ⊢
  have heof : ∀ ds, Sees (markLocation (skipSpaces l1)) ds →
      Sees (markLocation (skipSpaces l2)) ds → ds.length ≤ cs.length →
      (markLocation (skipSpaces l1)).lastChar = EOF →
      Agree cs.length (getTokBody self1 l1) (getTokBody self2 l2) := by
    intro ds s1 s2 hle e1
    have e2 : (markLocation (skipSpaces l2)).lastChar = EOF := by
      cases ds with
      | nil => exact s2.1
      | cons d u => rw [s2.1, ← s1.1]; exact e1
    rw [getTokBody_eof self1 l1 e1, getTokBody_eof self2 l2 e2]
    exact ⟨rfl, mid, mnum, ds, s1, s2, hle, fun e => absurd rfl e⟩
  cases cs with
  | nil => exact heof [] m1 m2 (le_refl _) m1.1
  | cons c t =>
    have e1 : (markLocation (skipSpaces l1)).lastChar = code c := m1.1
    have e2 : (markLocation (skipSpaces l2)).lastChar = code c := m2.1
    by_cases hA : (isalpha (code c) || code c == 95) = true
    · rw [getTokBody_ident self1 l1 (by rw [e1]; exact hA),
        getTokBody_ident self2 l2 (by rw [e2]; exact hA)]
      obtain ⟨a1, a2, a3, a4⟩ := lexIdentifier_spec m1
      obtain ⟨b1, b2, b3, b4⟩ := lexIdentifier_spec m2
      refine ⟨a4.trans b4.symm, a1.trans b1.symm, ?_, _, a2, b2, ?_, fun _ => ?_⟩
      · rw [a3, b3, mnum]
      · exact le_trans (length_dropWhile_le _ _) (Nat.le_succ _)
      · exact Nat.lt_succ_of_le (length_dropWhile_le _ _)
    · have hA' : (isalpha (code c) || code c == 95) = false := by simpa using hA
      by_cases hB : (isdigit (code c) || code c == 46) = true
      · rw [getTokBody_number self1 l1 (by rw [e1]; exact hA') (by rw [e1]; exact hB),
          getTokBody_number self2 l2 (by rw [e2]; exact hA') (by rw [e2]; exact hB)]
        obtain ⟨a1, a2, a3, a4⟩ := lexNumber_spec m1
        obtain ⟨b1, b2, b3, b4⟩ := lexNumber_spec m2
        have hk : (lexNumber (markLocation (skipSpaces l1))).1 =
            (lexNumber (markLocation (skipSpaces l2))).1 := a4.trans b4.symm
        refine ⟨hk, ?_, ?_, _, a1, b1, ?_, fun _ => ?_⟩
        · rw [a2, b2, mid]
        · by_cases e : (lexNumber (markLocation (skipSpaces l1))).1 = tok_number
          · rw [a3 e, b3 (by rw [← hk]; exact e)]
          · rw [lexNumber_numStr m1 e, lexNumber_numStr m2 (by rw [← hk]; exact e), mnum]
        · exact le_trans (length_dropWhile_le _ _) (Nat.le_succ _)
        · exact Nat.lt_succ_of_le (length_dropWhile_le _ _)
      · have hB' : (isdigit (code c) || code c == 46) = false := by simpa using hB
        by_cases hC : code c = 35
        · rw [getTokBody_comment self1 l1 (by rw [e1]; exact hC),
            getTokBody_comment self2 l2 (by rw [e2]; exact hC)]
          obtain ⟨a1, ai, an, -⟩ := commentLoop_spec m1
          obtain ⟨b1, bi, bn, -⟩ := commentLoop_spec m2
          simp only [List.tail_cons] at a1 b1
          have cid : (commentLoop (markLocation (skipSpaces l1))).identifierStr =
              (commentLoop (markLocation (skipSpaces l2))).identifierStr := by
            rw [ai, bi, mid]
          have cnum : (commentLoop (markLocation (skipSpaces l1))).numStr =
              (commentLoop (markLocation (skipSpaces l2))).numStr := by
            rw [an, bn, mnum]
          have hlen : (t.dropWhile continuesComment).length ≤ t.length :=
            length_dropWhile_le _ _
          by_cases hE : (commentLoop (markLocation (skipSpaces l1))).lastChar = EOF
          · have hE2 : (commentLoop (markLocation (skipSpaces l2))).lastChar = EOF := by
              cases hds : t.dropWhile continuesComment with
              | nil => rw [hds] at b1; exact b1.1
              | cons d u =>
                rw [hds] at a1 b1
                rw [b1.1, ← a1.1]; exact hE
            rw [if_pos hE, if_pos hE2]
            exact ⟨rfl, cid, cnum, _, a1, b1, le_trans hlen (Nat.le_succ _),
              fun e => absurd rfl e⟩
          · have hE2 : (commentLoop (markLocation (skipSpaces l2))).lastChar ≠ EOF := by
              cases hds : t.dropWhile continuesComment with
              | nil => rw [hds] at a1; exact absurd a1.1 hE
              | cons d u =>
                rw [hds] at a1 b1
                rw [b1.1, ← a1.1]; exact hE
            rw [if_neg hE, if_neg hE2]
            have hne : t.dropWhile continuesComment ≠ [] := by
              intro h0
              rw [h0] at a1
              exact hE a1.1
            exact (hself _ _ _ a1 b1 cid cnum hne (Nat.lt_succ_of_le hlen)).mono
              (le_trans hlen (Nat.le_succ _))
        · by_cases hD : code c = EOF
          · exact heof (c :: t) m1 m2 (le_refl _) (by rw [e1]; exact hD)
          · rw [getTokBody_other self1 l1 (by rw [e1]; exact hA') (by rw [e1]; exact hB')
                (by rw [e1]; exact hC) (by rw [e1]; exact hD),
              getTokBody_other self2 l2 (by rw [e2]; exact hA') (by rw [e2]; exact hB')
                (by rw [e2]; exact hC) (by rw [e2]; exact hD)]
            refine ⟨by rw [e1, e2], ?_, ?_, t, sees_advance m1, sees_advance m2,
              Nat.le_succ _, fun _ => Nat.lt_succ_self _⟩
            · rw [advance_identifierStr, advance_identifierStr]; exact mid
            · rw [advance_numStr, advance_numStr]; exact mnum

theorem getTokFuel_agree : ∀ (n1 n2 : Nat) (l1 l2 : Lexer) (cs1 cs2 : List Char),
    Sees l1 cs1 → Sees l2 cs2 →
    l1.identifierStr = l2.identifierStr → l1.numStr = l2.numStr →
    cs1.dropWhile (fun c => isspace (code c)) = cs2.dropWhile (fun c => isspace (code c)) →
    cs1.length ≤ n1 + 1 → cs2.length ≤ n2 + 1 →
    Agree (cs1.dropWhile (fun c => isspace (code c))).length
      (getTokFuel n1 l1) (getTokFuel n2 l2) := by
  intro n1
  induction n1 with
  | zero =>
    intro n2 l1 l2 cs1 cs2 h1 h2 hid hnum hcs hn1 hn2
    have hl := length_dropWhile_le (fun c => isspace (code c)) cs1
    obtain ⟨self2, hs2⟩ := getTokFuel_eq_body n2 l2
    rw [hs2]
    show Agree _ (getTokBody _ l1) _
    apply getTokBody_agree _ _ _ _ _ _ h1 h2 hid hnum hcs
    intro l1' l2' ds _ _ _ _ hne hlt
    cases ds with
    | nil => exact absurd rfl hne
    | cons d u => simp at hlt; omega
  | succ k ih =>
    intro n2 l1 l2 cs1 cs2 h1 h2 hid hnum hcs hn1 hn2
    have hl1 := length_dropWhile_le (fun c => isspace (code c)) cs1
    have hl2 := length_dropWhile_le (fun c => isspace (code c)) cs2
    cases n2 with
    | zero =>
      show Agree _ (getTokBody _ l1) (getTokBody _ l2)
      apply getTokBody_agree _ _ _ _ _ _ h1 h2 hid hnum hcs
      intro l1' l2' ds _ _ _ _ hne hlt
      rw [hcs] at hlt
      cases ds with
      | nil => exact absurd rfl hne
      | cons d u => simp at hlt; omega
    | succ j =>
      show Agree _ (getTokBody (getTokFuel k) l1) (getTokBody (getTokFuel j) l2)
      apply getTokBody_agree _ _ _ _ _ _ h1 h2 hid hnum hcs
      intro l1' l2' ds s1 s2 i1 i2 _ hlt
      have hlt2 : ds.length < (cs2.dropWhile (fun c => isspace (code c))).length := by
        rw [← hcs]; exact hlt
      exact (ih j l1' l2' ds ds s1 s2 i1 i2 rfl (by omega) (by omega)).mono
        (length_dropWhile_le _ _)

/-- Applying `getTok` to two lexers that hold the same identifier text and
numeral and see the same text after the leading whitespace. -/
theorem getTok_agree {l1 l2 : Lexer} {cs1 cs2 : List Char} (h1 : Sees l1 cs1)
    (h2 : Sees l2 cs2)
    (hid : l1.identifierStr = l2.identifierStr) (hnum : l1.numStr = l2.numStr)
    (hcs : cs1.dropWhile (fun c => isspace (code c)) =
      cs2.dropWhile (fun c => isspace (code c))) :
    Agree (cs1.dropWhile (fun c => isspace (code c))).length (getTok l1) (getTok l2) :=
  getTokFuel_agree _ _ l1 l2 cs1 cs2 h1 h2 hid hnum hcs (sees_length_le h1)
    (sees_length_le h2)

theorem sees_getNextToken {l : Lexer} {ds : List Char} (h : Sees (getTok l).2 ds) :
    Sees (getNextToken l) ds := by
  cases ds with
  | nil => exact ⟨h.1, by simpa [upcoming, getNextToken] using h.2⟩
  | cons c t => exact ⟨h.1, by simpa [upcoming, getNextToken] using h.2⟩

theorem curTokenRec_agree {l1 l2 : Lexer} {N : Nat} (h : Agree N (getTok l1) (getTok l2)) :
    curTokenRec (getNextToken l1) = curTokenRec (getNextToken l2) := by
  obtain ⟨h1, h2, h3, -⟩ := h
  have k1 : (getNextToken l1).curTok = (getTok l1).1 := rfl
  have k2 : (getNextToken l2).curTok = (getTok l2).1 := rfl
  have i1 : (getNextToken l1).identifierStr = (getTok l1).2.identifierStr := rfl
  have i2 : (getNextToken l2).identifierStr = (getTok l2).2.identifierStr := rfl
  have v1 : (getNextToken l1).numStr = (getTok l1).2.numStr := rfl
  have v2 : (getNextToken l2).numStr = (getTok l2).2.numStr := rfl
  unfold curTokenRec getId getValue
  rw [k1, k2, i1, i2, v1, v2, ← h1, h2, h3]

theorem tokensFuel_agree : ∀ (n1 n2 : Nat) (l1 l2 : Lexer) (cs1 cs2 : List Char),
    Sees l1 cs1 → Sees l2 cs2 →
    l1.identifierStr = l2.identifierStr → l1.numStr = l2.numStr →
    cs1.dropWhile (fun c => isspace (code c)) = cs2.dropWhile (fun c => isspace (code c)) →
    (cs1.dropWhile (fun c => isspace (code c))).length ≤ n1 →
    (cs1.dropWhile (fun c => isspace (code c))).length ≤ n2 →
    tokensFuel n1 l1 = tokensFuel n2 l2 := by
  intro n1
  induction n1 with
  | zero =>
    intro n2 l1 l2 cs1 cs2 h1 h2 hid hnum hcs hn1 hn2
    cases n2 with
    | zero => rfl
    | succ j =>
      have hA := getTok_agree h1 h2 hid hnum hcs
      obtain ⟨e, -, -, ds, -, -, -, hlt⟩ := hA
      have : (getTok l2).1 = tok_eof := by
        by_contra hne
        have := hlt (by rw [e]; exact hne)
        omega
      show [] = (if (getTok l2).1 = tok_eof then [] else _)
      rw [if_pos this]
  | succ k ih =>
    intro n2 l1 l2 cs1 cs2 h1 h2 hid hnum hcs hn1 hn2
    have hA := getTok_agree h1 h2 hid hnum hcs
    obtain ⟨e, i1, i2, ds, s1, s2, hle, hlt⟩ := id hA
    cases n2 with
    | zero =>
      have : (getTok l1).1 = tok_eof := by
        by_contra hne
        have := hlt hne
        omega
      show (if (getTok l1).1 = tok_eof then [] else _) = []
      rw [if_pos this]
    | succ j =>
      show (if (getTok l1).1 = tok_eof then [] else _) =
        (if (getTok l2).1 = tok_eof then [] else _)
      by_cases heof : (getTok l1).1 = tok_eof
      · rw [if_pos heof, if_pos (by rw [← e]; exact heof)]
      · rw [if_neg heof, if_neg (by rw [← e]; exact heof)]
        have hlt' := hlt heof
        have hdl := length_dropWhile_le (fun c => isspace (code c)) ds
        rw [curTokenRec_agree hA,
          ih j (getNextToken l1) (getNextToken l2) ds ds (sees_getNextToken s1)
            (sees_getNextToken s2) i1 i2 rfl (by omega) (by omega)]

/-- The token stream depends only on the identifier text and numeral the lexer
holds and on the text it sees after the leading whitespace. -/
theorem tokens_agree {l1 l2 : Lexer} {cs1 cs2 : List Char} (h1 : Sees l1 cs1)
    (h2 : Sees l2 cs2)
    (hid : l1.identifierStr = l2.identifierStr) (hnum : l1.numStr = l2.numStr)
    (hcs : cs1.dropWhile (fun c => isspace (code c)) =
      cs2.dropWhile (fun c => isspace (code c))) :
    tokens l1 = tokens l2 := by
  have a1 := sees_length_le h1
  have a2 := sees_length_le h2
  have b1 := length_dropWhile_le (fun c => isspace (code c)) cs1
  have b2 := length_dropWhile_le (fun c => isspace (code c)) cs2
  exact tokensFuel_agree _ _ l1 l2 cs1 cs2 h1 h2 hid hnum hcs (by omega) (by rw [hcs]; omega)


/-- The body of `getTok` uses its recursive call on one lexer only: the one
left by the comment loop. -/
theorem getTokBody_congr (self1 self2 : Lexer → Token × Lexer) (l : Lexer)
    (h : (markLocation (skipSpaces l)).lastChar = 35 →
      (commentLoop (markLocation (skipSpaces l))).lastChar ≠ EOF →
      self1 (commentLoop (markLocation (skipSpaces l))) =
        self2 (commentLoop (markLocation (skipSpaces l)))) :
    getTokBody self1 l = getTokBody self2 l := by
  by_cases hC : (markLocation (skipSpaces l)).lastChar = 35
  · rw [getTokBody_comment self1 l hC, getTokBody_comment self2 l hC]
    by_cases hE : (commentLoop (markLocation (skipSpaces l))).lastChar = EOF
    · rw [if_pos hE, if_pos hE]
    · rw [if_neg hE, if_neg hE]
      exact h hC hE
  · unfold getTokBody
    have : ((markLocation (skipSpaces l)).lastChar == 35) = false := by simpa using hC
    simp only [this, Bool.false_and, Bool.false_eq_true, if_false]

/-- One more round of recursion than the text is long changes nothing. -/
theorem getTokFuel_succ : ∀ (n : Nat) (l : Lexer) (cs : List Char), Sees l cs →
    cs.length ≤ n + 1 → getTokFuel (n + 1) l = getTokFuel n l := by
  intro n
  induction n with
  | zero =>
    intro l cs h hn
    show getTokBody _ l = getTokBody _ l
    apply getTokBody_congr
    intro hC hE
    have hm := sees_scanStart h
    have hl := length_dropWhile_le (fun c => isspace (code c)) cs
    obtain ⟨hcl, -⟩ := commentLoop_spec hm
    have hl2 := length_dropWhile_le continuesComment
      (cs.dropWhile (fun c => isspace (code c))).tail
    have hl3 : (cs.dropWhile (fun c => isspace (code c))).tail.length =
      (cs.dropWhile (fun c => isspace (code c))).length - 1 := List.length_tail _
    have : (cs.dropWhile (fun c => isspace (code c))).tail.dropWhile continuesComment = [] :=
      List.length_eq_zero.mp (by omega)
    rw [this] at hcl
    exact absurd hcl.1 hE
  | succ k ih =>
    intro l cs h hn
    show getTokBody (getTokFuel (k + 1)) l = getTokBody (getTokFuel k) l
    apply getTokBody_congr
    intro hC hE
    have hm := sees_scanStart h
    have hl := length_dropWhile_le (fun c => isspace (code c)) cs
    obtain ⟨hcl, -⟩ := commentLoop_spec hm
    have hl2 := length_dropWhile_le continuesComment
      (cs.dropWhile (fun c => isspace (code c))).tail
    have hl3 : (cs.dropWhile (fun c => isspace (code c))).tail.length =
      (cs.dropWhile (fun c => isspace (code c))).length - 1 := List.length_tail _
    exact ih _ _ hcl (by omega)

/-- The bound used by `getTok` is enough: a larger one gives the same token
and the same lexer. -/
theorem getTokFuel_enough {l : Lexer} {cs : List Char} (h : Sees l cs) :
    ∀ n, remaining l ≤ n → getTokFuel n l = getTok l := by
  intro n hn
  induction n with
  | zero =>
    have : remaining l = 0 := Nat.le_zero.mp hn
    unfold getTok
    rw [this]
  | succ k ih =>
    by_cases hk : remaining l ≤ k
    · have hlen := sees_length_le h
      rw [getTokFuel_succ k l cs h (by omega)]
      exact ih hk
    · have : remaining l = k + 1 := by omega
      unfold getTok
      rw [this]


theorem sees_remaining {l : Lexer} {cs : List Char} (h : Sees l cs) (hne : cs ≠ []) :
    remaining l + 1 = cs.length := by
  cases cs with
  | nil => exact absurd rfl hne
  | cons c t => simp [remaining, h.2]

theorem dropWhile_append_of_all {p : Char → Bool} (ws x : List Char)
    (h : ∀ c ∈ ws, p c = true) : (ws ++ x).dropWhile p = x.dropWhile p := by
  induction ws with
  | nil => rfl
  | cons a t ih =>
    have ha : p a = true := h a (by simp)
    simp only [List.cons_append, List.dropWhile_cons, ha, if_true]
    exact ih (fun c hc => h c (List.mem_cons_of_mem _ hc))

/-- Indistinguishable first tokens give equal token streams. -/
theorem tokens_of_agree {l1 l2 : Lexer} {N : Nat} (hA : Agree N (getTok l1) (getTok l2))
    (hN1 : N ≤ remaining l1 + 1) (hN2 : N ≤ remaining l2 + 1) : tokens l1 = tokens l2 := by
  obtain ⟨e, i1, i2, ds, s1, s2, hle, hlt⟩ := id hA
  show (if (getTok l1).1 = tok_eof then [] else _) =
    (if (getTok l2).1 = tok_eof then [] else _)
  by_cases heof : (getTok l1).1 = tok_eof
  · rw [if_pos heof, if_pos (by rw [← e]; exact heof)]
  · rw [if_neg heof, if_neg (by rw [← e]; exact heof)]
    have hlt' := hlt heof
    have hdl := length_dropWhile_le (fun c => isspace (code c)) ds
    rw [curTokenRec_agree hA,
      tokensFuel_agree (remaining l1) (remaining l2) (getNextToken l1) (getNextToken l2) ds ds
        (sees_getNextToken s1) (sees_getNextToken s2) i1 i2 rfl (by omega) (by omega)]

/-- In front of a comment that ends with a newline, `getTok` is the recursive
call made on a lexer that sees the newline and the text after it. -/
theorem getTok_comment {l : Lexer} {ws c rest : List Char}
    (h : Sees l (ws ++ '#' :: c ++ '\n' :: rest))
    (hws : ∀ x ∈ ws, isspace (code x) = true)
    (hc : ∀ x ∈ c, x ≠ '\n' ∧ x ≠ '\r' ∧ x ≠ '\xFF') :
    ∃ n l3, getTok l = getTokFuel n l3 ∧ Sees l3 ('\n' :: rest) ∧
      ('\n' :: rest).length ≤ n + 1 ∧ n + 1 ≤ remaining l ∧
      l3.identifierStr = l.identifierStr ∧ l3.numStr = l.numStr := by
  have hlen := sees_remaining h (by simp)
  have hm := sees_scanStart h
  have hdrop : (ws ++ '#' :: c ++ '\n' :: rest).dropWhile (fun c => isspace (code c)) =
      '#' :: (c ++ '\n' :: rest) := by
    rw [List.append_assoc, dropWhile_append_of_all ws _ hws]
    rfl
  rw [hdrop] at hm
  obtain ⟨hcl, hci, hcn, -⟩ := commentLoop_spec hm
  simp only [List.tail_cons] at hcl
  have hrun := takeWhile_run (p := continuesComment) c ('\n' :: rest)
    (by
      intro x hx
      exact continuesComment_of (hc x hx).1 (hc x hx).2.1 (hc x hx).2.2)
    (by
      intro x hx
      simp only [List.head?_cons, Option.mem_def, Option.some.injEq] at hx
      subst hx
      rfl)
  rw [hrun.2] at hcl
  have hne : (commentLoop (markLocation (skipSpaces l))).lastChar ≠ EOF := by
    rw [hcl.1]; exact code_ne_EOF _ (by decide)
  have hC : (markLocation (skipSpaces l)).lastChar = 35 := by
    rw [hm.1]; exact code_hash
  simp only [List.length_append, List.length_cons] at hlen
  obtain ⟨n, hn⟩ : ∃ n, remaining l = n + 1 := ⟨remaining l - 1, by omega⟩
  refine ⟨n, commentLoop (markLocation (skipSpaces l)), ?_, hcl, ?_, by omega, ?_, ?_⟩
  · show getTokFuel (remaining l) l = _
    rw [hn]
    show getTokBody (getTokFuel n) l = _
    rw [getTokBody_comment _ l hC, if_neg hne]
  · simp only [List.length_cons]
    omega
  · rw [hci, (scanStart_fields l).1]
  · rw [hcn, (scanStart_fields l).2.1]

theorem getTok_eof {l : Lexer} (h : Sees l []) :
    (getTok l).1 = tok_eof ∧ Sees (getTok l).2 [] := by
  have hm := sees_scanStart h
  simp only [List.dropWhile_nil] at hm
  obtain ⟨self, hself⟩ := getTok_eq_body l
  rw [hself, getTokBody_eof self l hm.1]
  exact ⟨rfl, hm⟩

theorem tokens_eof {l : Lexer} (h : Sees l []) : tokens l = [] := by
  show (if (getTok l).1 = tok_eof then [] else _) = []
  rw [if_pos (getTok_eof h).1]

/-! ## `LexerBuffer` on a text without line breaks -/

theorem linesFuel_nil (n : Nat) : LexerBuffer.linesFuel n [] = [] := by
  cases n with
  | zero => rfl
  | succ n => rfl

theorem lines_single (s : List Char) (hne : s ≠ [])
    (hs : ∀ x ∈ s, (x != '\x00' && x != '\n') = true) : LexerBuffer.lines s = [s] := by
  unfold LexerBuffer.lines
  cases s with
  | nil => exact absurd rfl hne
  | cons c t =>
    have htd := takeWhile_run (p := fun x : Char => x != '\x00' && x != '\n') (c :: t) [] hs
      (by simp)
    simp only [List.append_nil] at htd
    have : LexerBuffer.readNextLine (c :: t) = (c :: t, []) := by
      unfold LexerBuffer.readNextLine
      simp only [htd.1, htd.2]
    simp only [List.length_cons, LexerBuffer.linesFuel, this, List.isEmpty_cons, linesFuel_nil]
    simp

theorem sees_new (f : String) (s : List Char) (hne : s ≠ []) :
    Sees (Lexer.new f [s]) (' ' :: '\n' :: s) := by
  cases s with
  | nil => exact absurd rfl hne
  | cons c t =>
    refine ⟨rfl, ?_⟩
    simp [upcoming, Lexer.new, pendingChars]

theorem identChar_inLine (x : Char) (h : isIdentChar x = true) :
    (x != '\x00' && x != '\n') = true := by
  have h1 : x ≠ '\x00' := by
    rintro rfl
    exact absurd h (by decide)
  have h2 : x ≠ '\n' := by
    rintro rfl
    exact absurd h (by decide)
  simp [h1, h2]

theorem regex_identChars {s : List Char} (h : MatchesIdentifierRegex s) :
    ∀ x ∈ s, isIdentChar x = true := by
  obtain ⟨c, a, d, rfl, hc, ha, hd⟩ := h
  intro x hx
  simp only [List.mem_cons, List.mem_append] at hx
  unfold isIdentChar isalnum
  rcases hx with rfl | hx | hx
  · simp [hc]
  · rcases ha x hx with h1 | rfl
    · simp [h1]
    · decide
  · simp [hd x hx]

theorem letter_after_digit_has_letter {t : List Char} (h : HasLetterAfterDigit t) :
    (∃ y ∈ t, isalpha (code y) = true) ∧ (∃ y ∈ t, isdigit (code y) = true) := by
  obtain ⟨a, d, b, y, c, rfl, hd, hy⟩ := h
  exact ⟨⟨y, by simp, hy⟩, ⟨d, by simp, hd⟩⟩

theorem regex_no_letter_after_digit {s : List Char} (h : MatchesIdentifierRegex s) :
    ¬ HasLetterAfterDigit s := by
  obtain ⟨c, a, d, rfl, hc, ha, hd⟩ := h
  have hnd : ∀ x, (isalpha (code x) = true ∨ x = '_') → isdigit (code x) = false := by
    intro x hx
    rcases hx with hx | rfl
    · cases hdx : isdigit (code x)
      · rfl
      · exact absurd ⟨hdx, hx⟩ (not_digit_and_alpha _)
    · decide
  have key : ¬ HasLetterAfterDigit (a ++ d) := by
    induction a with
    | nil =>
      intro hl
      obtain ⟨⟨y, hy, hay⟩, -⟩ := letter_after_digit_has_letter hl
      exact not_digit_and_alpha _ ⟨hd y hy, hay⟩
    | cons x t ih =>
      rw [List.cons_append, letter_after_digit_cons, hnd x (ha x (by simp))]
      simp only [Bool.false_eq_true, false_and, false_or]
      exact ih (fun y hy => ha y (List.mem_cons_of_mem _ hy))
  rw [letter_after_digit_cons, hnd c (Or.inl hc)]
  simpa using key


/-! ## Parser -/

theorem Parser.consume_eq {p : Parser} {t : Token} (h : p.cur = t) :
    p.consume t = some p.next := by
  unfold Parser.consume pony.consume
  have : t = p.lexer.curTok := h.symm
  rw [if_pos this]
  rfl

theorem Parser.consume_ne {p : Parser} {t : Token} (h : p.cur ≠ t) :
    p.consume t = none := by
  unfold Parser.consume pony.consume
  have : ¬ t = p.lexer.curTok := fun e => h e.symm
  rw [if_neg this]

theorem getId_of_identifier {l : Lexer} (h : l.curTok = tok_identifier) :
    getId l = some l.identifierStr := by
  unfold getId
  rw [if_pos h]

theorem parseArgs_argList {PE : Parser → Outcome ExprAST} {q q' : Parser}
    {es : List ExprAST} (h : ArgList PE q es q') :
    ∀ (fuel : Nat) (acc : List ExprAST), es.length ≤ fuel →
      parseArgs PE fuel acc q = .ret (some (acc ++ es)) q' := by
  induction h with
  | last he hq =>
    intro fuel acc hf
    cases fuel with
    | zero => simp at hf
    | succ n =>
      unfold parseArgs
      rw [he]
      simp only [hq, if_true]
  | more he hq _ ih =>
    intro fuel acc hf
    cases fuel with
    | zero => simp at hf
    | succ n =>
      unfold parseArgs
      rw [he]
      simp only [hq]
      rw [if_neg (by decide), if_neg (by simp)]
      rw [ih n _ (by simpa using hf)]
      simp

theorem argList_close {PE : Parser → Outcome ExprAST} {q q' : Parser}
    {es : List ExprAST} (h : ArgList PE q es q') : q'.cur = 41 := by
  induction h with
  | last _ hq => exact hq
  | more _ _ _ ih => exact ih

theorem argList_ne_nil {PE : Parser → Outcome ExprAST} {q q' : Parser}
    {es : List ExprAST} (h : ArgList PE q es q') : es ≠ [] := by
  cases h <;> simp

/-- The call branch of `parseIdentifierExpr`, up to the closing parenthesis. -/
theorem parseIdentifierExpr_call {PE : Parser → Outcome ExprAST} {p q : Parser}
    {es : List ExprAST} (hid : p.cur = tok_identifier) (hcall : p.next.cur = 40)
    (hargs : CallArgs PE p.next.next es q) (fuel : Nat) (hf : es.length ≤ fuel) :
    q.cur = 41 ∧
    parseIdentifierExpr PE fuel p = finishCall p.lexer.identifierStr es q := by
  unfold parseIdentifierExpr
  rw [getId_of_identifier hid]
  simp only [hcall, ne_eq, not_true_eq_false, if_false, Parser.consume_eq hcall]
  rcases hargs with ⟨rfl, h41, rfl⟩ | ⟨h41, hl⟩
  · refine ⟨h41, ?_⟩
    simp only [h41, not_true_eq_false, if_false]
  · have hq : q.cur = 41 := argList_close hl
    refine ⟨hq, ?_⟩
    rw [if_pos h41, parseArgs_argList hl fuel [] hf]
    simp


theorem lexNumber_kind (l : Lexer) :
    (lexNumber l).1 = tok_error ∨ (lexNumber l).1 = tok_number := by
  unfold lexNumber
  simp only
  split_ifs <;> simp

/-- C2: in front of a maximal run `r` of letters, digits and underscores that
begins with a letter or an underscore and is not a keyword, `getTok` returns
the identifier token exactly when `r` starts with a letter, has no two
consecutive underscores and has no letter after a digit; in every other case
it returns the lexical-error token `Token(0)`. -/
theorem identifier_token_iff_wellformed (l : Lexer) (r : List Char)
    (hrun : ScansRun l isIdentChar r)
    (hstart : ∃ c ∈ r.head?, isalpha (code c) = true ∨ c = '_')
    (hkw : r ∉ keywords) :
    ((getTok l).1 = tok_identifier ↔ ValidIdentifier r) ∧
    (¬ ValidIdentifier r → (getTok l).1 = tok_error) := by
  obtain ⟨ws, rest, hsee, hws, -, hr, hrest⟩ := hrun
  obtain ⟨-, -, -, -, -, hvalid, hinvalid⟩ := getTok_identRun hsee hws hr hrest hstart
  refine ⟨⟨?_, hvalid hkw⟩, hinvalid hkw⟩
  intro htok
  by_contra hv
  rw [hinvalid hkw hv] at htok
  exact absurd htok (by decide)

theorem identifier_token_iff_wellformed_witness :
    ScansRun (LexerBuffer.new "x__y".toList "t.pony") isIdentChar "x__y".toList ∧
    ((getTok (LexerBuffer.new "x__y".toList "t.pony")).1 = tok_identifier ↔
      ValidIdentifier "x__y".toList) ∧
    (¬ ValidIdentifier "x__y".toList →
      (getTok (LexerBuffer.new "x__y".toList "t.pony")).1 = tok_error) :=
  have hrun : ScansRun (LexerBuffer.new "x__y".toList "t.pony") isIdentChar "x__y".toList :=
    ⟨" \n".toList, [], ⟨rfl, rfl⟩, by decide, by decide, by decide, by decide⟩
  ⟨hrun, identifier_token_iff_wellformed _ _ hrun ⟨'x', rfl, Or.inl (by decide)⟩ (by decide)⟩

theorem wellformed_identifier_single_token_counterexample :
    MatchesIdentifierRegex "var".toList ∧ ¬ HasDoubleUnderscore "var".toList ∧
    tokens (LexerBuffer.new "var".toList "t.pony") = [⟨tok_var, none, none⟩] ∧
    tokens (LexerBuffer.new "var".toList "t.pony") ≠
      [⟨tok_identifier, some "var".toList, none⟩] := by
  refine ⟨⟨'v', "ar".toList, [], rfl, by decide, by decide, by simp⟩, ?_, by decide, by decide⟩
  unfold HasDoubleUnderscore
  decide

/-- C4 (amended): for every text `s` that matches `[a-zA-Z][a-zA-Z_]*[0-9]*`,
has no doubled underscore and is not one of the keywords `return`, `def`,
`var`, lexing `s` yields exactly one token before end-of-stream; it is an
identifier token and its text is `s`. -/
theorem wellformed_identifier_single_token (s : List Char) (f : String)
    (hre : MatchesIdentifierRegex s) (hdu : ¬ HasDoubleUnderscore s) (hkw : s ∉ keywords) :
    tokens (LexerBuffer.new s f) = [⟨tok_identifier, some s, none⟩] := by
  have hchars := regex_identChars hre
  have hne : s ≠ [] := by
    obtain ⟨c, a, d, rfl, -⟩ := hre
    simp
  have hstart : StartsWithLetter s := by
    obtain ⟨c, a, d, rfl, hc, -⟩ := hre
    exact ⟨c, _, rfl, hc⟩
  have hvalid : ValidIdentifier s := ⟨hstart, hdu, regex_no_letter_after_digit hre⟩
  have hlines := lines_single s hne (fun x hx => identChar_inLine x (hchars x hx))
  have hsee : Sees (LexerBuffer.new s f) ([' ', '\n'] ++ s ++ []) := by
    unfold LexerBuffer.new
    rw [hlines]
    simpa using sees_new f s hne
  obtain ⟨hid, hrest, -, -, -, htok, -⟩ := getTok_identRun hsee (by decide) hchars (by simp)
    (by
      obtain ⟨c, t, rfl, hc⟩ := hstart
      exact ⟨c, rfl, Or.inl hc⟩)
  have htok := htok hkw hvalid
  have hfuel : remaining (LexerBuffer.new s f) + 1 = (s.length + 1) + 1 := by
    rw [sees_remaining hsee (by simp)]
    simp
  unfold tokens
  rw [hfuel]
  show (if (getTok (LexerBuffer.new s f)).1 = tok_eof then [] else
    curTokenRec (getNextToken (LexerBuffer.new s f)) ::
      tokensFuel (s.length + 1) (getNextToken (LexerBuffer.new s f))) = _
  rw [htok, if_neg (by decide)]
  have hnext : Sees (getNextToken (LexerBuffer.new s f)) [] := sees_getNextToken hrest
  have htail : tokensFuel (s.length + 1) (getNextToken (LexerBuffer.new s f)) = [] := by
    show (if (getTok (getNextToken (LexerBuffer.new s f))).1 = tok_eof then [] else _) = []
    rw [if_pos (getTok_eof hnext).1]
  rw [htail]
  have hrec : curTokenRec (getNextToken (LexerBuffer.new s f)) =
      ⟨tok_identifier, some s, none⟩ := by
    have k : (getNextToken (LexerBuffer.new s f)).curTok = tok_identifier := htok
    have i : (getNextToken (LexerBuffer.new s f)).identifierStr = s := hid
    unfold curTokenRec getId getValue
    rw [k, i]
    rfl
  rw [hrec]

theorem wellformed_identifier_single_token_witness :
    tokens (LexerBuffer.new "b_4".toList "t.pony") =
      [⟨tok_identifier, some "b_4".toList, none⟩] :=
  wellformed_identifier_single_token "b_4".toList "t.pony"
    ⟨'b', "_".toList, "4".toList, rfl, by decide, by decide, by decide⟩
    (by unfold HasDoubleUnderscore; decide) (by decide)

/-- A comment without byte 255 yields no token. A lexer in front of `#`, a
comment body without line break and without byte 255, a newline and the text
`rest` delivers the same tokens (kinds, identifier texts, numerals) as a lexer
in front of `rest` that holds the same identifier text and numeral. -/
theorem comment_yields_no_token (l1 l2 : Lexer) (ws1 ws2 c rest : List Char)
    (h1 : Sees l1 (ws1 ++ '#' :: c ++ '\n' :: rest))
    (h2 : Sees l2 (ws2 ++ rest))
    (hid : l1.identifierStr = l2.identifierStr) (hnum : l1.numStr = l2.numStr)
    (hws1 : ∀ x ∈ ws1, isspace (code x) = true)
    (hws2 : ∀ x ∈ ws2, isspace (code x) = true)
    (hc : ∀ x ∈ c, x ≠ '\n' ∧ x ≠ '\r' ∧ x ≠ '\xFF') :
    tokens l1 = tokens l2 := by
  obtain ⟨n, l3, hg, hs3, hlen, hn, i3, n3⟩ := getTok_comment h1 hws1 hc
  have hcs : ('\n' :: rest).dropWhile (fun c => isspace (code c)) =
      (ws2 ++ rest).dropWhile (fun c => isspace (code c)) := by
    rw [dropWhile_append_of_all ws2 _ hws2]
    rfl
  have hA := getTokFuel_agree n (remaining l2) l3 l2 _ _ hs3 h2 (i3.trans hid) (n3.trans hnum)
    hcs hlen (sees_length_le h2)
  rw [← hg] at hA
  have hd1 := length_dropWhile_le (fun c => isspace (code c)) ('\n' :: rest)
  have hd2 := length_dropWhile_le (fun c => isspace (code c)) (ws2 ++ rest)
  have hl2 := sees_length_le h2
  rw [hcs] at hA
  refine tokens_of_agree hA ?_ ?_
  · rw [← hcs]
    simp only [List.length_cons] at hlen hd1
    omega
  · omega

/-- The comment loop stops at the first byte 255 of a comment body that has no
line break before it. -/
theorem dropWhile_continuesComment_ff : ∀ (b rest : List Char),
    (∀ x ∈ b, x ≠ '\n' ∧ x ≠ '\r') → '\xFF' ∈ b →
    ∃ u, (b ++ rest).dropWhile continuesComment = '\xFF' :: u := by
  intro b
  induction b with
  | nil => intro rest _ hm; simp at hm
  | cons x t ih =>
    intro rest hb hm
    by_cases hx : x = '\xFF'
    · subst hx
      exact ⟨t ++ rest, rfl⟩
    · have hc : continuesComment x = true :=
        continuesComment_of (hb x (by simp)).1 (hb x (by simp)).2 hx
      have hm' : '\xFF' ∈ t := by
        rcases List.mem_cons.mp hm with h | h
        · exact absurd h.symm hx
        · exact h
      obtain ⟨u, hu⟩ := ih rest (fun y hy => hb y (List.mem_cons_of_mem _ hy)) hm'
      exact ⟨u, by simp only [List.cons_append, List.dropWhile_cons, hc, if_true]; exact hu⟩

/-- C6 (the code does not do what the claim says): a comment whose body holds
byte 255 is not passed over. `getNextChar` returns the plain `char` as `int`,
so byte 255 arrives as the value of `EOF`: the comment loop stops there,
`getTok` returns end-of-stream, and the text after the comment is never
scanned; the token stream of `#` body newline `rest` is empty whatever `rest`
is. -/
theorem comment_byte_255_ends_stream (l : Lexer) (ws c rest : List Char)
    (h : Sees l (ws ++ '#' :: c ++ '\n' :: rest))
    (hws : ∀ x ∈ ws, isspace (code x) = true)
    (hc : ∀ x ∈ c, x ≠ '\n' ∧ x ≠ '\r') (hff : '\xFF' ∈ c) :
    (getTok l).1 = tok_eof ∧ tokens l = [] := by
  have hm := sees_scanStart h
  have hdrop : (ws ++ '#' :: c ++ '\n' :: rest).dropWhile (fun c => isspace (code c)) =
      '#' :: (c ++ '\n' :: rest) := by
    rw [List.append_assoc, dropWhile_append_of_all ws _ hws]
    rfl
  rw [hdrop] at hm
  obtain ⟨hcl, -⟩ := commentLoop_spec hm
  simp only [List.tail_cons] at hcl
  obtain ⟨u, hu⟩ := dropWhile_continuesComment_ff c ('\n' :: rest) hc hff
  rw [hu] at hcl
  have hE : (commentLoop (markLocation (skipSpaces l))).lastChar = EOF := by
    rw [hcl.1]; rfl
  have hC : (markLocation (skipSpaces l)).lastChar = 35 := by
    rw [hm.1]; exact code_hash
  have hk : (getTok l).1 = tok_eof := by
    obtain ⟨self, hself⟩ := getTok_eq_body l
    rw [hself, getTokBody_comment self l hC, if_pos hE]
  refine ⟨hk, ?_⟩
  show (if (getTok l).1 = tok_eof then [] else _) = []
  rw [if_pos hk]

theorem comment_byte_255_ends_stream_witness :
    ((getTok (LexerBuffer.new "# caf\xFF\n1".toList "t.pony")).1 = tok_eof ∧
      tokens (LexerBuffer.new "# caf\xFF\n1".toList "t.pony") = []) ∧
    tokens (LexerBuffer.new "1".toList "t.pony") = [⟨tok_number, none, some "1".toList⟩] ∧
    tokens (LexerBuffer.new "# cafe\n1".toList "t.pony") =
      [⟨tok_number, none, some "1".toList⟩] :=
  ⟨comment_byte_255_ends_stream (LexerBuffer.new "# caf\xFF\n1".toList "t.pony")
    " \n".toList " caf\xFF".toList "1".toList ⟨rfl, rfl⟩ (by decide) (by decide) (by decide),
    by decide, by decide⟩

/-- The examples of malformed and well-formed identifiers and numbers: the kind
of the first token of each text. -/
theorem lexical_examples :
    (getTok (LexerBuffer.new "__x".toList "t.pony")).1 = tok_error ∧
    (getTok (LexerBuffer.new "x__y".toList "t.pony")).1 = tok_error ∧
    (getTok (LexerBuffer.new "a1b".toList "t.pony")).1 = tok_error ∧
    (getTok (LexerBuffer.new "a123".toList "t.pony")).1 = tok_identifier ∧
    (getTok (LexerBuffer.new "9.9.9".toList "t.pony")).1 = tok_error ∧
    (getTok (LexerBuffer.new "9..".toList "t.pony")).1 = tok_error ∧
    (getTok (LexerBuffer.new ".999".toList "t.pony")).1 = tok_error ∧
    (getTok (LexerBuffer.new "..9".toList "t.pony")).1 = tok_error ∧
    (getTok (LexerBuffer.new "9.9".toList "t.pony")).1 = tok_number ∧
    (getTok (LexerBuffer.new "9.9".toList "t.pony")).2.numStr = "9.9".toList ∧
    (getTok (LexerBuffer.new "99".toList "t.pony")).1 = tok_number ∧
    (getTok (LexerBuffer.new "99".toList "t.pony")).2.numStr = "99".toList ∧
    (getTok (LexerBuffer.new "variable".toList "t.pony")).1 = tok_identifier ∧
    (getTok (LexerBuffer.new "Return".toList "t.pony")).1 = tok_identifier ∧
    (getTok (LexerBuffer.new "return".toList "t.pony")).1 = tok_return := by
  decide


/-- C7: `parseIdentifierExpr` entered on the identifier `n`. If the next token
is not `(` it returns `VariableExpr(n)` and has consumed the identifier only.
If `n` is not `print` and the identifier is followed by `(` `e1 , ... , ek` `)`
with `k ≥ 0` successfully parsed expressions, it returns
`CallExpr(n, [e1, ..., ek])` and leaves the current token just after `)`. -/
theorem parseIdentifierExpr_variable_or_call (PE : Parser → Outcome ExprAST) (p : Parser)
    (n : List Char) (hid : p.cur = tok_identifier) (hn : p.lexer.identifierStr = n) :
    (p.next.cur ≠ 40 → ∀ fuel, parseIdentifierExpr PE fuel p = .ret (some (.Variable n)) p.next) ∧
    (∀ es q, n ≠ "print".toList → p.next.cur = 40 → CallArgs PE p.next.next es q →
      ∀ fuel, es.length ≤ fuel →
        parseIdentifierExpr PE fuel p = .ret (some (.Call n es)) q.next) := by
  constructor
  · intro hne fuel
    unfold parseIdentifierExpr
    rw [getId_of_identifier hid, hn]
    simp only [ne_eq, hne, not_false_eq_true, if_true]
  · intro es q hprint hcall hargs fuel hf
    obtain ⟨hq, hres⟩ := parseIdentifierExpr_call hid hcall hargs fuel hf
    rw [hres, hn]
    unfold finishCall
    rw [Parser.consume_eq hq]
    simp only [hprint, if_false]


theorem parseIdentifierExpr_variable_or_call_witness :
    parseIdentifierExpr (parseExpression (parsePrimary 2) 3) 2
        (Parser.new "foo(1,2)".toList "t.pony") =
      .ret (some (.Call "foo".toList [.Number ['1'], .Number ['2']]))
        (Parser.new "foo(1,2)".toList "t.pony").next.next.next.next.next.next :=
  (parseIdentifierExpr_variable_or_call (parseExpression (parsePrimary 2) 3)
    (Parser.new "foo(1,2)".toList "t.pony") "foo".toList rfl rfl).2
    [.Number ['1'], .Number ['2']]
    (Parser.new "foo(1,2)".toList "t.pony").next.next.next.next.next
    (by decide) rfl
    (Or.inr ⟨by decide, ArgList.more rfl rfl (ArgList.last rfl rfl)⟩) 2 (by decide)

theorem finishCall_print (es : List ExprAST) (q : Parser) (hq : q.cur = 41) :
    finishCall "print".toList es q =
      match es with
      | [arg] => .ret (some (.Print arg)) q.next
      | _ => parseError q.next "one argument" "for print statement" := by
  unfold finishCall
  rw [Parser.consume_eq hq]
  simp only [if_true]

theorem finishCall_print_not_call (es : List ExprAST) (q : Parser)
    (args : List ExprAST) (r : Parser) :
    finishCall "print".toList es q ≠ .ret (some (.Call "print".toList args)) r := by
  unfold finishCall
  cases q.consume 41 with
  | none => intro h; exact Outcome.noConfusion h
  | some p1 =>
    simp only [if_true]
    cases es with
    | nil => simp [parseError]
    | cons e t =>
      cases t with
      | nil => simp
      | cons e2 t2 => simp [parseError]

/-- On the identifier `print`, `parseIdentifierExpr` never builds a call node
named `print`. -/
theorem parseIdentifierExpr_print_not_call (PE : Parser → Outcome ExprAST) (fuel : Nat)
    (p : Parser) (hn : p.lexer.identifierStr = "print".toList)
    (args : List ExprAST) (r : Parser) :
    parseIdentifierExpr PE fuel p ≠ .ret (some (.Call "print".toList args)) r := by
  unfold parseIdentifierExpr
  cases hg : getId p.lexer with
  | none => intro h; exact Outcome.noConfusion h
  | some id =>
    have hid : id = "print".toList := by
      unfold getId at hg
      split_ifs at hg
      rw [← hn]
      exact (Option.some.inj hg).symm
    subst hid
    simp only
    by_cases h40 : p.next.cur ≠ 40
    · rw [if_pos h40]
      simp
    · rw [if_neg h40]
      cases p.next.consume 40 with
      | none => intro h; exact Outcome.noConfusion h
      | some p2 =>
        simp only
        by_cases h41 : p2.cur ≠ 41
        · rw [if_pos h41]
          cases parseArgs PE fuel [] p2 with
          | ret o p3 =>
            cases o with
            | none => simp
            | some as => exact finishCall_print_not_call as p3 args r
          | assertFail => intro h; exact Outcome.noConfusion h
          | outOfFuel => intro h; exact Outcome.noConfusion h
        · rw [if_neg h41]
          exact finishCall_print_not_call [] p2 args r

/-- C8: for a call of the identifier `print` with `k` successfully parsed
arguments, `parseIdentifierExpr` returns `PrintExpr(e1)` if and only if
`k = 1`; for every `k ≠ 1` it reports "expected one argument for print
statement" and returns failure; it never returns a `CallExpr` named
`print`. -/
theorem print_requires_one_argument (PE : Parser → Outcome ExprAST) (p q : Parser)
    (es : List ExprAST) (fuel : Nat)
    (hid : p.cur = tok_identifier) (hn : p.lexer.identifierStr = "print".toList)
    (hcall : p.next.cur = 40) (hargs : CallArgs PE p.next.next es q)
    (hf : es.length ≤ fuel) :
    ((∃ e r, parseIdentifierExpr PE fuel p = .ret (some (.Print e)) r) ↔ es.length = 1) ∧
    (∀ e, es = [e] → parseIdentifierExpr PE fuel p = .ret (some (.Print e)) q.next) ∧
    (es.length ≠ 1 → parseIdentifierExpr PE fuel p =
      .ret none { q.next with errs := q.next.errs ++
        [⟨"one argument", "for print statement", q.next.lexer.lastLocation,
          q.next.lexer.curTok⟩] }) ∧
    (∀ args r, parseIdentifierExpr PE fuel p ≠ .ret (some (.Call "print".toList args)) r) := by
  obtain ⟨hq, hres⟩ := parseIdentifierExpr_call hid hcall hargs fuel hf
  rw [hn, finishCall_print es q hq] at hres
  refine ⟨?_, ?_, ?_, parseIdentifierExpr_print_not_call PE fuel p hn⟩
  · rw [hres]
    cases es with
    | nil =>
      simp only [parseError, List.length_nil]
      constructor
      · rintro ⟨e, r, h⟩
        injection h with h1 h2
        exact Option.noConfusion h1
      · intro h; exact absurd h (by decide)
    | cons e t =>
      cases t with
      | nil => exact ⟨fun _ => rfl, fun _ => ⟨e, q.next, rfl⟩⟩
      | cons e2 t2 =>
        simp only [parseError, List.length_cons]
        constructor
        · rintro ⟨e, r, h⟩
          injection h with h1 h2
          exact Option.noConfusion h1
        · intro h; omega
  · rintro e rfl
    rw [hres]
  · intro hlen
    rw [hres]
    cases es with
    | nil => rfl
    | cons e t =>
      cases t with
      | nil => exact absurd rfl hlen
      | cons e2 t2 => rfl

theorem print_requires_one_argument_witness :
    parseIdentifierExpr (parseExpression (parsePrimary 2) 3) 2
        (Parser.new "print(1,2)".toList "t.pony") =
      .ret none { (Parser.new "print(1,2)".toList "t.pony").next.next.next.next.next.next with
        errs := [⟨"one argument", "for print statement",
          (Parser.new "print(1,2)".toList "t.pony").next.next.next.next.next.next.lexer.lastLocation,
          tok_eof⟩] } :=
  (print_requires_one_argument (parseExpression (parsePrimary 2) 3)
    (Parser.new "print(1,2)".toList "t.pony")
    (Parser.new "print(1,2)".toList "t.pony").next.next.next.next.next
    [.Number ['1'], .Number ['2']] 2 rfl rfl rfl
    (Or.inr ⟨by decide, ArgList.more rfl rfl (ArgList.last rfl rfl)⟩) (by decide)).2.2.1
    (by decide)


theorem getTokPrecedence_additive {p : Parser} (h : p.cur = 43 ∨ p.cur = 45) :
    getTokPrecedence p = 20 := by
  unfold getTokPrecedence
  rcases h with h | h <;> rw [h] <;> rfl

theorem getTokPrecedence_multiplicative {p : Parser} (h : p.cur = 42 ∨ p.cur = 64) :
    getTokPrecedence p = 40 := by
  unfold getTokPrecedence
  rcases h with h | h <;> rw [h] <;> rfl

/-- One round of the loop of `parseBinOpRHS` on an operator of precedence at
least `exprPrec`: the operator is consumed, the primary after it becomes the
right operand, and the loop goes on with the combined node; the recursion
guarded by `nextPrec < nextPrec` is not entered. -/
theorem parseBinOpRHS_step (PP : Parser → Outcome ExprAST) (n : Nat) (exprPrec : Int)
    (lhs rhs : ExprAST) (p p2 : Parser) (hprec : exprPrec ≤ getTokPrecedence p)
    (hrhs : PP p.next = .ret (some rhs) p2) :
    parseBinOpRHS PP (n + 1) exprPrec lhs p =
      parseBinOpRHS PP n exprPrec (.Binary p.cur lhs rhs) p2 := by
  rw [parseBinOpRHS]
  simp only [not_lt.mpr hprec, if_false, Parser.consume_eq rfl, hrhs, lt_irrefl]

theorem parseBinOpRHS_stop (PP : Parser → Outcome ExprAST) (n : Nat) (exprPrec : Int)
    (lhs : ExprAST) (p : Parser) (hprec : getTokPrecedence p < exprPrec) :
    parseBinOpRHS PP (n + 1) exprPrec lhs p = .ret (some lhs) p := by
  rw [parseBinOpRHS]
  simp only [hprec, if_true]

/-- C1 (the code does not do what the claim says): parsing `a op1 b op2 c`
with `op1` one of `+`, `-` and `op2` one of `*`, `@` yields
`BinaryExpr(op2, BinaryExpr(op1, a, b), c)`, the operators grouped from the
left, and not `BinaryExpr(op1, a, BinaryExpr(op2, b, c))`. -/
theorem parseExpression_groups_left (PP : Parser → Outcome ExprAST) (a b c : ExprAST)
    (p p0 p2 p4 : Parser) (fuel : Nat)
    (ha : PP p = .ret (some a) p0)
    (hop1 : p0.cur = 43 ∨ p0.cur = 45)
    (hb : PP p0.next = .ret (some b) p2)
    (hop2 : p2.cur = 42 ∨ p2.cur = 64)
    (hc : PP p2.next = .ret (some c) p4)
    (hend : getTokPrecedence p4 < 0) :
    parseExpression PP (fuel + 3) p =
      .ret (some (.Binary p2.cur (.Binary p0.cur a b) c)) p4 ∧
    parseExpression PP (fuel + 3) p ≠
      .ret (some (.Binary p0.cur a (.Binary p2.cur b c))) p4 := by
  have hres : parseExpression PP (fuel + 3) p =
      .ret (some (.Binary p2.cur (.Binary p0.cur a b) c)) p4 := by
    unfold parseExpression
    rw [ha]
    simp only
    rw [parseBinOpRHS_step PP (fuel + 2) 0 a b p0 p2
        (by rw [getTokPrecedence_additive hop1]; decide) hb,
      parseBinOpRHS_step PP (fuel + 1) 0 _ c p2 p4
        (by rw [getTokPrecedence_multiplicative hop2]; decide) hc,
      parseBinOpRHS_stop PP fuel 0 _ p4 hend]
  refine ⟨hres, ?_⟩
  rw [hres]
  intro h
  injection h with h1 _
  injection h1 with h2
  injection h2 with h3 _ _
  rcases hop1 with e1 | e1 <;> rcases hop2 with e2 | e2 <;> rw [e1, e2] at h3 <;>
    exact absurd h3 (by decide)

theorem parseExpression_groups_left_witness :
    parseExpression (parsePrimary 1) 3 (Parser.new "1+2*3".toList "t.pony") =
      .ret (some (.Binary 42 (.Binary 43 (.Number ['1']) (.Number ['2'])) (.Number ['3'])))
        (Parser.new "1+2*3".toList "t.pony").next.next.next.next.next ∧
    parseExpression (parsePrimary 1) 3 (Parser.new "1+2*3".toList "t.pony") ≠
      .ret (some (.Binary 43 (.Number ['1']) (.Binary 42 (.Number ['2']) (.Number ['3']))))
        (Parser.new "1+2*3".toList "t.pony").next.next.next.next.next :=
  parseExpression_groups_left (parsePrimary 1) (.Number ['1']) (.Number ['2']) (.Number ['3'])
    (Parser.new "1+2*3".toList "t.pony")
    (Parser.new "1+2*3".toList "t.pony").next
    (Parser.new "1+2*3".toList "t.pony").next.next.next
    (Parser.new "1+2*3".toList "t.pony").next.next.next.next.next
    0 rfl (Or.inl rfl) rfl (Or.inl rfl) rfl (by decide)

/-- C9: the type annotation may come before or after the name. On
`var n <t> = e` and on `var <t> n = e`, with `t` accepted by `parseType` and
`e` by `parseExpression`, `parseDeclaration` returns `VarDecl` nodes with the
same name `n`, the same type and the same initializer; on `var n = e` it
returns a `VarDecl` with name `n` and the default type. -/
theorem parseDeclaration_annotation_orders {τ : Type} (dflt : τ)
    (PT : Parser → Outcome τ) (PE : Parser → Outcome ExprAST)
    (n : List Char) (ty : τ) (e : ExprAST) (pA rA pB rB pC rC : Parser)
    (hA : DeclNameThenType PT PE pA n ty e rA)
    (hB : DeclTypeThenName PT PE pB n ty e rB)
    (hC : DeclNoType PE pC n e rC) :
    parseDeclaration dflt PT PE pA = .ret (some ⟨n, ty, some e⟩) rA ∧
    parseDeclaration dflt PT PE pB = .ret (some ⟨n, ty, some e⟩) rB ∧
    parseDeclaration dflt PT PE pC = .ret (some ⟨n, dflt, some e⟩) rC := by
  refine ⟨?_, ?_, ?_⟩
  · obtain ⟨h1, h2, h3, h4, q, h5, h6, h7⟩ := hA
    unfold parseDeclaration
    simp only [h1, h2, ne_eq, not_true_eq_false, if_false, false_and, if_true,
      getId_of_identifier h2, h3, h4, h5]
    unfold parseDeclarationInit
    simp only [Parser.consume_eq h6, h7]
  · obtain ⟨h1, h2, q, h3, h4, h5, h6, h7⟩ := hB
    unfold parseDeclaration
    simp only [h1, h2, ne_eq, not_true_eq_false, if_false, and_false, if_true, h3, h4,
      getId_of_identifier h4, h5]
    rw [if_neg (by decide)]
    unfold parseDeclarationInit
    simp only [Parser.consume_eq h6, h7]
  · obtain ⟨h1, h2, h3, h4, h5⟩ := hC
    unfold parseDeclaration
    simp only [h1, h2, ne_eq, not_true_eq_false, if_false, false_and, if_true,
      getId_of_identifier h2, h3, h4]
    rw [if_neg (by decide)]
    unfold parseDeclarationInit
    simp only [Parser.consume_eq h4, h5]

theorem parseDeclaration_annotation_orders_witness :
    parseDeclaration [] (parseType 3) (parseExpression (parsePrimary 1) 1)
        (Parser.new "var x<Number> = 1;".toList "t.pony") =
      .ret (some ⟨"x".toList, [⟨tok_identifier, some "Number".toList, none⟩],
          some (.Number ['1'])⟩)
        (Parser.new "var x<Number> = 1;".toList "t.pony").next.next.next.next.next.next.next ∧
    parseDeclaration [] (parseType 3) (parseExpression (parsePrimary 1) 1)
        (Parser.new "var <Number> x = 1;".toList "t.pony") =
      .ret (some ⟨"x".toList, [⟨tok_identifier, some "Number".toList, none⟩],
          some (.Number ['1'])⟩)
        (Parser.new "var <Number> x = 1;".toList "t.pony").next.next.next.next.next.next.next ∧
    parseDeclaration [] (parseType 3) (parseExpression (parsePrimary 1) 1)
        (Parser.new "var x = 1;".toList "t.pony") =
      .ret (some ⟨"x".toList, [], some (.Number ['1'])⟩)
        (Parser.new "var x = 1;".toList "t.pony").next.next.next.next :=
  parseDeclaration_annotation_orders [] (parseType 3) (parseExpression (parsePrimary 1) 1)
    "x".toList [⟨tok_identifier, some "Number".toList, none⟩] (.Number ['1'])
    (Parser.new "var x<Number> = 1;".toList "t.pony") _
    (Parser.new "var <Number> x = 1;".toList "t.pony") _
    (Parser.new "var x = 1;".toList "t.pony") _
    ⟨rfl, rfl, rfl, rfl,
      (Parser.new "var x<Number> = 1;".toList "t.pony").next.next.next.next.next,
      rfl, rfl, rfl⟩
    ⟨rfl, rfl,
      (Parser.new "var <Number> x = 1;".toList "t.pony").next.next.next.next,
      rfl, rfl, rfl, rfl, rfl⟩
    ⟨rfl, rfl, rfl, rfl, rfl⟩

/-- C10 (the code does not do what the claim says): when the token after the
name of a declaration `var n` is neither `<` nor `=`, `parseDeclaration`
reports nothing and returns nothing: the assertion of `lexer.consume('=')`
fails. -/
theorem parseDeclaration_missing_equals_asserts {τ : Type} (dflt : τ)
    (PT : Parser → Outcome τ) (PE : Parser → Outcome ExprAST) (p : Parser)
    (h1 : p.cur = tok_var) (h2 : p.next.cur = tok_identifier)
    (h3 : p.next.next.cur ≠ 60) (h4 : p.next.next.cur ≠ 61) :
    parseDeclaration dflt PT PE p = .assertFail := by
  unfold parseDeclaration
  simp only [h1, h2, ne_eq, not_true_eq_false, if_false, false_and, if_true,
    getId_of_identifier h2, h3]
  unfold parseDeclarationInit
  simp only [Parser.consume_ne h4]

theorem parseDeclaration_missing_equals_asserts_witness :
    parseDeclaration [] (parseType 3) (parseExpression (parsePrimary 1) 1)
      (Parser.new "var x 1;".toList "t.pony") = .assertFail :=
  parseDeclaration_missing_equals_asserts [] (parseType 3)
    (parseExpression (parsePrimary 1) 1) (Parser.new "var x 1;".toList "t.pony")
    rfl rfl (by decide) (by decide)

/-- C11 (the code does not do what the claim says): when the initializer
expression of `var n = ...` fails to parse, `parseDeclaration` does not return
failure: it returns a `VarDecl` named `n` whose initializer is the null
pointer. -/
theorem parseDeclaration_keeps_failed_initializer {τ : Type} (dflt : τ)
    (PT : Parser → Outcome τ) (PE : Parser → Outcome ExprAST) (p r : Parser) (n : List Char)
    (h1 : p.cur = tok_var) (h2 : p.next.cur = tok_identifier)
    (h3 : p.next.lexer.identifierStr = n) (h4 : p.next.next.cur = 61)
    (h5 : PE p.next.next.next = .ret none r) :
    parseDeclaration dflt PT PE p = .ret (some ⟨n, dflt, none⟩) r := by
  unfold parseDeclaration
  simp only [h1, h2, ne_eq, not_true_eq_false, if_false, false_and, if_true,
    getId_of_identifier h2, h3, h4]
  rw [if_neg (by decide)]
  unfold parseDeclarationInit
  simp only [Parser.consume_eq h4, h5]

theorem parseDeclaration_keeps_failed_initializer_witness :
    parseDeclaration [] (parseType 3) (parseExpression (parsePrimary 1) 1)
        (Parser.new "var x = ;".toList "t.pony") =
      .ret (some ⟨"x".toList, [], none⟩)
        { (Parser.new "var x = ;".toList "t.pony").next.next.next with
          errs := [⟨"expression", "in primary expression",
            (Parser.new "var x = ;".toList "t.pony").next.next.next.lexer.lastLocation, 59⟩] } :=
  parseDeclaration_keeps_failed_initializer [] (parseType 3)
    (parseExpression (parsePrimary 1) 1) (Parser.new "var x = ;".toList "t.pony") _
    "x".toList rfl rfl rfl rfl rfl

/-- C13: binary operators associate to the left towards equal or lower
precedence. Parsing `a op1 b op2 c`, where `op1` and `op2` are binary operators
and the precedence of `op2` is at most that of `op1`, yields
`BinaryExpr(op2, BinaryExpr(op1, a, b), c)`. -/
theorem parseExpression_left_assoc (PP : Parser → Outcome ExprAST) (a b c : ExprAST)
    (p p0 p2 p4 : Parser) (fuel : Nat)
    (ha : PP p = .ret (some a) p0)
    (hop1 : 0 ≤ getTokPrecedence p0)
    (hb : PP p0.next = .ret (some b) p2)
    (hop2 : 0 ≤ getTokPrecedence p2)
    (_hle : getTokPrecedence p2 ≤ getTokPrecedence p0)
    (hc : PP p2.next = .ret (some c) p4)
    (hend : getTokPrecedence p4 < 0) :
    parseExpression PP (fuel + 3) p =
      .ret (some (.Binary p2.cur (.Binary p0.cur a b) c)) p4 := by
  unfold parseExpression
  rw [ha]
  simp only
  rw [parseBinOpRHS_step PP (fuel + 2) 0 a b p0 p2 hop1 hb,
    parseBinOpRHS_step PP (fuel + 1) 0 _ c p2 p4 hop2 hc,
    parseBinOpRHS_stop PP fuel 0 _ p4 hend]

theorem parseExpression_left_assoc_witness :
    parseExpression (parsePrimary 1) 3 (Parser.new "1*2+3".toList "t.pony") =
      .ret (some (.Binary 43 (.Binary 42 (.Number ['1']) (.Number ['2'])) (.Number ['3'])))
        (Parser.new "1*2+3".toList "t.pony").next.next.next.next.next :=
  parseExpression_left_assoc (parsePrimary 1) (.Number ['1']) (.Number ['2']) (.Number ['3'])
    (Parser.new "1*2+3".toList "t.pony")
    (Parser.new "1*2+3".toList "t.pony").next
    (Parser.new "1*2+3".toList "t.pony").next.next.next
    (Parser.new "1*2+3".toList "t.pony").next.next.next.next.next
    0 rfl (by decide) rfl (by decide) (by decide) rfl (by decide)

theorem getTokPrecedence_other {p : Parser}
    (h : p.cur ≠ 43 ∧ p.cur ≠ 45 ∧ p.cur ≠ 42 ∧ p.cur ≠ 64) : getTokPrecedence p = -1 := by
  unfold getTokPrecedence
  obtain ⟨h1, h2, h3, h4⟩ := h
  simp only [h1, h2, h3, h4, if_false]
  split_ifs <;> rfl

/-- C14: `getTokPrecedence` returns 20 when the current token is `+` or `-`,
40 when it is `*` or `@`, and -1 for every other token; so `parseBinOpRHS`
called with a minimal precedence `exprPrec ≥ 0` on a current token that is no
operator returns `lhs` and leaves the parser as it is. -/
theorem getTokPrecedence_table (p : Parser) :
    ((p.cur = 43 ∨ p.cur = 45) → getTokPrecedence p = 20) ∧
    ((p.cur = 42 ∨ p.cur = 64) → getTokPrecedence p = 40) ∧
    ((p.cur ≠ 43 ∧ p.cur ≠ 45 ∧ p.cur ≠ 42 ∧ p.cur ≠ 64) →
      getTokPrecedence p = -1 ∧
      ∀ (PP : Parser → Outcome ExprAST) (n : Nat) (exprPrec : Int) (lhs : ExprAST),
        0 ≤ exprPrec → parseBinOpRHS PP (n + 1) exprPrec lhs p = .ret (some lhs) p) := by
  refine ⟨getTokPrecedence_additive, getTokPrecedence_multiplicative, ?_⟩
  intro h
  have hp := getTokPrecedence_other h
  refine ⟨hp, ?_⟩
  intro PP n exprPrec lhs hprec
  exact parseBinOpRHS_stop PP n exprPrec lhs p (by rw [hp]; omega)

theorem getTokPrecedence_table_witness :
    getTokPrecedence (Parser.new "x ;".toList "t.pony") = -1 ∧
    ∀ (PP : Parser → Outcome ExprAST) (n : Nat) (exprPrec : Int) (lhs : ExprAST),
      0 ≤ exprPrec →
      parseBinOpRHS PP (n + 1) exprPrec lhs (Parser.new "x ;".toList "t.pony") =
        .ret (some lhs) (Parser.new "x ;".toList "t.pony") :=
  (getTokPrecedence_table (Parser.new "x ;".toList "t.pony")).2.2
    ⟨by decide, by decide, by decide, by decide⟩

theorem parseBinOpRHS_eq_loop (PP : Parser → Outcome ExprAST) :
    ∀ (n : Nat) (exprPrec : Int) (lhs : ExprAST) (p : Parser),
      parseBinOpRHS PP n exprPrec lhs p = parseBinOpRHSLoop PP n exprPrec lhs p := by
  intro n
  induction n with
  | zero => intro exprPrec lhs p; rfl
  | succ n ih =>
    intro exprPrec lhs p
    rw [parseBinOpRHS, parseBinOpRHSLoop]
    simp only [lt_irrefl, if_false, ih]

theorem parseBinOpRHS_chain {PP : Parser → Outcome ExprAST} {p q : Parser}
    {ops : List (Int × ExprAST)} (h : OperatorChain PP p ops q) :
    ∀ (lhs : ExprAST) (fuel : Nat), ops.length < fuel →
      parseBinOpRHS PP fuel 0 lhs p = .ret (some (leftNested lhs ops)) q := by
  induction h with
  | stop hend =>
    intro lhs fuel hf
    cases fuel with
    | zero => simp at hf
    | succ n => exact parseBinOpRHS_stop PP n 0 lhs _ hend
  | op hop hrhs _ ih =>
    intro lhs fuel hf
    cases fuel with
    | zero => simp at hf
    | succ n =>
      rw [parseBinOpRHS_step PP n 0 lhs _ _ _ hop hrhs]
      rw [ih _ n (by simpa using hf)]
      rfl

/-- C20: the test `nextPrec < nextPrec` of `parseBinOpRHS` is never true, so
the routine is its loop without the recursive call; on every chain
`op1 p1 ... opn pn` of binary operators and successfully parsed primaries
followed by a token that is no operator, `parseBinOpRHS(0, p0)` returns the
left-nested tree `BinaryExpr(opn, ... BinaryExpr(op1, p0, p1) ..., pn)`,
whatever the precedences of the operators. -/
theorem parseBinOpRHS_left_nested (PP : Parser → Outcome ExprAST) :
    (∀ (n : Nat) (exprPrec : Int) (lhs : ExprAST) (p : Parser),
      parseBinOpRHS PP n exprPrec lhs p = parseBinOpRHSLoop PP n exprPrec lhs p) ∧
    (∀ (p q : Parser) (ops : List (Int × ExprAST)) (p0 : ExprAST) (fuel : Nat),
      OperatorChain PP p ops q → ops.length < fuel →
      parseBinOpRHS PP fuel 0 p0 p = .ret (some (leftNested p0 ops)) q) :=
  ⟨parseBinOpRHS_eq_loop PP, fun _ _ _ p0 fuel h hf => parseBinOpRHS_chain h p0 fuel hf⟩

theorem parseBinOpRHS_left_nested_witness :
    parseBinOpRHS (parsePrimary 1) 4 0 (.Number ['8'])
        (Parser.new "8-2*3+4;".toList "t.pony").next =
      .ret (some (.Binary 43 (.Binary 42 (.Binary 45 (.Number ['8']) (.Number ['2']))
          (.Number ['3'])) (.Number ['4'])))
        (Parser.new "8-2*3+4;".toList "t.pony").next.next.next.next.next.next.next :=
  (parseBinOpRHS_left_nested (parsePrimary 1)).2
    (Parser.new "8-2*3+4;".toList "t.pony").next
    (Parser.new "8-2*3+4;".toList "t.pony").next.next.next.next.next.next.next
    [(45, .Number ['2']), (42, .Number ['3']), (43, .Number ['4'])] (.Number ['8']) 4
    (OperatorChain.op (by decide) rfl (OperatorChain.op (by decide) rfl
      (OperatorChain.op (by decide) rfl (OperatorChain.stop (by decide)))))
    (by decide)

/-- C12 (the code does not do what the claim says): `dumpToken` prints only
identifiers, numbers, keywords, the punctuation `; ( ) { } [ ] ,` and the
placeholder of a lexical error; every other single-character token is left
out. With `std::to_string` printing `1.000000` and `2.000000` for the numerals
`1` and `2`, the dump of `var x = 1 + 2;` is `var x 1 2 ;`, without `=` and
`+`. -/
theorem dumpToken_drops_operators (to_string : List Char → List Char)
    (h1 : to_string ['1'] = "1.000000".toList) (h2 : to_string ['2'] = "2.000000".toList) :
    dumpToken to_string "var x = 1 + 2;".toList "t.pony" =
      some ["var".toList, "x".toList, "1".toList, "2".toList, ";".toList] ∧
    dumpToken to_string "x = y + z;".toList "t.pony" =
      some ["x".toList, "y".toList, "z".toList, ";".toList] := by
  have hts : to_string = fun v =>
      if v = ['1'] then "1.000000".toList
      else if v = ['2'] then "2.000000".toList else to_string v := by
    funext v
    by_cases e1 : v = ['1']
    · rw [if_pos e1, e1, h1]
    · rw [if_neg e1]
      by_cases e2 : v = ['2']
      · rw [if_pos e2, e2, h2]
      · rw [if_neg e2]
  refine ⟨?_, rfl⟩
  rw [hts]
  rfl

theorem dumpToken_drops_operators_witness :
    dumpToken (fun v => v ++ ".000000".toList) "var x = 1 + 2;".toList "t.pony" =
      some ["var".toList, "x".toList, "1".toList, "2".toList, ";".toList] ∧
    dumpToken (fun v => v ++ ".000000".toList) "x = y + z;".toList "t.pony" =
      some ["x".toList, "y".toList, "z".toList, ";".toList] :=
  dumpToken_drops_operators (fun v => v ++ ".000000".toList) rfl rfl

/-- The text printed for the vector of the dump of `var x = 1 + 2;`. -/
theorem dumpOutput_example :
    dumpOutput ["var".toList, "x".toList, "1".toList, "2".toList, ";".toList] =
      "var x 1 2 ; \n".toList := by
  decide

/-! ## The bounds of the loops are enough -/

theorem fuel_enough {α : Type} (F : Nat → α) (b : Nat)
    (h : ∀ n, b ≤ n → F (n + 1) = F n) : ∀ n, b ≤ n → F n = F b := by
  intro n hn
  induction n with
  | zero =>
    have : b = 0 := Nat.le_zero.mp hn
    rw [this]
  | succ k ih =>
    by_cases hk : b ≤ k
    · rw [h k hk]; exact ih hk
    · have : b = k + 1 := by omega
      rw [this]

theorem advance_of_sees_nil {l : Lexer} (h : Sees l []) : advance l = l := by
  have h1 : l.lastChar = EOF := h.1
  have h2 := getNextChar_nil l h.2
  unfold advance
  rw [h2]
  cases l
  simp_all

theorem skipSpacesFuel_succ (n : Nat) (l : Lexer) :
    skipSpacesFuel (n + 1) l =
      if isspace l.lastChar then skipSpacesFuel n (advance l) else l := rfl

theorem identLoopFuel_succ (n : Nat) (l : Lexer) (f : IdFlags) :
    identLoopFuel (n + 1) l f =
      if isalnum (advance l).lastChar || (advance l).lastChar == 95 then
        identLoopFuel n (identBody (advance l) f).1 (identBody (advance l) f).2
      else (advance l, f) := rfl

theorem numLoopFuel_succ (n : Nat) (l : Lexer) (s : List Char) (d : Nat) :
    numLoopFuel (n + 1) l s d =
      if isdigit (advance l).lastChar || (advance l).lastChar == 46 then
        numLoopFuel n (advance l) (s ++ [toChar l.lastChar])
          (if l.lastChar == 46 then d + 1 else d)
      else (advance l, s ++ [toChar l.lastChar], if l.lastChar == 46 then d + 1 else d) := rfl

theorem commentLoopFuel_succ (n : Nat) (l : Lexer) :
    commentLoopFuel (n + 1) l =
      if (advance l).lastChar != EOF && (advance l).lastChar != 10 &&
          (advance l).lastChar != 13 then commentLoopFuel n (advance l)
      else advance l := rfl

theorem sees_tail_length {cs : List Char} {n : Nat} (h : cs.length ≤ n + 1) :
    cs.tail.length ≤ n := by
  have : cs.tail.length = cs.length - 1 := List.length_tail cs
  omega

theorem skipSpacesFuel_stable : ∀ (n : Nat) (l : Lexer) (cs : List Char), Sees l cs →
    cs.length ≤ n → skipSpacesFuel (n + 1) l = skipSpacesFuel n l := by
  intro n
  induction n with
  | zero =>
    intro l cs h hn
    have : cs = [] := List.length_eq_zero.mp (Nat.le_zero.mp hn)
    subst this
    have e : l.lastChar = EOF := h.1
    simp [skipSpacesFuel, e, isspace_EOF]
  | succ n ih =>
    intro l cs h hn
    rw [skipSpacesFuel_succ (n + 1) l, skipSpacesFuel_succ n l]
    split_ifs
    · exact ih (advance l) cs.tail (sees_advance h) (sees_tail_length hn)
    · rfl

theorem identLoopFuel_stable : ∀ (n : Nat) (l : Lexer) (f : IdFlags) (cs : List Char),
    Sees l cs → cs.length ≤ n → identLoopFuel (n + 1) l f = identLoopFuel n l f := by
  intro n
  induction n with
  | zero =>
    intro l f cs h hn
    have : cs = [] := List.length_eq_zero.mp (Nat.le_zero.mp hn)
    subst this
    have e : l.lastChar = EOF := h.1
    rw [identLoopFuel_succ, advance_of_sees_nil h, e]
    rfl
  | succ n ih =>
    intro l f cs h hn
    have h1 := sees_advance h
    rw [identLoopFuel_succ (n + 1) l f, identLoopFuel_succ n l f]
    split_ifs with hc
    · cases ht : cs.tail with
      | nil =>
        rw [ht] at h1
        have e : (advance l).lastChar = EOF := h1.1
        rw [e] at hc
        exact absurd hc (by decide)
      | cons d t =>
        rw [ht] at h1
        have := sees_tail_length hn
        rw [ht] at this
        exact ih _ _ (d :: t) (identBody_sees h1) this
    · rfl

theorem numLoopFuel_stable : ∀ (n : Nat) (l : Lexer) (s : List Char) (d : Nat)
    (cs : List Char), Sees l cs → cs.length ≤ n + 1 →
    numLoopFuel (n + 2) l s d = numLoopFuel (n + 1) l s d := by
  intro n
  induction n with
  | zero =>
    intro l s d cs h hn
    have h1 := sees_advance h
    have : cs.tail = [] := List.length_eq_zero.mp (Nat.le_zero.mp (sees_tail_length hn))
    rw [this] at h1
    have e : (advance l).lastChar = EOF := h1.1
    rw [numLoopFuel_succ 1 l, numLoopFuel_succ 0 l, e]
    rfl
  | succ n ih =>
    intro l s d cs h hn
    have h1 := sees_advance h
    rw [numLoopFuel_succ (n + 2) l, numLoopFuel_succ (n + 1) l]
    by_cases hc : (isdigit (advance l).lastChar || (advance l).lastChar == 46) = true
    · rw [if_pos hc, if_pos hc]
      exact ih _ _ _ cs.tail h1 (sees_tail_length hn)
    · rw [if_neg hc, if_neg hc]

theorem commentLoopFuel_stable : ∀ (n : Nat) (l : Lexer) (cs : List Char), Sees l cs →
    cs.length ≤ n → commentLoopFuel (n + 1) l = commentLoopFuel n l := by
  intro n
  induction n with
  | zero =>
    intro l cs h hn
    have : cs = [] := List.length_eq_zero.mp (Nat.le_zero.mp hn)
    subst this
    have e : l.lastChar = EOF := h.1
    rw [commentLoopFuel_succ, advance_of_sees_nil h, e]
    rfl
  | succ n ih =>
    intro l cs h hn
    have h1 := sees_advance h
    rw [commentLoopFuel_succ (n + 1) l, commentLoopFuel_succ n l]
    split_ifs with hc
    · exact ih _ cs.tail h1 (sees_tail_length hn)
    · rfl

/-! ## The kinds of token `getTok` returns -/

/-- The token kinds other than a single character. -/
theorem lexIdentifier_kind (l : Lexer) :
    (lexIdentifier l).1 ∈ [tok_return, tok_def, tok_var, tok_identifier, tok_error] := by
  unfold lexIdentifier
  simp only
  split_ifs <;> simp

theorem getTokBody_kind (self : Lexer → Token × Lexer) (l : Lexer) (cs : List Char)
    (h : Sees l cs)
    (hself : ∀ l' ds, Sees l' ds → ds ≠ [] →
      ds.length < (cs.dropWhile (fun c => isspace (code c))).length →
      IsToken (self l').1 ∧ ((self l').1 = tok_eof → (self l').2.lastChar = EOF) ∧
        ∃ es, Sees (self l').2 es) :
    IsToken (getTokBody self l).1 ∧
    ((getTokBody self l).1 = tok_eof → (getTokBody self l).2.lastChar = EOF) ∧
    ∃ es, Sees (getTokBody self l).2 es := by
  have m1 := sees_scanStart h
  generalize cs.dropWhile (fun c => isspace (code c)) = ds at m1 hself
  cases ds with
  | nil =>
    rw [getTokBody_eof self l m1.1]
    exact ⟨Or.inl (by simp), fun _ => m1.1, [], m1⟩
  | cons c t =>
    have e1 : (markLocation (skipSpaces l)).lastChar = code c := m1.1
    by_cases hA : (isalpha (code c) || code c == 95) = true
    · rw [getTokBody_ident self l (by rw [e1]; exact hA)]
      obtain ⟨-, a2, -, -⟩ := lexIdentifier_spec m1
      have hk := lexIdentifier_kind (markLocation (skipSpaces l))
      refine ⟨Or.inl ?_, ?_, _, a2⟩
      · simp only [List.mem_cons, List.mem_singleton, List.not_mem_nil, or_false] at hk ⊢
        tauto
      · intro e
        rw [e] at hk
        exact absurd hk (by decide)
    · have hA' : (isalpha (code c) || code c == 95) = false := by simpa using hA
      by_cases hB : (isdigit (code c) || code c == 46) = true
      · rw [getTokBody_number self l (by rw [e1]; exact hA') (by rw [e1]; exact hB)]
        obtain ⟨a1, -, -, -⟩ := lexNumber_spec m1
        have hk := lexNumber_kind (markLocation (skipSpaces l))
        refine ⟨Or.inl ?_, ?_, _, a1⟩
        · simp only [List.mem_cons, List.mem_singleton, List.not_mem_nil, or_false]
          tauto
        · intro e
          rw [e] at hk
          exact absurd hk (by decide)
      · have hB' : (isdigit (code c) || code c == 46) = false := by simpa using hB
        by_cases hC : code c = 35
        · rw [getTokBody_comment self l (by rw [e1]; exact hC)]
          obtain ⟨a1, -⟩ := commentLoop_spec m1
          simp only [List.tail_cons] at a1
          by_cases hE : (commentLoop (markLocation (skipSpaces l))).lastChar = EOF
          · rw [if_pos hE]
            exact ⟨Or.inl (by simp), fun _ => hE, _, a1⟩
          · rw [if_neg hE]
            have hne : t.dropWhile continuesComment ≠ [] := by
              intro h0
              rw [h0] at a1
              exact hE a1.1
            have hlen : (t.dropWhile continuesComment).length ≤ t.length :=
              length_dropWhile_le _ _
            exact hself _ _ a1 hne (Nat.lt_succ_of_le hlen)
        · by_cases hD : code c = EOF
          · rw [getTokBody_eof self l (by rw [e1]; exact hD)]
            exact ⟨Or.inl (by simp), fun _ => by rw [e1]; exact hD, _, m1⟩
          · rw [getTokBody_other self l (by rw [e1]; exact hA') (by rw [e1]; exact hB')
                (by rw [e1]; exact hC) (by rw [e1]; exact hD)]
            refine ⟨Or.inr ⟨c, e1⟩, ?_, t, sees_advance m1⟩
            intro e
            have e' : code c = EOF := by rw [← e1]; exact e
            exact absurd e' hD

theorem getTokFuel_kind : ∀ (n : Nat) (l : Lexer) (cs : List Char), Sees l cs →
    cs.length ≤ n + 1 →
    IsToken (getTokFuel n l).1 ∧
    ((getTokFuel n l).1 = tok_eof → (getTokFuel n l).2.lastChar = EOF) ∧
    ∃ es, Sees (getTokFuel n l).2 es := by
  intro n
  induction n with
  | zero =>
    intro l cs h hn
    show IsToken (getTokBody _ l).1 ∧ _
    apply getTokBody_kind _ l cs h
    intro l' ds _ hne hlt
    have hl := length_dropWhile_le (fun c => isspace (code c)) cs
    cases ds with
    | nil => exact absurd rfl hne
    | cons d u => simp at hlt; omega
  | succ k ih =>
    intro l cs h hn
    show IsToken (getTokBody (getTokFuel k) l).1 ∧ _
    apply getTokBody_kind _ l cs h
    intro l' ds hs _ hlt
    have hl := length_dropWhile_le (fun c => isspace (code c)) cs
    exact ih l' ds hs (by omega)

/-- The token of `getTok` is of one of the kinds; when it is end-of-stream the
lookahead is `EOF` (the input is at its end, or at a byte 255); the lexer is
left in front of some text. -/
theorem getTok_kind {l : Lexer} {cs : List Char} (h : Sees l cs) :
    IsToken (getTok l).1 ∧ ((getTok l).1 = tok_eof → (getTok l).2.lastChar = EOF) ∧
    ∃ es, Sees (getTok l).2 es :=
  getTokFuel_kind _ l cs h (sees_length_le h)

/-- The lexer on any line supply starts in front of a blank, the newline of
the initial buffer, and the supplied characters. -/
theorem sees_lexer_new (f : String) (supply : List (List Char)) :
    Sees (Lexer.new f supply) (' ' :: '\n' :: pendingChars supply) := by
  refine ⟨rfl, ?_⟩
  simp [upcoming, Lexer.new]

/-- Every state the lexer reaches by `getNextToken` calls is in front of some
text. -/
theorem sees_reachable (f : String) (supply : List (List Char)) (k : Nat) :
    ∃ cs, Sees (getNextToken^[k] (Lexer.new f supply)) cs := by
  induction k with
  | zero => exact ⟨_, sees_lexer_new f supply⟩
  | succ k ih =>
    obtain ⟨cs, h⟩ := ih
    rw [Function.iterate_succ_apply']
    obtain ⟨-, -, es, hes⟩ := getTok_kind h
    exact ⟨es, sees_getNextToken hes⟩

/-- One more `getNextToken` on a lexer whose lookahead is `EOF`. -/
theorem getNextToken_at_eof {l : Lexer} (h1 : l.lastChar = EOF) :
    getNextToken l = { markLocation l with curTok := tok_eof } := by
  have hs : skipSpaces l = l := by
    unfold skipSpaces
    rw [skipSpacesFuel_succ, h1, isspace_EOF]
    rfl
  have hm : (markLocation (skipSpaces l)).lastChar = EOF := by rw [hs]; exact h1
  obtain ⟨self, hself⟩ := getTok_eq_body l
  unfold getNextToken
  rw [hself, getTokBody_eof self l hm, hs]

/-- C18: end-of-stream is sticky and is not consumed. Once `getNextToken` has
returned the end-of-stream token, every later `getNextToken` call returns
end-of-stream again, emits no diagnostic, and leaves the line counter, the
column counter and the lookahead character unchanged. -/
theorem eof_is_sticky (l : Lexer) (cs : List Char) (hsee : Sees l cs)
    (heof : (getNextToken l).curTok = tok_eof) (k : Nat) :
    (getNextToken^[k] (getNextToken l)).curTok = tok_eof ∧
    (getNextToken^[k] (getNextToken l)).cerr = (getNextToken l).cerr ∧
    (getNextToken^[k] (getNextToken l)).curLineNum = (getNextToken l).curLineNum ∧
    (getNextToken^[k] (getNextToken l)).curCol = (getNextToken l).curCol ∧
    (getNextToken^[k] (getNextToken l)).lastChar = (getNextToken l).lastChar := by
  have h0 : (getNextToken l).lastChar = EOF := (getTok_kind hsee).2.1 heof
  have key : ∀ k, (getNextToken^[k] (getNextToken l)).lastChar = EOF ∧
      (getNextToken^[k] (getNextToken l)).curTok = tok_eof ∧
      (getNextToken^[k] (getNextToken l)).cerr = (getNextToken l).cerr ∧
      (getNextToken^[k] (getNextToken l)).curLineNum = (getNextToken l).curLineNum ∧
      (getNextToken^[k] (getNextToken l)).curCol = (getNextToken l).curCol ∧
      (getNextToken^[k] (getNextToken l)).lastChar = (getNextToken l).lastChar := by
    intro k
    induction k with
    | zero => exact ⟨h0, heof, rfl, rfl, rfl, rfl⟩
    | succ k ih =>
      obtain ⟨s, -, c1, c2, c3, c4⟩ := ih
      rw [Function.iterate_succ_apply', getNextToken_at_eof s]
      exact ⟨s, rfl, c1, c2, c3, c4⟩
  exact (key k).2

theorem eof_is_sticky_witness :
    (getNextToken^[3] (getNextToken (getNextToken (LexerBuffer.new "x".toList "t.pony")))).curTok
      = tok_eof ∧
    (getNextToken^[3] (getNextToken (getNextToken (LexerBuffer.new "x".toList "t.pony")))).cerr
      = (getNextToken (getNextToken (LexerBuffer.new "x".toList "t.pony"))).cerr ∧
    (getNextToken^[3] (getNextToken (getNextToken (LexerBuffer.new "x".toList "t.pony")))).curLineNum
      = (getNextToken (getNextToken (LexerBuffer.new "x".toList "t.pony"))).curLineNum ∧
    (getNextToken^[3] (getNextToken (getNextToken (LexerBuffer.new "x".toList "t.pony")))).curCol
      = (getNextToken (getNextToken (LexerBuffer.new "x".toList "t.pony"))).curCol ∧
    (getNextToken^[3] (getNextToken (getNextToken (LexerBuffer.new "x".toList "t.pony")))).lastChar
      = (getNextToken (getNextToken (LexerBuffer.new "x".toList "t.pony"))).lastChar :=
  eof_is_sticky (getNextToken (LexerBuffer.new "x".toList "t.pony")) [] ⟨rfl, rfl⟩ rfl 3

/-! ## The loops of `getTok` come to an end -/

theorem skipSpacesFuel_enough {l : Lexer} {cs : List Char} (hsee : Sees l cs) :
    ∀ n, remaining l + 1 ≤ n → skipSpacesFuel n l = skipSpaces l := by
  have hlen := sees_length_le hsee
  exact fuel_enough (fun n => skipSpacesFuel n l) _
    (fun n hn => skipSpacesFuel_stable n l cs hsee (by omega))

theorem identLoopFuel_enough {l : Lexer} {cs : List Char} (hsee : Sees l cs) (f : IdFlags) :
    ∀ n, remaining l + 1 ≤ n → identLoopFuel n l f = identLoop l f := by
  have hlen := sees_length_le hsee
  exact fuel_enough (fun n => identLoopFuel n l f) _
    (fun n hn => identLoopFuel_stable n l f cs hsee (by omega))

theorem numLoopFuel_enough {l : Lexer} {cs : List Char} (hsee : Sees l cs) :
    ∀ n, remaining l + 1 ≤ n → numLoopFuel n l [] 0 = numLoop l := by
  have hlen := sees_length_le hsee
  intro n hn
  refine fuel_enough (fun n => numLoopFuel n l [] 0) _ ?_ n hn
  intro m hm
  obtain ⟨j, rfl⟩ : ∃ j, m = j + 1 := ⟨m - 1, by omega⟩
  exact numLoopFuel_stable j l [] 0 cs hsee (by omega)

theorem commentLoopFuel_enough {l : Lexer} {cs : List Char} (hsee : Sees l cs) :
    ∀ n, remaining l + 1 ≤ n → commentLoopFuel n l = commentLoop l := by
  have hlen := sees_length_le hsee
  exact fuel_enough (fun n => commentLoopFuel n l) _
    (fun n hn => commentLoopFuel_stable n l cs hsee (by omega))

/-- The whitespace loop ends within as many tests as the text has characters,
plus one. -/
theorem skipSpacesRun_eq : ∀ (n : Nat) (l : Lexer) (cs : List Char), Sees l cs →
    cs.length ≤ n → skipSpacesRun (n + 1) l = some (skipSpacesFuel (n + 1) l) := by
  intro n
  induction n with
  | zero =>
    intro l cs h hn
    have : cs = [] := List.length_eq_zero.mp (Nat.le_zero.mp hn)
    subst this
    have e : l.lastChar = EOF := h.1
    simp [skipSpacesRun, skipSpacesFuel, e, isspace_EOF]
  | succ n ih =>
    intro l cs h hn
    rw [skipSpacesFuel_succ (n + 1) l]
    show (if isspace l.lastChar then skipSpacesRun (n + 1) (advance l) else some l) = _
    split_ifs
    · exact ih (advance l) cs.tail (sees_advance h) (sees_tail_length hn)
    · rfl

theorem identLoopRun_eq : ∀ (n : Nat) (l : Lexer) (f : IdFlags) (cs : List Char),
    Sees l cs → cs.length ≤ n + 1 →
    identLoopRun (n + 1) l f = some (identLoopFuel (n + 1) l f) := by
  intro n
  induction n with
  | zero =>
    intro l f cs h hn
    have h1 := sees_advance h
    have : cs.tail = [] := List.length_eq_zero.mp (Nat.le_zero.mp (sees_tail_length hn))
    rw [this] at h1
    have e : (advance l).lastChar = EOF := h1.1
    rw [identLoopFuel_succ 0 l f]
    show (if isalnum (advance l).lastChar || (advance l).lastChar == 95 then
      identLoopRun 0 (identBody (advance l) f).1 (identBody (advance l) f).2
      else some (advance l, f)) = _
    rw [e]
    rfl
  | succ n ih =>
    intro l f cs h hn
    have h1 := sees_advance h
    rw [identLoopFuel_succ (n + 1) l f]
    show (if isalnum (advance l).lastChar || (advance l).lastChar == 95 then
      identLoopRun (n + 1) (identBody (advance l) f).1 (identBody (advance l) f).2
      else some (advance l, f)) = _
    split_ifs with hc
    · cases ht : cs.tail with
      | nil =>
        rw [ht] at h1
        have e : (advance l).lastChar = EOF := h1.1
        rw [e] at hc
        exact absurd hc (by decide)
      | cons d t =>
        rw [ht] at h1
        have := sees_tail_length hn
        rw [ht] at this
        exact ih _ _ (d :: t) (identBody_sees h1) this
    · rfl

theorem numLoopRun_eq : ∀ (n : Nat) (l : Lexer) (s : List Char) (d : Nat) (cs : List Char),
    Sees l cs → cs.length ≤ n + 1 →
    numLoopRun (n + 1) l s d = some (numLoopFuel (n + 1) l s d) := by
  intro n
  induction n with
  | zero =>
    intro l s d cs h hn
    have h1 := sees_advance h
    have : cs.tail = [] := List.length_eq_zero.mp (Nat.le_zero.mp (sees_tail_length hn))
    rw [this] at h1
    have e : (advance l).lastChar = EOF := h1.1
    rw [numLoopFuel_succ 0 l]
    show (if isdigit (advance l).lastChar || (advance l).lastChar == 46 then
      numLoopRun 0 (advance l) (s ++ [toChar l.lastChar])
        (if l.lastChar == 46 then d + 1 else d)
      else some (advance l, s ++ [toChar l.lastChar],
        if l.lastChar == 46 then d + 1 else d)) = _
    rw [e]
    rfl
  | succ n ih =>
    intro l s d cs h hn
    have h1 := sees_advance h
    rw [numLoopFuel_succ (n + 1) l]
    show (if isdigit (advance l).lastChar || (advance l).lastChar == 46 then
      numLoopRun (n + 1) (advance l) (s ++ [toChar l.lastChar])
        (if l.lastChar == 46 then d + 1 else d)
      else some (advance l, s ++ [toChar l.lastChar],
        if l.lastChar == 46 then d + 1 else d)) = _
    by_cases hc : (isdigit (advance l).lastChar || (advance l).lastChar == 46) = true
    · rw [if_pos hc, if_pos hc]
      exact ih _ _ _ cs.tail h1 (sees_tail_length hn)
    · rw [if_neg hc, if_neg hc]

theorem commentLoopRun_eq : ∀ (n : Nat) (l : Lexer) (cs : List Char), Sees l cs →
    cs.length ≤ n + 1 → commentLoopRun (n + 1) l = some (commentLoopFuel (n + 1) l) := by
  intro n
  induction n with
  | zero =>
    intro l cs h hn
    have h1 := sees_advance h
    have : cs.tail = [] := List.length_eq_zero.mp (Nat.le_zero.mp (sees_tail_length hn))
    rw [this] at h1
    have e : (advance l).lastChar = EOF := h1.1
    rw [commentLoopFuel_succ 0 l]
    show (if (advance l).lastChar != EOF && (advance l).lastChar != 10 &&
      (advance l).lastChar != 13 then commentLoopRun 0 (advance l) else some (advance l)) = _
    rw [e]
    rfl
  | succ n ih =>
    intro l cs h hn
    have h1 := sees_advance h
    rw [commentLoopFuel_succ (n + 1) l]
    show (if (advance l).lastChar != EOF && (advance l).lastChar != 10 &&
      (advance l).lastChar != 13 then commentLoopRun (n + 1) (advance l)
      else some (advance l)) = _
    split_ifs with hc
    · exact ih _ cs.tail h1 (sees_tail_length hn)
    · rfl

theorem sees_remaining_le {l : Lexer} {cs : List Char} (h : Sees l cs) :
    remaining l ≤ cs.length := by
  cases cs with
  | nil => simp [remaining, h.2]
  | cons c t => simp [remaining, h.2]

theorem skipSpacesRun_enough {l : Lexer} {cs : List Char} (hsee : Sees l cs) (n : Nat)
    (hn : cs.length ≤ n) : skipSpacesRun (n + 1) l = some (skipSpaces l) := by
  have hlen := sees_remaining_le hsee
  rw [skipSpacesRun_eq n l cs hsee hn, skipSpacesFuel_enough hsee _ (by omega)]

theorem identLoopRun_enough {l : Lexer} {cs : List Char} (hsee : Sees l cs) (f : IdFlags)
    (n : Nat) (hn : cs.length ≤ n + 1) : identLoopRun (n + 1) l f = some (identLoop l f) := by
  have hlen := sees_remaining_le hsee
  have hlen2 := sees_length_le hsee
  by_cases h0 : cs = []
  · subst h0
    simp only [List.length_nil] at hlen
    rw [identLoopRun_eq n l f [] hsee (by simp), identLoopFuel_enough hsee f _ (by omega)]
  · have := sees_remaining hsee h0
    rw [identLoopRun_eq n l f cs hsee hn, identLoopFuel_enough hsee f _ (by omega)]

theorem numLoopRun_enough {l : Lexer} {cs : List Char} (hsee : Sees l cs)
    (n : Nat) (hn : cs.length ≤ n + 1) : numLoopRun (n + 1) l [] 0 = some (numLoop l) := by
  have hlen := sees_remaining_le hsee
  by_cases h0 : cs = []
  · subst h0
    simp only [List.length_nil] at hlen
    rw [numLoopRun_eq n l [] 0 [] hsee (by simp), numLoopFuel_enough hsee _ (by omega)]
  · have := sees_remaining hsee h0
    rw [numLoopRun_eq n l [] 0 cs hsee hn, numLoopFuel_enough hsee _ (by omega)]

theorem commentLoopRun_enough {l : Lexer} {cs : List Char} (hsee : Sees l cs)
    (n : Nat) (hn : cs.length ≤ n + 1) : commentLoopRun (n + 1) l = some (commentLoop l) := by
  have hlen := sees_remaining_le hsee
  by_cases h0 : cs = []
  · subst h0
    simp only [List.length_nil] at hlen
    rw [commentLoopRun_eq n l [] hsee (by simp), commentLoopFuel_enough hsee _ (by omega)]
  · have := sees_remaining hsee h0
    rw [commentLoopRun_eq n l cs hsee hn, commentLoopFuel_enough hsee _ (by omega)]

theorem sees_identStart {l : Lexer} {cs : List Char} (h : Sees l cs) :
    Sees (identStart l) cs := by
  unfold identStart
  simp only
  split_ifs
  · cases cs with
    | nil => exact ⟨h.1, by simpa [upcoming] using h.2⟩
    | cons c t => exact ⟨h.1, by simpa [upcoming] using h.2⟩
  · cases cs with
    | nil => exact ⟨h.1, by simpa [upcoming] using h.2⟩
    | cons c t => exact ⟨h.1, by simpa [upcoming] using h.2⟩

theorem lexIdentifierRun_enough {l : Lexer} {cs : List Char} (hsee : Sees l cs)
    (n : Nat) (hn : cs.length ≤ n + 1) :
    lexIdentifierRun (n + 1) l = some (lexIdentifier l) := by
  unfold lexIdentifierRun lexIdentifier
  simp only
  rw [identLoopRun_enough (sees_identStart hsee) _ n hn]
  simp only
  split_ifs <;> rfl

theorem lexNumberRun_enough {l : Lexer} {cs : List Char} (hsee : Sees l cs)
    (n : Nat) (hn : cs.length ≤ n + 1) :
    lexNumberRun (n + 1) l = some (lexNumber l) := by
  unfold lexNumberRun lexNumber
  rw [numLoopRun_enough hsee n hn]
  simp only
  split_ifs <;> rfl

theorem getTok_unfold {l : Lexer} {cs : List Char} (h : Sees l cs) :
    getTok l = getTokBody (getTokFuel (remaining l)) l := by
  rw [← getTokFuel_enough h (remaining l + 1) (by omega)]
  rfl

theorem getTokRun_succ (n : Nat) (l : Lexer) :
    getTokRun (n + 1) l =
      match skipSpacesRun n l with
      | none => none
      | some l1 =>
        if isalpha (markLocation l1).lastChar || (markLocation l1).lastChar == 95 then
          lexIdentifierRun n (markLocation l1)
        else if isdigit (markLocation l1).lastChar || (markLocation l1).lastChar == 46 then
          lexNumberRun n (markLocation l1)
        else
          match (if (markLocation l1).lastChar == 35 then commentLoopRun n (markLocation l1)
              else some (markLocation l1)) with
          | none => none
          | some l3 =>
            if (markLocation l1).lastChar == 35 && l3.lastChar != EOF then getTokRun n l3
            else if l3.lastChar == EOF then some (tok_eof, l3)
            else some (l3.lastChar, advance l3) := rfl

/-- With a bound above the length of the text, plus two, `getTok` returns. -/
theorem getTokRun_eq : ∀ (m : Nat) (l : Lexer) (cs : List Char), Sees l cs →
    cs.length + 1 ≤ m → getTokRun (m + 1) l = some (getTok l) := by
  intro m
  induction m with
  | zero => intro l cs _ hn; omega
  | succ m ih =>
    intro l cs h hn
    have hm := sees_scanStart h
    have hl := length_dropWhile_le (fun c => isspace (code c)) cs
    have hbound : (cs.dropWhile (fun c => isspace (code c))).length ≤ m + 1 := by omega
    rw [getTokRun_succ, skipSpacesRun_enough h m (by omega), getTok_unfold h]
    simp only
    by_cases hA : (isalpha (markLocation (skipSpaces l)).lastChar ||
        (markLocation (skipSpaces l)).lastChar == 95) = true
    · rw [if_pos hA, getTokBody_ident _ l hA]
      exact lexIdentifierRun_enough hm m hbound
    have hA' : (isalpha (markLocation (skipSpaces l)).lastChar ||
        (markLocation (skipSpaces l)).lastChar == 95) = false := by simpa using hA
    rw [if_neg hA]
    by_cases hB : (isdigit (markLocation (skipSpaces l)).lastChar ||
        (markLocation (skipSpaces l)).lastChar == 46) = true
    · rw [if_pos hB, getTokBody_number _ l hA' hB]
      exact lexNumberRun_enough hm m hbound
    have hB' : (isdigit (markLocation (skipSpaces l)).lastChar ||
        (markLocation (skipSpaces l)).lastChar == 46) = false := by simpa using hB
    rw [if_neg hB]
    by_cases hC : (markLocation (skipSpaces l)).lastChar = 35
    · have hC' : ((markLocation (skipSpaces l)).lastChar == 35) = true := by simpa using hC
      rw [getTokBody_comment _ l hC]
      simp only [hC', if_true, Bool.true_and]
      rw [commentLoopRun_enough hm m hbound]
      simp only
      obtain ⟨hcl, -⟩ := commentLoop_spec hm
      by_cases hE : (commentLoop (markLocation (skipSpaces l))).lastChar = EOF
      · have hE1 : ((commentLoop (markLocation (skipSpaces l))).lastChar != EOF) = false := by
          simpa using hE
        have hE2 : ((commentLoop (markLocation (skipSpaces l))).lastChar == EOF) = true := by
          simpa using hE
        simp only [hE1, hE2, Bool.false_eq_true, if_false, if_true]
        rw [if_pos hE]
      · have hE1 : ((commentLoop (markLocation (skipSpaces l))).lastChar != EOF) = true := by
          simpa using hE
        simp only [hE1, if_true]
        rw [if_neg hE]
        have hne : cs.dropWhile (fun c => isspace (code c)) ≠ [] := by
          intro h0
          rw [h0] at hm
          have : (markLocation (skipSpaces l)).lastChar = EOF := hm.1
          rw [hC] at this
          exact absurd this (by decide)
        have hl3 := length_dropWhile_le continuesComment
          (cs.dropWhile (fun c => isspace (code c))).tail
        have hl4 : (cs.dropWhile (fun c => isspace (code c))).tail.length + 1 =
            (cs.dropWhile (fun c => isspace (code c))).length := by
          cases hq : cs.dropWhile (fun c => isspace (code c)) with
          | nil => exact absurd hq hne
          | cons a b => simp
        have hcs : cs ≠ [] := by
          intro h0
          rw [h0] at hne
          exact hne rfl
        have hr := sees_remaining h hcs
        have hr3 := sees_remaining_le hcl
        rw [ih _ _ hcl (by omega)]
        rw [getTokFuel_enough hcl (remaining l) (by omega)]
    · have hC' : ((markLocation (skipSpaces l)).lastChar == 35) = false := by simpa using hC
      simp only [hC', Bool.false_eq_true, if_false, Bool.false_and]
      by_cases hD : (markLocation (skipSpaces l)).lastChar = EOF
      · have hD' : ((markLocation (skipSpaces l)).lastChar == EOF) = true := by simpa using hD
        rw [getTokBody_eof _ l hD]
        simp only [hD', if_true]
      · have hD' : ((markLocation (skipSpaces l)).lastChar == EOF) = false := by simpa using hD
        rw [getTokBody_other _ l hA' hB' hC hD]
        simp only [hD', Bool.false_eq_true, if_false]

/-- C19: the lexer never aborts. In every state in which the lexer is in front
of some text (every state reached on a line supply of finitely many lines is
one), each loop of `getTok` comes to its end within a number of rounds given
by the input that is left, and so does `getTok` with its recursion after
comments: run with such a bound they return, and what they return is the
result used throughout. The token is a keyword, an identifier, a number,
end-of-stream, the lexical-error token or a single character, also on
malformed identifiers and numbers, and the lexer is left in front of some text
again. -/
theorem lexer_never_aborts (l : Lexer) (cs : List Char) (hsee : Sees l cs) :
    (∀ n, remaining l + 2 ≤ n → skipSpacesRun n l = some (skipSpaces l)) ∧
    (∀ n f, remaining l + 2 ≤ n → identLoopRun n l f = some (identLoop l f)) ∧
    (∀ n, remaining l + 2 ≤ n → numLoopRun n l [] 0 = some (numLoop l)) ∧
    (∀ n, remaining l + 2 ≤ n → commentLoopRun n l = some (commentLoop l)) ∧
    (∀ n, remaining l + 3 ≤ n → getTokRun n l = some (getTok l)) ∧
    IsToken (getTok l).1 ∧
    ∃ es, Sees (getTok l).2 es := by
  have hlen := sees_length_le hsee
  refine ⟨?_, ?_, ?_, ?_, ?_, (getTok_kind hsee).1, (getTok_kind hsee).2.2⟩
  · intro n hn
    obtain ⟨m, rfl⟩ : ∃ m, n = m + 1 := ⟨n - 1, by omega⟩
    exact skipSpacesRun_enough hsee m (by omega)
  · intro n f hn
    obtain ⟨m, rfl⟩ : ∃ m, n = m + 1 := ⟨n - 1, by omega⟩
    exact identLoopRun_enough hsee f m (by omega)
  · intro n hn
    obtain ⟨m, rfl⟩ : ∃ m, n = m + 1 := ⟨n - 1, by omega⟩
    exact numLoopRun_enough hsee m (by omega)
  · intro n hn
    obtain ⟨m, rfl⟩ : ∃ m, n = m + 1 := ⟨n - 1, by omega⟩
    exact commentLoopRun_enough hsee m (by omega)
  · intro n hn
    obtain ⟨m, rfl⟩ : ∃ m, n = m + 1 := ⟨n - 1, by omega⟩
    exact getTokRun_eq m l cs hsee (by omega)

theorem lexer_never_aborts_witness :
    getTokRun 16 (LexerBuffer.new "a1b 9..9 # c".toList "t.pony") =
      some (getTok (LexerBuffer.new "a1b 9..9 # c".toList "t.pony")) ∧
    IsToken (getTok (LexerBuffer.new "a1b 9..9 # c".toList "t.pony")).1 ∧
    ∃ es, Sees (getTok (LexerBuffer.new "a1b 9..9 # c".toList "t.pony")).2 es :=
  ⟨(lexer_never_aborts (LexerBuffer.new "a1b 9..9 # c".toList "t.pony")
      " \na1b 9..9 # c".toList ⟨rfl, rfl⟩).2.2.2.2.1 16 (by decide),
    (lexer_never_aborts (LexerBuffer.new "a1b 9..9 # c".toList "t.pony")
      " \na1b 9..9 # c".toList ⟨rfl, rfl⟩).2.2.2.2.2⟩

/-! ## The character pump under the loops of `getTok` -/

theorem pump_getNextChar {a b : Lexer} (h : pump a = pump b) :
    pump (getNextChar a).2 = pump (getNextChar b).2 := by
  obtain ⟨a1, a2, a3, a4, a5, a6, a7, a8, a9, a10⟩ := a
  obtain ⟨b1, b2, b3, b4, b5, b6, b7, b8, b9, b10⟩ := b
  simp only [pump, Prod.mk.injEq] at h
  obtain ⟨rfl, rfl, rfl, rfl⟩ := h
  unfold getNextChar
  cases a8 with
  | nil => rfl
  | cons x t =>
    cases t with
    | nil =>
      simp only [List.isEmpty_nil, if_true]
      unfold readNextLine
      cases a9 <;> rfl
    | cons y u => rfl

theorem pump_advance (l : Lexer) : pump (advance l) = pump (getNextChar l).2 := rfl

theorem pump_advance_congr {a b : Lexer} (h : pump a = pump b) :
    pump (advance a) = pump (advance b) := by
  rw [pump_advance, pump_advance]
  exact pump_getNextChar h

theorem Pumped.refl (l : Lexer) : Pumped l l := Pumped.same rfl

theorem Pumped.trans {a b c : Lexer} (h1 : Pumped a b) (h2 : Pumped b c) : Pumped a c := by
  induction h2 with
  | same e =>
    cases h1 with
    | same e1 => exact Pumped.same (e.trans e1)
    | step h e1 => exact Pumped.step h (e.trans e1)
  | step _ e ih => exact Pumped.step ih e

theorem Pumped.of_eq {a b : Lexer} (h : pump b = pump a) : Pumped a b := Pumped.same h

theorem pumped_advance (l : Lexer) : Pumped l (advance l) :=
  Pumped.step (Pumped.refl l) rfl

theorem lastLocation_advance (l : Lexer) : (advance l).lastLocation = l.lastLocation := by
  unfold advance getNextChar
  cases l.curLineBuffer with
  | nil => rfl
  | cons x t =>
    cases t with
    | nil =>
      simp only [List.isEmpty_nil, if_true]
      unfold readNextLine
      cases l.supply <;> rfl
    | cons y u => rfl

theorem Moves.stay (l : Lexer) : Moves l l := ⟨Pumped.refl l, rfl⟩

theorem Moves.andThen {a b c : Lexer} (h1 : Moves a b) (h2 : Moves b c) : Moves a c :=
  ⟨h1.1.trans h2.1, h2.2.trans h1.2⟩

theorem moves_advance (l : Lexer) : Moves l (advance l) :=
  ⟨pumped_advance l, lastLocation_advance l⟩

theorem moves_skipSpacesFuel : ∀ (n : Nat) (l : Lexer), Moves l (skipSpacesFuel n l) := by
  intro n
  induction n with
  | zero => intro l; exact Moves.stay l
  | succ n ih =>
    intro l
    rw [skipSpacesFuel_succ]
    split_ifs
    · exact (moves_advance l).andThen (ih _)
    · exact Moves.stay l

theorem moves_identBody (l : Lexer) (f : IdFlags) : Moves l (identBody l f).1 := by
  unfold identBody
  simp only
  split_ifs <;> exact ⟨Pumped.same rfl, rfl⟩

theorem moves_identStart (l : Lexer) : Moves l (identStart l) := by
  unfold identStart
  simp only
  split_ifs <;> exact ⟨Pumped.same rfl, rfl⟩

theorem moves_identLoopFuel : ∀ (n : Nat) (l : Lexer) (f : IdFlags),
    Moves l (identLoopFuel n l f).1 := by
  intro n
  induction n with
  | zero => intro l f; exact Moves.stay l
  | succ n ih =>
    intro l f
    rw [identLoopFuel_succ]
    split_ifs
    · exact ((moves_advance l).andThen (moves_identBody _ f)).andThen (ih _ _)
    · exact moves_advance l

theorem moves_numLoopFuel : ∀ (n : Nat) (l : Lexer) (s : List Char) (d : Nat),
    Moves l (numLoopFuel n l s d).1 := by
  intro n
  induction n with
  | zero => intro l s d; exact Moves.stay l
  | succ n ih =>
    intro l s d
    rw [numLoopFuel_succ]
    by_cases hc : (isdigit (advance l).lastChar || (advance l).lastChar == 46) = true
    · rw [if_pos hc]
      exact (moves_advance l).andThen (ih _ _ _)
    · rw [if_neg hc]
      exact moves_advance l

theorem moves_commentLoopFuel : ∀ (n : Nat) (l : Lexer), Moves l (commentLoopFuel n l) := by
  intro n
  induction n with
  | zero => intro l; exact Moves.stay l
  | succ n ih =>
    intro l
    rw [commentLoopFuel_succ]
    split_ifs
    · exact (moves_advance l).andThen (ih _)
    · exact moves_advance l

theorem moves_lexIdentifier (l : Lexer) : Moves l (lexIdentifier l).2 := by
  have h : Moves l (identLoop (identStart l) ⟨false, false, false, false, l.lastChar == 95⟩).1 :=
    (moves_identStart l).andThen (moves_identLoopFuel _ _ _)
  unfold lexIdentifier
  simp only
  split_ifs <;> exact h

theorem moves_lexNumber (l : Lexer) : Moves l (lexNumber l).2 := by
  have h : Moves l (numLoop l).1 := moves_numLoopFuel _ _ _ _
  unfold lexNumber
  simp only
  split_ifs
  · exact ⟨h.1.trans (Pumped.same rfl), h.2⟩
  · exact ⟨h.1.trans (Pumped.same rfl), h.2⟩
  · exact ⟨h.1.trans (Pumped.same rfl), h.2⟩

/-- The scan of one token: the recorded location is the position of the pump
at the start of the token. -/
theorem getTokBody_scan (self : Lexer → Token × Lexer) (l : Lexer)
    (hself : ∀ l', Moves l' (self l').2 ∨ ScanFrom l' (self l').2) :
    ScanFrom l (getTokBody self l).2 := by
  have h0 : Moves l (skipSpaces l) := moves_skipSpacesFuel _ l
  have hm : Pumped (skipSpaces l) (markLocation (skipSpaces l)) := Pumped.same rfl
  have hfile : (markLocation (skipSpaces l)).lastLocation.file = l.lastLocation.file := by
    show (skipSpaces l).lastLocation.file = _
    rw [h0.2]
  have finish : ∀ r : Lexer, Moves (markLocation (skipSpaces l)) r → ScanFrom l r := by
    intro r hr
    refine ⟨skipSpaces l, h0.1, hm.trans hr.1, ?_, ?_, ?_⟩
    · rw [hr.2]; exact hfile
    · rw [hr.2]; rfl
    · rw [hr.2]; rfl
  by_cases hA : (isalpha (markLocation (skipSpaces l)).lastChar ||
      (markLocation (skipSpaces l)).lastChar == 95) = true
  · rw [getTokBody_ident self l hA]
    exact finish _ (moves_lexIdentifier _)
  have hA' : (isalpha (markLocation (skipSpaces l)).lastChar ||
      (markLocation (skipSpaces l)).lastChar == 95) = false := by simpa using hA
  by_cases hB : (isdigit (markLocation (skipSpaces l)).lastChar ||
      (markLocation (skipSpaces l)).lastChar == 46) = true
  · rw [getTokBody_number self l hA' hB]
    exact finish _ (moves_lexNumber _)
  have hB' : (isdigit (markLocation (skipSpaces l)).lastChar ||
      (markLocation (skipSpaces l)).lastChar == 46) = false := by simpa using hB
  by_cases hC : (markLocation (skipSpaces l)).lastChar = 35
  · rw [getTokBody_comment self l hC]
    have hl3 : Moves (markLocation (skipSpaces l)) (commentLoop (markLocation (skipSpaces l))) :=
      moves_commentLoopFuel _ _
    split_ifs
    · exact finish _ hl3
    · rcases hself (commentLoop (markLocation (skipSpaces l))) with h | h
      · exact finish _ (hl3.andThen h)
      · obtain ⟨m, p1, p2, e1, e2, e3⟩ := h
        refine ⟨m, (h0.1.trans hm).trans (hl3.1.trans p1), p2, ?_, e2, e3⟩
        rw [e1, hl3.2]
        exact hfile
  by_cases hD : (markLocation (skipSpaces l)).lastChar = EOF
  · rw [getTokBody_eof self l hD]
    exact finish _ (Moves.stay _)
  · rw [getTokBody_other self l hA' hB' hC hD]
    exact finish _ (moves_advance _)

theorem getTokFuel_scan : ∀ (n : Nat) (l : Lexer), ScanFrom l (getTokFuel n l).2 := by
  intro n
  induction n with
  | zero =>
    intro l
    exact getTokBody_scan _ l (fun l' => Or.inl (Moves.stay l'))
  | succ n ih =>
    intro l
    exact getTokBody_scan _ l (fun l' => Or.inr (ih l'))

theorem getNextToken_scan (l : Lexer) : ScanFrom l (getNextToken l) := by
  obtain ⟨m, p1, p2, e1, e2, e3⟩ := getTokFuel_scan (remaining l) l
  exact ⟨m, p1, p2.trans (Pumped.same rfl), e1, e2, e3⟩

/-! ## Passing over whitespace and comments -/

theorem dropWhile_of_head {p : Char → Bool} (rest : List Char)
    (h : ∀ x ∈ rest.head?, p x = false) : rest.dropWhile p = rest := by
  cases rest with
  | nil => rfl
  | cons x t =>
    have : p x = false := h x (by simp)
    simp [List.dropWhile_cons, this]

theorem skippable_dropWhile {skip rest : List Char} (hs : Skippable skip)
    (hr : ∀ x ∈ rest.head?, isspace (code x) = false) :
    (skip ++ rest).dropWhile (fun c => isspace (code c)) = rest ∨
    ∃ body e s, Skippable s ∧ (∀ x ∈ body, isCommentChar x = true) ∧ (e = '\n' ∨ e = '\r') ∧
      (skip ++ rest).dropWhile (fun c => isspace (code c)) = '#' :: (body ++ e :: (s ++ rest)) ∧
      (body ++ e :: s).length < skip.length ∧ (∀ x ∈ body ++ s, x ∈ skip) := by
  induction hs with
  | nil => exact Or.inl (dropWhile_of_head rest hr)
  | @space x s hx _ ih =>
    have e : (x :: s ++ rest).dropWhile (fun c => isspace (code c)) =
        (s ++ rest).dropWhile (fun c => isspace (code c)) := by
      simp [List.dropWhile_cons, hx]
    rw [e]
    rcases ih with h | ⟨body, e', s', h1, h2, h3, h4, h5, h6⟩
    · exact Or.inl h
    · exact Or.inr ⟨body, e', s', h1, h2, h3, h4, by simp only [List.length_cons]; omega,
        fun y hy => List.mem_cons_of_mem _ (h6 y hy)⟩
  | @comment body s e hb he hs' _ =>
    refine Or.inr ⟨body, e, s, hs', hb, he, ?_, by simp, ?_⟩
    · have : isspace (code '#') = false := by decide
      simp [List.dropWhile_cons, this]
    · intro y hy
      simp only [List.mem_append] at hy
      simp only [List.mem_cons, List.mem_append]
      tauto

theorem linebreak_is_space {e : Char} (he : e = '\n' ∨ e = '\r') :
    isspace (code e) = true ∧ isCommentChar e = false := by
  rcases he with rfl | rfl <;> exact ⟨by decide, by decide⟩

theorem isCommentChar_iff (c : Char) : isCommentChar c = true ↔ c ≠ '\n' ∧ c ≠ '\r' := by
  unfold isCommentChar
  simp

theorem linebreak_ends_comment {e : Char} (he : e = '\n' ∨ e = '\r') :
    continuesComment e = false := by
  rcases he with rfl | rfl <;> decide

/-- In front of whitespace and comments without byte 255 followed by `rest`,
`getTok` is its body run on a lexer that sees `rest` after its whitespace
loop; up to there only characters are read. -/
theorem getTokFuel_skip : ∀ (n : Nat) (l : Lexer) (skip rest : List Char),
    Skippable skip → '\xFF' ∉ skip → Sees l (skip ++ rest) → (skip ++ rest).length ≤ n + 1 →
    (∀ x ∈ rest.head?, isspace (code x) = false) →
    ∃ self l1, getTokFuel n l = getTokBody self l1 ∧
      Sees (markLocation (skipSpaces l1)) rest ∧ Pumped l l1 ∧ l1.cerr = l.cerr := by
  intro n
  induction n with
  | zero =>
    intro l skip rest hs hff h hn hr
    rcases skippable_dropWhile hs hr with hd | ⟨body, e, s, _, _, _, hd, hlen, -⟩
    · have hm := sees_scanStart h
      rw [hd] at hm
      exact ⟨_, l, rfl, hm, Pumped.refl l, rfl⟩
    · simp only [List.length_append, List.length_cons] at hn hlen
      omega
  | succ k ih =>
    intro l skip rest hs hff h hn hr
    rcases skippable_dropWhile hs hr with hd | ⟨body, e, s, hs', hb, he, hd, hlen, hsub⟩
    · have hm := sees_scanStart h
      rw [hd] at hm
      exact ⟨_, l, rfl, hm, Pumped.refl l, rfl⟩
    · have hm := sees_scanStart h
      rw [hd] at hm
      have hC : (markLocation (skipSpaces l)).lastChar = 35 := by
        rw [hm.1]; exact code_hash
      obtain ⟨hcl, -, -, hcerr, -⟩ := commentLoop_spec hm
      simp only [List.tail_cons] at hcl
      have hrun := takeWhile_run (p := continuesComment) body (e :: (s ++ rest))
        (by
          intro x hx
          have h1 := (isCommentChar_iff x).mp (hb x hx)
          refine continuesComment_of h1.1 h1.2 ?_
          rintro rfl
          exact hff (hsub _ (List.mem_append_left _ hx)))
        (by
          intro x hx
          simp only [List.head?_cons, Option.mem_def, Option.some.injEq] at hx
          subst hx
          exact linebreak_ends_comment he)
      rw [hrun.2] at hcl
      have hne : (commentLoop (markLocation (skipSpaces l))).lastChar ≠ EOF := by
        rw [hcl.1]
        rcases he with rfl | rfl <;> decide
      have hstep : getTokFuel (k + 1) l =
          getTokFuel k (commentLoop (markLocation (skipSpaces l))) := by
        show getTokBody (getTokFuel k) l = _
        rw [getTokBody_comment _ l hC, if_neg hne]
      have hsk : Skippable (e :: s) := Skippable.space (linebreak_is_space he).1 hs'
      have hff' : '\xFF' ∉ e :: s := by
        intro hmem
        rcases List.mem_cons.mp hmem with h0 | h0
        · rcases he with rfl | rfl <;> exact absurd h0 (by decide)
        · exact hff (hsub _ (List.mem_append_right _ h0))
      have hcl' : Sees (commentLoop (markLocation (skipSpaces l))) ((e :: s) ++ rest) := hcl
      have hbound : ((e :: s) ++ rest).length ≤ k + 1 := by
        simp only [List.length_append, List.length_cons] at hn hlen ⊢
        omega
      obtain ⟨self, l1, e1, e2, e3, e4⟩ := ih _ (e :: s) rest hsk hff' hcl' hbound hr
      refine ⟨self, l1, hstep.trans e1, e2, ?_, ?_⟩
      · have a1 : Moves l (skipSpaces l) := moves_skipSpacesFuel _ l
        have a2 : Pumped (skipSpaces l) (markLocation (skipSpaces l)) := Pumped.same rfl
        have a3 : Moves (markLocation (skipSpaces l))
            (commentLoop (markLocation (skipSpaces l))) := moves_commentLoopFuel _ _
        exact ((a1.1.trans a2).trans a3.1).trans e3
      · rw [e4, hcerr, (scanStart_fields l).2.2]

theorem getTok_skip {l : Lexer} {skip rest : List Char} (hs : Skippable skip)
    (hff : '\xFF' ∉ skip)
    (h : Sees l (skip ++ rest)) (hr : ∀ x ∈ rest.head?, isspace (code x) = false) :
    ∃ self l1, getTok l = getTokBody self l1 ∧
      Sees (markLocation (skipSpaces l1)) rest ∧ Pumped l l1 ∧ l1.cerr = l.cerr :=
  getTokFuel_skip _ l skip rest hs hff h (sees_length_le h) hr

/-- The comment loop on a comment body: it stops at the end of the body, or at
a byte 255 inside it. -/
theorem dropWhile_comment_body (body rest : List Char)
    (hb : ∀ x ∈ body, isCommentChar x = true)
    (hrest : ∀ x ∈ rest.head?, continuesComment x = false) :
    (body ++ rest).dropWhile continuesComment = rest ∨
    ∃ u, (body ++ rest).dropWhile continuesComment = '\xFF' :: u := by
  by_cases hff : '\xFF' ∈ body
  · exact Or.inr (dropWhile_continuesComment_ff body rest
      (fun x hx => (isCommentChar_iff x).mp (hb x hx)) hff)
  · refine Or.inl (takeWhile_run (p := continuesComment) body rest ?_ hrest).2
    intro x hx
    have h1 := (isCommentChar_iff x).mp (hb x hx)
    refine continuesComment_of h1.1 h1.2 ?_
    rintro rfl
    exact hff hx

/-- In front of whitespace and comments only, every round of `getTok` ends in
end-of-stream without a diagnostic. -/
theorem getTokFuel_blank : ∀ (n : Nat) (l : Lexer) (skip tail : List Char),
    Skippable skip →
    (tail = [] ∨ ∃ body, tail = '#' :: body ∧ ∀ x ∈ body, isCommentChar x = true) →
    Sees l (skip ++ tail) → (skip ++ tail).length ≤ n + 1 →
    (getTokFuel n l).1 = tok_eof ∧ (getTokFuel n l).2.cerr = l.cerr := by
  intro n
  induction n with
  | zero =>
    intro l skip tail hs htail h hn
    have hr : ∀ x ∈ tail.head?, isspace (code x) = false := by
      rcases htail with rfl | ⟨body, rfl, -⟩
      · simp
      · intro x hx
        simp only [List.head?_cons, Option.mem_def, Option.some.injEq] at hx
        subst hx
        decide
    have hm := sees_scanStart h
    have hc1 := (scanStart_fields l).2.2
    show (getTokBody _ l).1 = tok_eof ∧ (getTokBody _ l).2.cerr = l.cerr
    rcases skippable_dropWhile hs hr with hd | ⟨body, e, s, _, _, _, hd, hlen, -⟩
    · rw [hd] at hm
      rcases htail with rfl | ⟨body, rfl, hb⟩
      · rw [getTokBody_eof _ l hm.1]
        exact ⟨rfl, hc1⟩
      · have hC : (markLocation (skipSpaces l)).lastChar = 35 := by
          rw [hm.1]; exact code_hash
        obtain ⟨hcl, -, -, hcerr, -⟩ := commentLoop_spec hm
        simp only [List.tail_cons] at hcl
        have hE : (commentLoop (markLocation (skipSpaces l))).lastChar = EOF := by
          rcases dropWhile_comment_body body [] hb (by simp) with h0 | ⟨u, h0⟩
          · rw [List.append_nil] at h0
            rw [h0] at hcl
            exact hcl.1
          · rw [List.append_nil] at h0
            rw [h0] at hcl
            rw [hcl.1]; rfl
        rw [getTokBody_comment _ l hC, if_pos hE]
        exact ⟨rfl, hcerr.trans hc1⟩
    · simp only [List.length_append, List.length_cons] at hn hlen
      omega
  | succ k ih =>
    intro l skip tail hs htail h hn
    have hr : ∀ x ∈ tail.head?, isspace (code x) = false := by
      rcases htail with rfl | ⟨body, rfl, -⟩
      · simp
      · intro x hx
        simp only [List.head?_cons, Option.mem_def, Option.some.injEq] at hx
        subst hx
        decide
    have hm := sees_scanStart h
    have hc1 := (scanStart_fields l).2.2
    show (getTokBody _ l).1 = tok_eof ∧ (getTokBody _ l).2.cerr = l.cerr
    rcases skippable_dropWhile hs hr with hd | ⟨body, e, s, hs', hb, he, hd, hlen, -⟩
    · rw [hd] at hm
      rcases htail with rfl | ⟨body, rfl, hb⟩
      · rw [getTokBody_eof _ l hm.1]
        exact ⟨rfl, hc1⟩
      · have hC : (markLocation (skipSpaces l)).lastChar = 35 := by
          rw [hm.1]; exact code_hash
        obtain ⟨hcl, -, -, hcerr, -⟩ := commentLoop_spec hm
        simp only [List.tail_cons] at hcl
        have hE : (commentLoop (markLocation (skipSpaces l))).lastChar = EOF := by
          rcases dropWhile_comment_body body [] hb (by simp) with h0 | ⟨u, h0⟩
          · rw [List.append_nil] at h0
            rw [h0] at hcl
            exact hcl.1
          · rw [List.append_nil] at h0
            rw [h0] at hcl
            rw [hcl.1]; rfl
        rw [getTokBody_comment _ l hC, if_pos hE]
        exact ⟨rfl, hcerr.trans hc1⟩
    · rw [hd] at hm
      have hC : (markLocation (skipSpaces l)).lastChar = 35 := by
        rw [hm.1]; exact code_hash
      obtain ⟨hcl, -, -, hcerr, -⟩ := commentLoop_spec hm
      simp only [List.tail_cons] at hcl
      rw [getTokBody_comment _ l hC]
      rcases dropWhile_comment_body body (e :: (s ++ tail)) hb
          (by
            intro x hx
            simp only [List.head?_cons, Option.mem_def, Option.some.injEq] at hx
            subst hx
            exact linebreak_ends_comment he) with h0 | ⟨u, h0⟩
      · rw [h0] at hcl
        have hne : (commentLoop (markLocation (skipSpaces l))).lastChar ≠ EOF := by
          rw [hcl.1]
          rcases he with rfl | rfl <;> decide
        rw [if_neg hne]
        have hsk : Skippable (e :: s) := Skippable.space (linebreak_is_space he).1 hs'
        have hcl' : Sees (commentLoop (markLocation (skipSpaces l))) ((e :: s) ++ tail) := hcl
        have hbound : ((e :: s) ++ tail).length ≤ k + 1 := by
          simp only [List.length_append, List.length_cons] at hn hlen ⊢
          omega
        obtain ⟨i1, i2⟩ := ih _ (e :: s) tail hsk htail hcl' hbound
        exact ⟨i1, i2.trans (hcerr.trans hc1)⟩
      · rw [h0] at hcl
        have hE : (commentLoop (markLocation (skipSpaces l))).lastChar = EOF := by
          rw [hcl.1]; rfl
        rw [if_pos hE]
        exact ⟨rfl, hcerr.trans hc1⟩

/-- C17: on an input that consists only of whitespace and `#` line comments,
the empty input included, the token returned by the lexer is end-of-stream
and no diagnostic is emitted. -/
theorem blank_input_is_eof (l : Lexer) (cs : List Char) (hsee : Sees l cs)
    (hblank : OnlyBlank cs) :
    (getTok l).1 = tok_eof ∧ (getTok l).2.cerr = l.cerr := by
  obtain ⟨skip, tail, rfl, hs, htail⟩ := hblank
  exact getTokFuel_blank _ l skip tail hs htail hsee (sees_length_le hsee)

theorem blank_input_is_eof_witness :
    ((getTok (LexerBuffer.new "  # one\n\t# two".toList "t.pony")).1 = tok_eof ∧
      (getTok (LexerBuffer.new "  # one\n\t# two".toList "t.pony")).2.cerr = []) ∧
    ((getTok (LexerBuffer.new [] "t.pony")).1 = tok_eof ∧
      (getTok (LexerBuffer.new [] "t.pony")).2.cerr = []) :=
  ⟨blank_input_is_eof (LexerBuffer.new "  # one\n\t# two".toList "t.pony")
      (" \n  # one\n\t# two".toList) ⟨rfl, rfl⟩
      ⟨" \n  # one\n\t".toList, "# two".toList, rfl,
        Skippable.space (by decide) (Skippable.space (by decide) (Skippable.space (by decide)
          (Skippable.space (by decide) (@Skippable.comment " one".toList _ '\n' (by decide)
            (Or.inl rfl) (Skippable.space (by decide) Skippable.nil))))),
        Or.inr ⟨" two".toList, rfl, by decide⟩⟩,
    blank_input_is_eof (LexerBuffer.new [] "t.pony") " \n".toList ⟨rfl, rfl⟩
      ⟨" \n".toList, [], rfl,
        Skippable.space (by decide) (Skippable.space (by decide) Skippable.nil), Or.inl rfl⟩⟩

/-! ## The position of the pump in the text -/

theorem wrapInt_succ (x : Int) : wrapInt (wrapInt x + 1) = wrapInt (x + 1) := by
  unfold wrapInt
  omega

theorem wrapInt_of_small (x : Int) (h0 : 0 ≤ x) (h1 : x < 2147483648) : wrapInt x = x := by
  unfold wrapInt
  omega

theorem pumpAt_congr {L : List (List Char)} {a b : Lexer} (h : pump b = pump a)
    (ha : PumpAt L a) : PumpAt L b := by
  simp only [pump, Prod.mk.injEq] at h
  obtain ⟨h1, h2, h3, h4⟩ := h
  unfold PumpAt at ha ⊢
  rw [h1, h2, h3, h4]
  exact ha

theorem pumpAt_advance {L : List (List Char)} {l : Lexer} (h : PumpAt L l) :
    PumpAt L (advance l) := by
  obtain ⟨a1, a2, a3, a4, a5, a6, a7, a8, a9, a10⟩ := l
  rcases h with ⟨B, p, q, A, hL, hq, hb, hs, hn, hc⟩ | ⟨hnil, hcol, k, hk, hline⟩
  · simp only at hb hs hn hc
    subst hb hs
    have hLlen : L.length = B.length + 1 + a9.length := by
      rw [hL]; simp; omega
    cases a8 with
    | nil => exact absurd rfl hq
    | cons x t =>
      cases t with
      | cons y u =>
        refine Or.inl ⟨B, p ++ [x], y :: u, a9, ?_, by simp, rfl, rfl, hn, ?_⟩
        · rw [hL]; simp
        · show wrapInt (a7 + 1) = _
          rw [hc, wrapInt_succ]; simp
      | nil =>
        have hline' : wrapInt (a6 + 1) = wrapInt ((B.length + 1 : Nat) : Int) := by
          rw [hn, wrapInt_succ]; simp
        cases a9 with
        | nil => exact Or.inr ⟨rfl, rfl, B.length + 1, by omega, hline'⟩
        | cons a A' =>
          cases a with
          | nil => exact Or.inr ⟨rfl, rfl, B.length + 1, by omega, hline'⟩
          | cons z w =>
            refine Or.inl ⟨B ++ [p ++ [x]], [], z :: w, A', ?_, by simp, rfl, rfl, ?_, rfl⟩
            · rw [hL]; simp
            · show wrapInt (a6 + 1) = _
              rw [hline']; simp
  · simp only at hnil hcol hline
    subst hnil
    exact Or.inr ⟨rfl, hcol, k, hk, hline⟩

theorem pumpAt_pumped {L : List (List Char)} {l l' : Lexer} (h : Pumped l l')
    (hl : PumpAt L l) : PumpAt L l' := by
  induction h with
  | same e => exact pumpAt_congr e hl
  | step _ e ih => exact pumpAt_congr e (pumpAt_advance ih)

theorem pumpAt_new (f : String) (ls : List (List Char)) :
    PumpAt (['\n'] :: ls) (Lexer.new f ls) :=
  Or.inl ⟨[], [], ['\n'], ls, rfl, by simp, rfl, rfl, rfl, rfl⟩

theorem pumpAt_reachable (f : String) (ls : List (List Char)) (k : Nat) :
    PumpAt (['\n'] :: ls) (getNextToken^[k] (Lexer.new f ls)) := by
  induction k with
  | zero => exact pumpAt_new f ls
  | succ k ih =>
    rw [Function.iterate_succ_apply']
    obtain ⟨m, p1, p2, -, -, -⟩ := getNextToken_scan (getNextToken^[k] (Lexer.new f ls))
    exact pumpAt_pumped p2 (pumpAt_pumped p1 ih)

/-! ## Locations -/

/-- On a text within the range of the `int` counters, the counters at a
position of the text are not negative, and not at the upper end of the range
unless the text is read to its end. -/
theorem pumpAt_counters {L : List (List Char)} {l : Lexer} (hP : PumpAt L l)
    (hL : L.length < 2147483648) (hC : ∀ x ∈ L, x.length < 2147483648) :
    0 ≤ l.curLineNum ∧ 0 ≤ l.curCol ∧
    (l.curLineBuffer = [] ∨ (l.curLineNum + 1 < 2147483648 ∧ l.curCol + 1 < 2147483648)) := by
  rcases hP with ⟨B, p, q, A, hLe, hq, hb, hs, hn, hc⟩ | ⟨hnil, hcol, k, hk, hline⟩
  · have hLlen : L.length = B.length + 1 + A.length := by
      rw [hLe]; simp; omega
    have hmem : p ++ q ∈ L := by rw [hLe]; simp
    have hpq := hC _ hmem
    have hqpos : 0 < q.length := List.length_pos.mpr hq
    simp only [List.length_append] at hpq
    have e1 : wrapInt (B.length : Int) = (B.length : Int) :=
      wrapInt_of_small _ (by omega) (by omega)
    have e2 : wrapInt (p.length : Int) = (p.length : Int) :=
      wrapInt_of_small _ (by omega) (by omega)
    rw [hn, hc, e1, e2]
    refine ⟨by omega, by omega, Or.inr ⟨by omega, by omega⟩⟩
  · have e1 : wrapInt (k : Int) = (k : Int) := wrapInt_of_small _ (by omega) (by omega)
    rw [hline, hcol, e1]
    exact ⟨by omega, le_refl _, Or.inl hnil⟩

theorem counters_advance (l : Lexer) (h1 : 0 ≤ l.curLineNum) (h2 : 0 ≤ l.curCol)
    (hb : l.curLineBuffer = [] ∨
      (l.curLineNum + 1 < 2147483648 ∧ l.curCol + 1 < 2147483648)) :
    locLe l.curLineNum l.curCol (advance l).curLineNum (advance l).curCol := by
  obtain ⟨a1, a2, a3, a4, a5, a6, a7, a8, a9, a10⟩ := l
  simp only at h1 h2 hb
  cases a8 with
  | nil => exact Or.inr ⟨rfl, le_refl _⟩
  | cons x t =>
    have hb' : a6 + 1 < 2147483648 ∧ a7 + 1 < 2147483648 := by
      rcases hb with h | h
      · exact absurd h (by simp)
      · exact h
    have e1 : wrapInt (a6 + 1) = a6 + 1 := wrapInt_of_small _ (by omega) hb'.1
    have e2 : wrapInt (a7 + 1) = a7 + 1 := wrapInt_of_small _ (by omega) hb'.2
    cases t with
    | nil =>
      have hline : (advance ⟨a1, a2, a3, a4, a5, a6, a7, [x], a9, a10⟩).curLineNum =
          wrapInt (a6 + 1) := by
        cases a9 <;> rfl
      refine Or.inl ?_
      rw [hline, e1]
      show a6 < a6 + 1
      omega
    | cons y u =>
      refine Or.inr ⟨rfl, ?_⟩
      show a7 ≤ wrapInt (a7 + 1)
      rw [e2]
      omega

theorem pump_counters {a b : Lexer} (h : pump a = pump b) :
    a.curLineNum = b.curLineNum ∧ a.curCol = b.curCol := by
  simp only [pump, Prod.mk.injEq] at h
  exact ⟨h.1, h.2.1⟩

theorem pumped_counters {L : List (List Char)} {l l' : Lexer} (h : Pumped l l')
    (hP : PumpAt L l) (hL : L.length < 2147483648) (hC : ∀ x ∈ L, x.length < 2147483648) :
    locLe l.curLineNum l.curCol l'.curLineNum l'.curCol := by
  induction h with
  | same e =>
    obtain ⟨e1, e2⟩ := pump_counters e
    unfold locLe
    omega
  | @step m r hm e ih =>
    obtain ⟨e1, e2⟩ := pump_counters e
    obtain ⟨c1, c2, c3⟩ := pumpAt_counters (pumpAt_pumped hm hP) hL hC
    have a1 := counters_advance m c1 c2 c3
    unfold locLe at ih a1 ⊢
    omega

/-- The invariant of locations on a text within the range of the counters:
the recorded location is not negative and not after the counters. -/
theorem scan_locations {L : List (List Char)} {l r : Lexer} (h : ScanFrom l r)
    (hP : PumpAt L l) (hL : L.length < 2147483648) (hC : ∀ x ∈ L, x.length < 2147483648)
    (c3 : locLe l.lastLocation.line l.lastLocation.col l.curLineNum l.curCol) :
    locLe l.lastLocation.line l.lastLocation.col r.lastLocation.line r.lastLocation.col ∧
    0 ≤ r.lastLocation.line ∧ 0 ≤ r.lastLocation.col ∧ PumpAt L r ∧
    locLe r.lastLocation.line r.lastLocation.col r.curLineNum r.curCol := by
  obtain ⟨m, p1, p2, -, e2, e3⟩ := h
  have hPm := pumpAt_pumped p1 hP
  obtain ⟨a1, a2, -⟩ := pumpAt_counters hPm hL hC
  have b1 := pumped_counters p1 hP hL hC
  have b2 := pumped_counters p2 hPm hL hC
  refine ⟨?_, by rw [e2]; exact a1, by rw [e3]; exact a2, pumpAt_pumped p2 hPm, ?_⟩
  · rw [e2, e3]
    unfold locLe at *
    omega
  · rw [e2, e3]
    exact b2

theorem reachable_locations (f : String) (supply : List (List Char)) (k : Nat)
    (hL : (['\n'] :: supply).length < 2147483648)
    (hC : ∀ x ∈ ['\n'] :: supply, x.length < 2147483648) :
    0 ≤ (getNextToken^[k] (Lexer.new f supply)).lastLocation.line ∧
    0 ≤ (getNextToken^[k] (Lexer.new f supply)).lastLocation.col ∧
    PumpAt (['\n'] :: supply) (getNextToken^[k] (Lexer.new f supply)) ∧
    locLe (getNextToken^[k] (Lexer.new f supply)).lastLocation.line
      (getNextToken^[k] (Lexer.new f supply)).lastLocation.col
      (getNextToken^[k] (Lexer.new f supply)).curLineNum
      (getNextToken^[k] (Lexer.new f supply)).curCol := by
  induction k with
  | zero =>
    exact ⟨le_refl _, le_refl _, pumpAt_new f supply, Or.inr ⟨rfl, le_refl _⟩⟩
  | succ k ih =>
    obtain ⟨-, -, i3, i4⟩ := ih
    rw [Function.iterate_succ_apply']
    obtain ⟨-, a2, a3, a4, a5⟩ := scan_locations (getNextToken_scan _) i3 hL hC i4
    exact ⟨a2, a3, a4, a5⟩

/-- C16 (amended): on an input of fewer than `2^31 - 1` lines, each of fewer
than `2^31` characters, the token start locations do not decrease across any
sequence of `getNextToken` calls on one lexer: the (line, column) pair
recorded by a call is at or after the pair recorded before it, in the order by
line and then by column, and line and column are never negative. -/
theorem token_locations_monotone (f : String) (supply : List (List Char)) (k : Nat)
    (hlines : supply.length + 1 < 2147483648)
    (hcols : ∀ x ∈ supply, x.length < 2147483648) :
    locLe (getNextToken^[k] (Lexer.new f supply)).lastLocation.line
      (getNextToken^[k] (Lexer.new f supply)).lastLocation.col
      (getNextToken^[k + 1] (Lexer.new f supply)).lastLocation.line
      (getNextToken^[k + 1] (Lexer.new f supply)).lastLocation.col ∧
    0 ≤ (getNextToken^[k] (Lexer.new f supply)).lastLocation.line ∧
    0 ≤ (getNextToken^[k] (Lexer.new f supply)).lastLocation.col := by
  have hL : (['\n'] :: supply).length < 2147483648 := by
    simp only [List.length_cons]; exact hlines
  have hC : ∀ x ∈ ['\n'] :: supply, x.length < 2147483648 := by
    intro x hx
    rcases List.mem_cons.mp hx with h | h
    · rw [h]; decide
    · exact hcols x h
  obtain ⟨i1, i2, i3, i4⟩ := reachable_locations f supply k hL hC
  rw [Function.iterate_succ_apply']
  exact ⟨(scan_locations (getNextToken_scan _) i3 hL hC i4).1, i1, i2⟩

theorem token_locations_monotone_witness :
    locLe (getNextToken^[2] (Lexer.new "t.pony" ["a b\n".toList, "c".toList])).lastLocation.line
      (getNextToken^[2] (Lexer.new "t.pony" ["a b\n".toList, "c".toList])).lastLocation.col
      (getNextToken^[2 + 1]
        (Lexer.new "t.pony" ["a b\n".toList, "c".toList])).lastLocation.line
      (getNextToken^[2 + 1]
        (Lexer.new "t.pony" ["a b\n".toList, "c".toList])).lastLocation.col ∧
    0 ≤ (getNextToken^[2] (Lexer.new "t.pony" ["a b\n".toList, "c".toList])).lastLocation.line ∧
    0 ≤ (getNextToken^[2] (Lexer.new "t.pony" ["a b\n".toList, "c".toList])).lastLocation.col :=
  token_locations_monotone "t.pony" ["a b\n".toList, "c".toList] 2 (by decide) (by decide)

/-! ## The location of a token -/

theorem pendingChars_eq_flatten : ∀ (A : List (List Char)), (∀ x ∈ A, x ≠ []) →
    pendingChars A = A.flatten := by
  intro A
  induction A with
  | nil => intro _; rfl
  | cons a A ih =>
    intro h
    cases a with
    | nil => exact absurd rfl (h [] (by simp))
    | cons c cs =>
      show (c :: cs) ++ pendingChars A = _
      rw [ih (fun x hx => h x (by simp [hx]))]
      simp

/-- A position inside a line of a text is determined by the length of the text
after it. -/
theorem position_unique : ∀ (B1 B2 : List (List Char)) (p1 q1 p2 q2 : List Char)
    (A1 A2 : List (List Char)),
    B1 ++ (p1 ++ q1) :: A1 = B2 ++ (p2 ++ q2) :: A2 → q1 ≠ [] → q2 ≠ [] →
    (q1 ++ A1.flatten).length = (q2 ++ A2.flatten).length →
    B1.length = B2.length ∧ p1.length = p2.length := by
  intro B1
  induction B1 with
  | nil =>
    intro B2 p1 q1 p2 q2 A1 A2 h hq1 hq2 hlen
    cases B2 with
    | nil =>
      simp only [List.nil_append, List.cons.injEq] at h
      obtain ⟨h1, h2⟩ := h
      subst h2
      have := congrArg List.length h1
      simp only [List.length_append] at this hlen
      exact ⟨rfl, by omega⟩
    | cons b B2 =>
      simp only [List.nil_append, List.cons_append, List.cons.injEq] at h
      obtain ⟨h1, h2⟩ := h
      subst h2
      simp only [List.length_append, List.flatten_append, List.flatten_cons] at hlen
      have : q1.length = 0 := by omega
      exact absurd (List.length_eq_zero.mp this) hq1
  | cons b B1 ih =>
    intro B2 p1 q1 p2 q2 A1 A2 h hq1 hq2 hlen
    cases B2 with
    | nil =>
      simp only [List.nil_append, List.cons_append, List.cons.injEq] at h
      obtain ⟨h1, h2⟩ := h
      subst h2
      simp only [List.length_append, List.flatten_append, List.flatten_cons] at hlen
      have : q2.length = 0 := by omega
      exact absurd (List.length_eq_zero.mp this) hq2
    | cons b2 B2 =>
      simp only [List.cons_append, List.cons.injEq] at h
      obtain ⟨i1, i2⟩ := ih B2 p1 q1 p2 q2 A1 A2 h.2 hq1 hq2 hlen
      exact ⟨by simp [i1], i2⟩

/-- The token scanned at a character that is neither whitespace nor `#`
records the position of the pump at that character. -/
theorem getTokBody_moves (self : Lexer → Token × Lexer) (l : Lexer)
    (hC : (markLocation (skipSpaces l)).lastChar ≠ 35) :
    Moves (markLocation (skipSpaces l)) (getTokBody self l).2 := by
  by_cases hA : (isalpha (markLocation (skipSpaces l)).lastChar ||
      (markLocation (skipSpaces l)).lastChar == 95) = true
  · rw [getTokBody_ident self l hA]
    exact moves_lexIdentifier _
  have hA' : (isalpha (markLocation (skipSpaces l)).lastChar ||
      (markLocation (skipSpaces l)).lastChar == 95) = false := by simpa using hA
  by_cases hB : (isdigit (markLocation (skipSpaces l)).lastChar ||
      (markLocation (skipSpaces l)).lastChar == 46) = true
  · rw [getTokBody_number self l hA' hB]
    exact moves_lexNumber _
  have hB' : (isdigit (markLocation (skipSpaces l)).lastChar ||
      (markLocation (skipSpaces l)).lastChar == 46) = false := by simpa using hB
  by_cases hD : (markLocation (skipSpaces l)).lastChar = EOF
  · rw [getTokBody_eof self l hD]
    exact Moves.stay _
  · rw [getTokBody_other self l hA' hB' hC hD]
    exact moves_advance _

theorem code_eq_hash {c : Char} (h : code c = 35) : c = '#' :=
  code_inj (h.trans (by decide : (35 : Int) = code '#'))

/-- The location recorded for a token, as the 32-bit counters hold it: for a
token whose first character `c` stands after `pre` in the line that follows
the lines `before`, and is not the last character of that line, with only
whitespace and comments free of byte 255 between the lexer and `c`. -/
theorem token_location_wrap (f : String) (before after : List (List Char))
    (pre post skip : List Char) (c : Char) (k : Nat)
    (hne : ∀ x ∈ before ++ (pre ++ c :: post) :: after, x ≠ [])
    (hpost : post ≠ [])
    (hsee : Sees (getNextToken^[k] (Lexer.new f (before ++ (pre ++ c :: post) :: after)))
      (skip ++ c :: (post ++ after.flatten)))
    (hskip : Skippable skip) (hff : '\xFF' ∉ skip)
    (hc : isspace (code c) = false) (hc2 : c ≠ '#') :
    (getNextToken (getNextToken^[k]
      (Lexer.new f (before ++ (pre ++ c :: post) :: after)))).lastLocation.line =
        wrapInt ((before.length : Int) + 1) ∧
    (getNextToken (getNextToken^[k]
      (Lexer.new f (before ++ (pre ++ c :: post) :: after)))).lastLocation.col =
        wrapInt ((pre.length : Int) + 1) := by
  generalize hl : getNextToken^[k] (Lexer.new f (before ++ (pre ++ c :: post) :: after)) = l
    at hsee
  have hP : PumpAt (['\n'] :: (before ++ (pre ++ c :: post) :: after)) l := by
    rw [← hl]; exact pumpAt_reachable f _ k
  have hr : ∀ x ∈ (c :: (post ++ after.flatten)).head?, isspace (code x) = false := by
    intro x hx
    simp only [List.head?_cons, Option.mem_def, Option.some.injEq] at hx
    subst hx
    exact hc
  obtain ⟨self, l1, e1, e2, e3, -⟩ := getTok_skip hskip hff hsee hr
  have hC : (markLocation (skipSpaces l1)).lastChar ≠ 35 := by
    rw [e2.1]
    exact fun h => hc2 (code_eq_hash h)
  have hmv := getTokBody_moves self l1 hC
  rw [← e1] at hmv
  have hloc : (getNextToken l).lastLocation = (markLocation (skipSpaces l1)).lastLocation :=
    hmv.2
  have hPm : PumpAt (['\n'] :: (before ++ (pre ++ c :: post) :: after))
      (markLocation (skipSpaces l1)) :=
    pumpAt_pumped ((e3.trans (moves_skipSpacesFuel _ l1).1).trans (Pumped.same rfl)) hP
  have hup : upcoming (markLocation (skipSpaces l1)) = post ++ after.flatten := e2.2
  have hne' : ∀ x ∈ ['\n'] :: (before ++ (pre ++ c :: post) :: after), x ≠ [] := by
    intro x hx
    rcases List.mem_cons.mp hx with h | h
    · rw [h]; simp
    · exact hne x h
  rcases hPm with ⟨B, p, q, A, hL, hq, hb, hs, hn, hcol⟩ | ⟨hnil, -, -⟩
  · have hA : ∀ x ∈ A, x ≠ [] := by
      intro x hx
      apply hne'
      rw [hL]
      simp [hx]
    have hup2 : upcoming (markLocation (skipSpaces l1)) = q ++ A.flatten := by
      unfold upcoming
      rw [hb, hs, pendingChars_eq_flatten A hA]
      cases q with
      | nil => exact absurd rfl hq
      | cons _ _ => rfl
    have hL2 : B ++ (p ++ q) :: A =
        (['\n'] :: before) ++ ((pre ++ [c]) ++ post) :: after := by
      rw [← hL]; simp
    have hlen : (q ++ A.flatten).length = (post ++ after.flatten).length := by
      rw [← hup2, hup]
    obtain ⟨u1, u2⟩ := position_unique B (['\n'] :: before) p q (pre ++ [c]) post A after
      hL2 hq hpost hlen
    rw [hloc]
    show (skipSpaces l1).curLineNum = _ ∧ (skipSpaces l1).curCol = _
    have hn' : (skipSpaces l1).curLineNum = wrapInt (B.length : Int) := hn
    have hcol' : (skipSpaces l1).curCol = wrapInt (p.length : Int) := hcol
    rw [hn', hcol', u1, u2]
    simp
  · have : upcoming (markLocation (skipSpaces l1)) = [] := by
      unfold upcoming
      rw [hnil]
    rw [hup] at this
    simp only [List.append_eq_nil] at this
    exact absurd this.1 hpost

/-- C15 (amended): the start location recorded for a token identifies its
first character, unless that character is the last character of its line
(which happens only on a last line that does not end with a newline), and as
long as the line and column numbers are below `2^31`: for a token whose first
character `c` stands after `pre` and before a non-empty `post` in the line
that follows the lines `before`, with only whitespace and comments free of
byte 255 between the lexer and `c`, the line is `before.length + 1` and the
column is `pre.length + 1`; so tokens that start on the same line carry the
same line number. The last line need not end with a newline. -/
theorem token_location (f : String) (before after : List (List Char))
    (pre post skip : List Char) (c : Char) (k : Nat)
    (hne : ∀ x ∈ before ++ (pre ++ c :: post) :: after, x ≠ [])
    (hpost : post ≠ [])
    (hline : before.length + 1 < 2147483648) (hcol : pre.length + 1 < 2147483648)
    (hsee : Sees (getNextToken^[k] (Lexer.new f (before ++ (pre ++ c :: post) :: after)))
      (skip ++ c :: (post ++ after.flatten)))
    (hskip : Skippable skip) (hff : '\xFF' ∉ skip)
    (hc : isspace (code c) = false) (hc2 : c ≠ '#') :
    (getNextToken (getNextToken^[k]
      (Lexer.new f (before ++ (pre ++ c :: post) :: after)))).lastLocation.line =
        (before.length : Int) + 1 ∧
    (getNextToken (getNextToken^[k]
      (Lexer.new f (before ++ (pre ++ c :: post) :: after)))).lastLocation.col =
        (pre.length : Int) + 1 := by
  have h := token_location_wrap f before after pre post skip c k hne hpost hsee hskip hff hc hc2
  rw [wrapInt_of_small _ (by omega) (by omega), wrapInt_of_small _ (by omega) (by omega)] at h
  exact h

theorem token_location_witness :
    (getNextToken (getNextToken^[3] (Lexer.new "t.pony"
      (["var x;\n".toList] ++ ("  ".toList ++ 'y' :: "z".toList) :: [])))).lastLocation.line =
        ((["var x;\n".toList] : List (List Char)).length : Int) + 1 ∧
    (getNextToken (getNextToken^[3] (Lexer.new "t.pony"
      (["var x;\n".toList] ++ ("  ".toList ++ 'y' :: "z".toList) :: [])))).lastLocation.col =
        (("  ".toList).length : Int) + 1 :=
  token_location "t.pony" ["var x;\n".toList] [] "  ".toList "z".toList "\n  ".toList 'y' 3
    (by decide) (by decide) (by decide) (by decide) ⟨rfl, rfl⟩
    (Skippable.space (by decide) (Skippable.space (by decide)
      (Skippable.space (by decide) Skippable.nil)))
    (by decide) (by decide) (by decide)

/-- C15 (counterexample): on the input `a b`, one line that does not end with a
newline, the token `a` is recorded at line 1, column 1 and the token `b`, which
starts at the third and last character of the same line, at line 2, column 0. -/
theorem token_location_last_line :
    LexerBuffer.lines "a b".toList = ["a b".toList] ∧
    (getNextToken (LexerBuffer.new "a b".toList "t.pony")).lastLocation = ⟨"t.pony", 1, 1⟩ ∧
    (getNextToken (getNextToken (LexerBuffer.new "a b".toList "t.pony"))).curTok =
      tok_identifier ∧
    (getNextToken (getNextToken (LexerBuffer.new "a b".toList "t.pony"))).identifierStr =
      ['b'] ∧
    (getNextToken (getNextToken (LexerBuffer.new "a b".toList "t.pony"))).lastLocation =
      ⟨"t.pony", 2, 0⟩ :=
  ⟨rfl, rfl, rfl, rfl, rfl⟩

/-! ## Overflow of the line counter -/

theorem pendingChars_newlines (N : Nat) (rest : List (List Char)) :
    pendingChars (List.replicate N ['\n'] ++ rest) =
      List.replicate N '\n' ++ pendingChars rest := by
  induction N with
  | zero => rfl
  | succ n ih =>
    rw [List.replicate_succ, List.replicate_succ, List.cons_append, List.cons_append]
    show ['\n'] ++ pendingChars (List.replicate n ['\n'] ++ rest) = _
    rw [ih]
    rfl

theorem skippable_newlines (N : Nat) : Skippable (List.replicate N '\n') := by
  induction N with
  | zero => exact Skippable.nil
  | succ n ih =>
    rw [List.replicate_succ]
    exact Skippable.space (by decide) ih

theorem getNextToken_identifierStr (l : Lexer) :
    (getNextToken l).identifierStr = (getTok l).2.identifierStr := rfl

/-- The second token of the text `a`, `N` empty lines, `x`: the token `x` is
recorded at line `N + 2` as the 32-bit counter holds it, after the token `a`
at line 1. -/
theorem second_token_after_newlines (f : String) (N : Nat) :
    (getNextToken (Lexer.new f
      (['a', '\n'] :: (List.replicate N ['\n'] ++ [['x', '\n']])))).lastLocation.line = 1 ∧
    (getNextToken (Lexer.new f
      (['a', '\n'] :: (List.replicate N ['\n'] ++ [['x', '\n']])))).lastLocation.col = 1 ∧
    (getNextToken (getNextToken (Lexer.new f
      (['a', '\n'] :: (List.replicate N ['\n'] ++ [['x', '\n']]))))).identifierStr = ['x'] ∧
    (getNextToken (getNextToken (Lexer.new f
      (['a', '\n'] :: (List.replicate N ['\n'] ++ [['x', '\n']]))))).lastLocation.line =
        wrapInt ((N : Int) + 2) ∧
    (getNextToken (getNextToken (Lexer.new f
      (['a', '\n'] :: (List.replicate N ['\n'] ++ [['x', '\n']]))))).lastLocation.col = 1 := by
  have hnl : ∀ x ∈ List.replicate N ['\n'] ++ [['x', '\n']], x ≠ [] := by
    intro x hx
    rcases List.mem_append.mp hx with h | h
    · rw [List.eq_of_mem_replicate h]; simp
    · rw [List.mem_singleton.mp h]; simp
  have hflat : (List.replicate N ['\n'] ++ [['x', '\n']]).flatten =
      List.replicate N '\n' ++ ['x', '\n'] := by
    rw [← pendingChars_eq_flatten _ hnl, pendingChars_newlines]
    rfl
  have hs0 : Sees (Lexer.new f (['a', '\n'] :: List.replicate N ['\n'] ++ [['x', '\n']]))
      ([' ', '\n'] ++ ['a'] ++ ('\n' :: List.replicate N '\n' ++ ['x', '\n'])) := by
    have h := sees_lexer_new f (['a', '\n'] :: List.replicate N ['\n'] ++ [['x', '\n']])
    have e : pendingChars (['a', '\n'] :: List.replicate N ['\n'] ++ [['x', '\n']]) =
        ['a', '\n'] ++ pendingChars (List.replicate N ['\n'] ++ [['x', '\n']]) := rfl
    rw [e, pendingChars_newlines] at h
    exact h
  -- the first token
  have h1 := token_location_wrap f [] (List.replicate N ['\n'] ++ [['x', '\n']]) [] ['\n']
    [' ', '\n'] 'a' 0
    (by
      intro x hx
      rcases List.mem_cons.mp hx with h | h
      · rw [h]; simp
      · exact hnl x h)
    (by simp)
    (by
      show Sees (Lexer.new f _) _
      rw [hflat]
      exact hs0)
    (Skippable.space (by decide) (Skippable.space (by decide) Skippable.nil))
    (by decide) (by decide) (by decide)
  obtain ⟨i1, i2, -⟩ := getTok_identRun hs0 (by decide) (by decide)
    (by intro c hc; simp at hc; subst hc; decide) ⟨'a', by simp, Or.inl (by decide)⟩
  have hs1 : Sees (getNextToken^[1]
      (Lexer.new f ((['a', '\n'] :: List.replicate N ['\n']) ++ ([] ++ 'x' :: ['\n']) :: [])))
      (('\n' :: List.replicate N '\n') ++ 'x' ::
        (['\n'] ++ ([] : List (List Char)).flatten)) := by
    have := sees_getNextToken i2
    simpa using this
  -- the second token
  have h2 := token_location_wrap f (['a', '\n'] :: List.replicate N ['\n']) [] [] ['\n']
    ('\n' :: List.replicate N '\n') 'x' 1
    (by
      intro x hx
      rcases List.mem_append.mp hx with h | h
      · rcases List.mem_cons.mp h with h | h
        · rw [h]; simp
        · rw [List.eq_of_mem_replicate h]; simp
      · rw [List.mem_singleton.mp h]; simp)
    (by simp) hs1
    (Skippable.space (by decide) (skippable_newlines N))
    (by
      intro hx
      rcases List.mem_cons.mp hx with h | h
      · exact absurd h (by decide)
      · exact absurd (List.eq_of_mem_replicate h) (by decide))
    (by decide) (by decide)
  have hs1' : Sees (getNextToken^[1]
      (Lexer.new f (['a', '\n'] :: List.replicate N ['\n'] ++ [['x', '\n']])))
      (('\n' :: List.replicate N '\n') ++ ['x'] ++ ['\n']) := by
    have := sees_getNextToken i2
    simpa using this
  obtain ⟨j1, -⟩ := getTok_identRun hs1'
    (by
      intro c hc
      rcases List.mem_cons.mp hc with h | h
      · rw [h]; decide
      · rw [List.eq_of_mem_replicate h]; decide)
    (by decide)
    (by intro c hc; simp at hc; subst hc; decide) ⟨'x', by simp, Or.inl (by decide)⟩
  simp only [Function.iterate_succ, Function.iterate_zero, Function.comp_apply, id_eq,
    List.nil_append, List.cons_append, List.length_nil, List.length_cons,
    List.length_replicate] at h1 h2 j1
  have w1 : wrapInt (((0 : Nat) : Int) + 1) = 1 := by decide
  have w2 : ((N + 1 : Nat) : Int) + 1 = (N : Int) + 2 := by push_cast; ring
  rw [w1] at h1 h2
  rw [w2] at h2
  refine ⟨h1.1, h1.2, ?_, h2.1, h2.2⟩
  rw [getNextToken_identifierStr]
  exact j1

/-- C16 (counterexample): on a supply of the line `a`, `2^31 - 2` empty lines
and the line `x`, the token `a` is recorded at line 1 and the next token `x`
at line `-2147483648`: the `int` line counter has wrapped around, so the
recorded line is negative and the locations decrease. -/
theorem token_line_overflow :
    (getNextToken (Lexer.new "t.pony"
      (['a', '\n'] :: (List.replicate 2147483646 ['\n'] ++ [['x', '\n']])))).lastLocation.line = 1 ∧
    (getNextToken (getNextToken (Lexer.new "t.pony"
      (['a', '\n'] :: (List.replicate 2147483646 ['\n'] ++ [['x', '\n']]))))).identifierStr = ['x'] ∧
    (getNextToken (getNextToken (Lexer.new "t.pony"
      (['a', '\n'] :: (List.replicate 2147483646 ['\n'] ++ [['x', '\n']]))))).lastLocation.line = -2147483648 ∧
    ¬ locLe
      (getNextToken (Lexer.new "t.pony"
        (['a', '\n'] :: (List.replicate 2147483646 ['\n'] ++ [['x', '\n']])))).lastLocation.line
      (getNextToken (Lexer.new "t.pony"
        (['a', '\n'] :: (List.replicate 2147483646 ['\n'] ++ [['x', '\n']])))).lastLocation.col
      (getNextToken (getNextToken (Lexer.new "t.pony"
        (['a', '\n'] :: (List.replicate 2147483646 ['\n'] ++ [['x', '\n']]))))).lastLocation.line
      (getNextToken (getNextToken (Lexer.new "t.pony"
        (['a', '\n'] :: (List.replicate 2147483646 ['\n'] ++ [['x', '\n']]))))).lastLocation.col := by
  obtain ⟨h1, h2, h3, h4, h5⟩ := second_token_after_newlines "t.pony" 2147483646
  have e : wrapInt (((2147483646 : Nat) : Int) + 2) = -2147483648 := by decide
  rw [e] at h4
  refine ⟨h1, h3, h4, ?_⟩
  rw [h1, h2, h4, h5]
  unfold locLe
  omega

/-! ## The character pump delivers the input -/

theorem take_append_replicate {α : Type} (x : α) : ∀ (A : List α) (n m k : Nat),
    n ≤ m → n ≤ k →
    (A ++ List.replicate m x).take n = (A ++ List.replicate k x).take n := by
  intro A
  induction A with
  | nil =>
    intro n m k hm hk
    simp only [List.nil_append, List.take_replicate, Nat.min_eq_left hm, Nat.min_eq_left hk]
  | cons a A ih =>
    intro n m k hm hk
    cases n with
    | zero => rfl
    | succ n =>
      simp only [List.cons_append, List.take_succ_cons]
      rw [ih n m k (by omega) (by omega)]

theorem getNextChars_upcoming : ∀ (n : Nat) (l : Lexer),
    getNextChars n l = ((upcoming l).map code ++ List.replicate n EOF).take n := by
  intro n
  induction n with
  | zero => intro l; simp [getNextChars]
  | succ n ih =>
    intro l
    cases hu : upcoming l with
    | nil =>
      rw [getNextChars, getNextChar_nil l hu, ih l, hu]
      simp only [List.map_nil, List.nil_append, List.take_replicate, Nat.min_self]
      rfl
    | cons c t =>
      obtain ⟨h1, h2⟩ := getNextChar_cons l c t hu
      rw [getNextChars, h1, ih, h2]
      simp only [List.map_cons, List.cons_append, List.take_succ_cons]
      rw [take_append_replicate EOF (t.map code) n n (n + 1) (le_refl _) (by omega)]

theorem pendingChars_eq_takeWhile : ∀ (A : List (List Char)),
    pendingChars A = (A.takeWhile (fun x => !x.isEmpty)).flatten := by
  intro A
  induction A with
  | nil => rfl
  | cons a A ih =>
    cases a with
    | nil => rfl
    | cons c cs =>
      show (c :: cs) ++ pendingChars A = _
      rw [ih]
      simp [List.takeWhile_cons]

theorem getNextChar_counters (l : Lexer) :
    (l.curLineBuffer.length = 1 →
      (getNextChar l).2.curLineNum = wrapInt (l.curLineNum + 1) ∧
      (getNextChar l).2.curCol = 0) ∧
    (l.curLineBuffer.length ≠ 1 → (getNextChar l).2.curLineNum = l.curLineNum) ∧
    (2 ≤ l.curLineBuffer.length → (getNextChar l).2.curCol = wrapInt (l.curCol + 1)) := by
  unfold getNextChar
  cases hb : l.curLineBuffer with
  | nil => simp
  | cons x t =>
    cases t with
    | nil =>
      simp only [List.isEmpty_nil, if_true]
      unfold readNextLine
      cases l.supply <;> simp
    | cons y u => simp

/-- C21 (the code does not do what the claim says): what the character pump
delivers. From a fresh lexer, `n` successive `getNextChar` calls return the
first `n` entries of: the newline of the initial buffer, the characters of the
supplied lines up to the first empty line, in order, each converted from
`char` to `int`, then the end-of-stream sentinel for ever. The conversion is
that of a signed `char`: bytes 128 to 255 are returned as negative values and
byte 255 as `-1`, the end-of-stream sentinel itself, so on the line `a\xFFb`
the third call returns the sentinel while two characters of the input are
still to come. A call that takes the last character of the line buffer adds
one to the line counter in 32-bit arithmetic (from `2147483647` to
`-2147483648`) and sets the column counter to zero; every other call leaves
the line counter as it is. -/
theorem pump_returns_sentinel_for_byte_255 (f : String) (supply : List (List Char))
    (n : Nat) :
    getNextChars n (Lexer.new f supply) =
      ((('\n' :: (supply.takeWhile (fun x => !x.isEmpty)).flatten).map code) ++
        List.replicate n EOF).take n ∧
    (∀ c : Char, code c = EOF ↔ c = '\xFF') ∧
    getNextChars 7 (Lexer.new f [['a', '\xFF', 'b', '\n']]) = [10, 97, EOF, 98, 10, EOF, EOF] ∧
    getNextChars 5 (Lexer.new f [['\x80', '\xFB', '\xFF', 'z']]) = [10, -128, -5, -1, 122] ∧
    (∀ l : Lexer,
      (l.curLineBuffer.length = 1 →
        (getNextChar l).2.curLineNum = wrapInt (l.curLineNum + 1) ∧
        (getNextChar l).2.curCol = 0) ∧
      (l.curLineBuffer.length ≠ 1 → (getNextChar l).2.curLineNum = l.curLineNum)) ∧
    wrapInt (2147483647 + 1) = -2147483648 := by
  refine ⟨?_, code_eq_EOF_iff, rfl, rfl,
    fun l => ⟨(getNextChar_counters l).1, (getNextChar_counters l).2.1⟩, by decide⟩
  rw [getNextChars_upcoming, ← pendingChars_eq_takeWhile]
  rfl

theorem pump_returns_sentinel_for_byte_255_witness :
    getNextChars 8 (Lexer.new "t.pony" ["ab\n".toList, "c".toList, [], "zz".toList]) =
      [10, 97, 98, 10, 99, -1, -1, -1] ∧
    getNextChars 7 (Lexer.new "t.pony" [['a', '\xFF', 'b', '\n']]) =
      [10, 97, -1, 98, 10, -1, -1] ∧
    (getNextChar (Lexer.new "t.pony" ["ab\n".toList])).2.curLineNum = 1 ∧
    (getNextChar (Lexer.new "t.pony" ["ab\n".toList])).2.curCol = 0 :=
  ⟨(pump_returns_sentinel_for_byte_255 "t.pony"
      ["ab\n".toList, "c".toList, [], "zz".toList] 8).1,
    (pump_returns_sentinel_for_byte_255 "t.pony" [] 0).2.2.1,
    ((pump_returns_sentinel_for_byte_255 "t.pony" [] 0).2.2.2.2.1
      (Lexer.new "t.pony" ["ab\n".toList])).1 (by decide)⟩

/-! ## The lines of a `LexerBuffer` -/

theorem readNextLine_nil : LexerBuffer.readNextLine [] = ([], []) := rfl

theorem readNextLines_nil : ∀ (n : Nat),
    LexerBuffer.readNextLines n [] = List.replicate n [] := by
  intro n
  induction n with
  | zero => rfl
  | succ n ih =>
    rw [LexerBuffer.readNextLines, readNextLine_nil, ih]
    rfl

/-- One `readNextLine` call on a non-empty buffer part without NUL: the line is
not empty, line and rest make up the buffer part, the line has a newline at
most as its last character, and ends with one when something is left. -/
theorem readNextLine_spec (cur : List Char) (hne : cur ≠ []) (hnul : '\x00' ∉ cur) :
    (LexerBuffer.readNextLine cur).1 ≠ [] ∧
    (LexerBuffer.readNextLine cur).1 ++ (LexerBuffer.readNextLine cur).2 = cur ∧
    '\n' ∉ (LexerBuffer.readNextLine cur).1.dropLast ∧
    ((LexerBuffer.readNextLine cur).2 ≠ [] →
      (LexerBuffer.readNextLine cur).1.getLast? = some '\n') ∧
    '\x00' ∉ (LexerBuffer.readNextLine cur).2 ∧
    (LexerBuffer.readNextLine cur).2.length < cur.length := by
  have hsplit := List.takeWhile_append_dropWhile (fun c : Char => c != '\x00' && c != '\n') cur
  have hin : ∀ x ∈ cur.takeWhile (fun c : Char => c != '\x00' && c != '\n'), x ≠ '\n' := by
    intro x hx
    have := List.mem_takeWhile_imp hx
    simp only [Bool.and_eq_true, bne_iff_ne, ne_eq] at this
    exact this.2
  unfold LexerBuffer.readNextLine
  simp only
  cases hd : cur.dropWhile (fun c : Char => c != '\x00' && c != '\n') with
  | nil =>
    rw [hd, List.append_nil] at hsplit
    simp only [hsplit]
    refine ⟨hne, by simp, ?_, by simp, by simp, ?_⟩
    · intro hmem
      have := List.mem_of_mem_dropLast hmem
      rw [← hsplit] at this
      exact hin _ this rfl
    · simp only [List.length_nil]
      exact List.length_pos.mpr hne
  | cons c rest =>
    rw [hd] at hsplit
    have hc : (c != '\x00' && c != '\n') = false := by
      have := List.head_dropWhile_not (fun c : Char => c != '\x00' && c != '\n') cur
        (by rw [hd]; simp)
      simpa [hd] using this
    have hcmem : c ∈ cur := by rw [← hsplit]; simp
    have hc0 : c ≠ '\x00' := fun h => hnul (h ▸ hcmem)
    have hcn : c = '\n' := by
      by_contra hcn
      simp [hc0, hcn] at hc
    have hc0' : (c != '\x00') = true := by simpa using hc0
    simp only [hc0', if_true]
    refine ⟨by simp, by simpa using hsplit, ?_, ?_, ?_, ?_⟩
    · rw [List.dropLast_concat]
      exact fun hmem => hin _ hmem rfl
    · intro _
      rw [List.getLast?_append]
      simp [hcn]
    · intro hmem
      apply hnul
      rw [← hsplit]
      simp [hmem]
    · have := congrArg List.length hsplit
      simp only [List.length_append, List.length_cons] at this
      omega

theorem linesFuel_spec : ∀ (m : Nat) (cur : List Char), '\x00' ∉ cur → cur.length ≤ m →
    (∀ n, LexerBuffer.readNextLines n cur =
      (LexerBuffer.linesFuel m cur ++ List.replicate n []).take n) ∧
    (∀ x ∈ LexerBuffer.linesFuel m cur, x ≠ []) ∧
    (LexerBuffer.linesFuel m cur).flatten = cur ∧
    (∀ x ∈ LexerBuffer.linesFuel m cur, '\n' ∉ x.dropLast) ∧
    (∀ x ∈ (LexerBuffer.linesFuel m cur).dropLast, x.getLast? = some '\n') := by
  have base : ∀ m,
      (∀ n, LexerBuffer.readNextLines n [] =
        (LexerBuffer.linesFuel m [] ++ List.replicate n []).take n) ∧
      (∀ x ∈ LexerBuffer.linesFuel m [], x ≠ []) ∧
      (LexerBuffer.linesFuel m []).flatten = [] ∧
      (∀ x ∈ LexerBuffer.linesFuel m [], '\n' ∉ x.dropLast) ∧
      (∀ x ∈ (LexerBuffer.linesFuel m []).dropLast, x.getLast? = some '\n') := by
    intro m
    rw [linesFuel_nil]
    refine ⟨?_, by simp, rfl, by simp, by simp⟩
    intro n
    rw [readNextLines_nil]
    simp
  intro m
  induction m with
  | zero =>
    intro cur _ hlen
    have : cur = [] := List.length_eq_zero.mp (Nat.le_zero.mp hlen)
    subst this
    exact base 0
  | succ m ih =>
    intro cur hnul hlen
    by_cases hne : cur = []
    · subst hne
      exact base (m + 1)
    obtain ⟨s1, s2, s3, s4, s5, s6⟩ := readNextLine_spec cur hne hnul
    have hL : LexerBuffer.linesFuel (m + 1) cur =
        (LexerBuffer.readNextLine cur).1 ::
          LexerBuffer.linesFuel m (LexerBuffer.readNextLine cur).2 := by
      rw [LexerBuffer.linesFuel]
      rw [if_neg]
      simpa using s1
    obtain ⟨i1, i2, i3, i4, i5⟩ := ih (LexerBuffer.readNextLine cur).2 s5 (by omega)
    rw [hL]
    refine ⟨?_, ?_, ?_, ?_, ?_⟩
    · intro n
      cases n with
      | zero => rfl
      | succ n =>
        rw [LexerBuffer.readNextLines, i1 n]
        simp only [List.cons_append, List.take_succ_cons]
        rw [take_append_replicate [] _ n n (n + 1) (le_refl _) (by omega)]
    · intro x hx
      rcases List.mem_cons.mp hx with h | h
      · rw [h]; exact s1
      · exact i2 x h
    · rw [List.flatten_cons, i3, s2]
    · intro x hx
      rcases List.mem_cons.mp hx with h | h
      · rw [h]; exact s3
      · exact i4 x h
    · intro x hx
      cases hrest : LexerBuffer.linesFuel m (LexerBuffer.readNextLine cur).2 with
      | nil =>
        rw [hrest] at hx
        simp at hx
      | cons y ys =>
        rw [hrest, List.dropLast_cons₂] at hx
        rcases List.mem_cons.mp hx with h | h
        · rw [h]
          apply s4
          intro h0
          rw [h0, linesFuel_nil] at hrest
          exact absurd hrest (by simp)
        · apply i5
          rw [hrest]
          exact h

/-- C22: `LexerBuffer` splits a buffer without NUL at its newlines and loses
nothing. Successive `readNextLine` calls return the lines of the buffer, all
of them non-empty, and after them the empty line for ever; the lines put
together are the buffer; a line has a newline at most as its last character,
and every line but the last ends with one. -/
theorem lexerBuffer_splits_lines (buf : List Char) (hnul : '\x00' ∉ buf) :
    (∀ n, LexerBuffer.readNextLines n buf =
      (LexerBuffer.lines buf ++ List.replicate n []).take n) ∧
    (∀ x ∈ LexerBuffer.lines buf, x ≠ []) ∧
    (LexerBuffer.lines buf).flatten = buf ∧
    (∀ x ∈ LexerBuffer.lines buf, '\n' ∉ x.dropLast) ∧
    (∀ x ∈ (LexerBuffer.lines buf).dropLast, x.getLast? = some '\n') :=
  linesFuel_spec buf.length buf hnul (le_refl _)

theorem lexerBuffer_splits_lines_witness :
    LexerBuffer.readNextLines 5 "ab\n\ncd".toList =
      ["ab\n".toList, "\n".toList, "cd".toList, [], []] ∧
    (LexerBuffer.lines "ab\n\ncd".toList).flatten = "ab\n\ncd".toList :=
  ⟨(lexerBuffer_splits_lines "ab\n\ncd".toList (by decide)).1 5,
    (lexerBuffer_splits_lines "ab\n\ncd".toList (by decide)).2.2.1⟩

/-! ## Counting the diagnostics of an identifier -/

theorem identBody_cerr (l : Lexer) (f : IdFlags) (c : Char) (h : l.lastChar = code c) :
    ∃ new, (identBody l f).1.cerr = l.cerr ++ new ∧
      new.map (fun d => d.msg) = idMsgs f [c] := by
  obtain ⟨u, d, de, ue, se⟩ := f
  unfold identBody idMsgs idStep idMsgs
  simp only [h, toChar_code, code_beq_underscore, List.append_nil]
  cases hd : isdigit (code c) <;> cases hu : (c == '_') <;> cases u <;> cases d <;>
    cases ha : isalpha (code c) <;>
    simp [h, code_beq_underscore, hu, hd, ha]

theorem idMsgs_cons (f : IdFlags) (c : Char) (t : List Char) :
    idMsgs f (c :: t) = idMsgs f [c] ++ idMsgs (idStep f c) t := by
  simp [idMsgs]

theorem identLoopFuel_cerr : ∀ (n : Nat) (l : Lexer) (f : IdFlags) (cs : List Char),
    Sees l cs → cs.length ≤ n →
    ∃ new, (identLoopFuel n l f).1.cerr = l.cerr ++ new ∧
      new.map (fun d => d.msg) = idMsgs f (cs.tail.takeWhile isIdentChar) := by
  intro n
  induction n with
  | zero =>
    intro l f cs h hn
    have : cs = [] := List.length_eq_zero.mp (Nat.le_zero.mp hn)
    subst this
    exact ⟨[], by simp [identLoopFuel], by simp [idMsgs]⟩
  | succ n ih =>
    intro l f cs h hn
    have h1 := sees_advance h
    cases ht : cs.tail with
    | nil =>
      rw [ht] at h1
      have e : (advance l).lastChar = EOF := h1.1
      refine ⟨[], ?_, by simp [idMsgs]⟩
      simp only [identLoopFuel, e, isalnum_EOF]
      simp [EOF]
    | cons d t =>
      rw [ht] at h1
      have e : (advance l).lastChar = code d := h1.1
      have hlen : (d :: t).length ≤ n := by
        have : cs.tail.length = cs.length - 1 := List.length_tail cs
        rw [ht] at this
        omega
      by_cases hc : isIdentChar d = true
      · have hc2 : (isalnum (code d) || code d == 95) = true := hc
        obtain ⟨new1, hb1, hb2⟩ := identBody_cerr (advance l) f d e
        have hbf := (identBody_spec (advance l) f d e).1
        have hs : Sees (identBody (advance l) f).1 (d :: t) := identBody_sees h1
        obtain ⟨new2, hi1, hi2⟩ :=
          ih (identBody (advance l) f).1 (identBody (advance l) f).2 (d :: t) hs hlen
        refine ⟨new1 ++ new2, ?_, ?_⟩
        · simp only [identLoopFuel, e, hc2, if_true]
          rw [hi1, hb1, advance_cerr, List.append_assoc]
        · simp only [List.takeWhile_cons, hc, if_true]
          rw [idMsgs_cons, List.map_append, hb2, hi2, hbf]
          rfl
      · have hc2 : (isalnum (code d) || code d == 95) = false := by
          simpa [isIdentChar] using hc
        refine ⟨[], ?_, ?_⟩
        · simp only [identLoopFuel, e, hc2]
          simp
        · simp [List.takeWhile_cons, hc, idMsgs]

theorem lexIdentifier_snd (l : Lexer) :
    (lexIdentifier l).2 =
      (identLoop (identStart l) ⟨false, false, false, false, l.lastChar == 95⟩).1 := by
  unfold lexIdentifier
  simp only
  split_ifs <;> rfl

theorem lexIdentifier_cerr {l : Lexer} {c : Char} {t : List Char} (h : Sees l (c :: t))
    (hc : c ≠ '_') :
    ∃ new, (lexIdentifier l).2.cerr = l.cerr ++ new ∧
      new.map (fun d => d.msg) =
        idMsgs ⟨false, false, false, false, false⟩ (t.takeWhile isIdentChar) := by
  have h0 : l.lastChar = code c := h.1
  have hne : (c == '_') = false := by simpa using hc
  have hst : identStart l = { l with identifierStr := [c] } := by
    unfold identStart
    simp only [h0, toChar_code, code_beq_underscore, hne]
    rfl
  have hs2 : Sees (identStart l) (c :: t) := by
    rw [hst]
    exact ⟨h.1, by simpa [upcoming] using h.2⟩
  rw [lexIdentifier_snd, h0, code_beq_underscore, hne]
  obtain ⟨new, e1, e2⟩ := identLoopFuel_cerr _ (identStart l)
    ⟨false, false, false, false, false⟩ (c :: t) hs2 (sees_length_le hs2)
  refine ⟨new, ?_, e2⟩
  show (identLoopFuel _ _ _).1.cerr = _
  rw [e1, hst]

/-- On a run without doubled underscore the identifier loop reports nothing but
digits in the middle: one message for every letter after the first digit. -/
theorem idMsgs_count : ∀ (m : List Char) (f : IdFlags), ¬ HasDoubleUnderscore m →
    (f.underline_in_row = true → m.head? ≠ some '_') →
    idMsgs f m = List.replicate
      (if f.digit_in_middle then (m.filter (fun c => isalpha (code c))).length
        else lettersAfterFirstDigit m)
      ":digit in the middle of the identifier" := by
  intro m
  induction m with
  | nil =>
    intro f _ _
    cases f.digit_in_middle <;> rfl
  | cons x t ih =>
    intro f hd hu
    rw [double_underscore_cons] at hd
    have hd1 : ¬ HasDoubleUnderscore t := fun h => hd (Or.inr h)
    have hu1 : (idStep f x).underline_in_row = true → t.head? ≠ some '_' := by
      intro h1 h2
      have : x = '_' := by simpa [idStep] using h1
      exact hd (Or.inl ⟨this, h2⟩)
    have hx : (x == '_' && f.underline_in_row) = false := by
      cases hfu : f.underline_in_row with
      | false => simp
      | true =>
        have := hu hfu
        simp only [List.head?_cons, ne_eq, Option.some.injEq] at this
        simp [this]
    have hdm : (idStep f x).digit_in_middle = (f.digit_in_middle || isdigit (code x)) := rfl
    rw [idMsgs, hx, ih (idStep f x) hd1 hu1, hdm]
    cases hfd : f.digit_in_middle with
    | true =>
      cases ha : isalpha (code x) with
      | true => simp [List.filter_cons, ha, List.replicate_succ]
      | false => simp [List.filter_cons, ha]
    | false =>
      cases hdig : isdigit (code x) with
      | true =>
        have ha : isalpha (code x) = false := by
          cases ha : isalpha (code x) with
          | false => rfl
          | true => exact absurd ⟨hdig, ha⟩ (not_digit_and_alpha _)
        simp [lettersAfterFirstDigit, List.dropWhile_cons, hdig, List.filter_cons, ha]
      | false =>
        simp [lettersAfterFirstDigit, List.dropWhile_cons, hdig]

theorem lettersAfterFirstDigit_cons (x : Char) (t : List Char) :
    lettersAfterFirstDigit (x :: t) =
      if isdigit (code x) = true then (t.filter (fun c => isalpha (code c))).length
      else lettersAfterFirstDigit t := by
  cases hdig : isdigit (code x) with
  | true =>
    have ha : isalpha (code x) = false := by
      cases ha : isalpha (code x) with
      | false => rfl
      | true => exact absurd ⟨hdig, ha⟩ (not_digit_and_alpha _)
    simp [lettersAfterFirstDigit, List.dropWhile_cons, hdig, List.filter_cons, ha]
  | false =>
    simp [lettersAfterFirstDigit, List.dropWhile_cons, hdig]

theorem lettersAfterFirstDigit_pos : ∀ (r : List Char),
    0 < lettersAfterFirstDigit r ↔ HasLetterAfterDigit r := by
  intro r
  induction r with
  | nil =>
    constructor
    · intro h
      simp [lettersAfterFirstDigit] at h
    · rintro ⟨a, d, b, x, c, he, -, -⟩
      simp at he
  | cons x t ih =>
    rw [lettersAfterFirstDigit_cons, letter_after_digit_cons]
    by_cases hdig : isdigit (code x) = true
    · rw [if_pos hdig]
      constructor
      · intro h
        obtain ⟨y, hy⟩ := List.exists_mem_of_length_pos h
        rw [List.mem_filter] at hy
        exact Or.inl ⟨hdig, y, hy.1, hy.2⟩
      · intro h
        have : ∃ y ∈ t, isalpha (code y) = true := by
          rcases h with ⟨-, h⟩ | ⟨a, d, b, y, c, he, -, hy⟩
          · exact h
          · exact ⟨y, by rw [he]; simp, hy⟩
        obtain ⟨y, hy1, hy2⟩ := this
        exact List.length_pos_of_mem (List.mem_filter.mpr ⟨hy1, hy2⟩)
    · rw [if_neg hdig, ih]
      constructor
      · exact Or.inr
      · rintro (⟨h, -⟩ | h)
        · exact absurd h hdig
        · exact h

/-- C23: in front of a maximal identifier run `r` that starts with a letter and
has no doubled underscore, the diagnostics `getTok` emits are as many
"digit in the middle of the identifier" messages as `r` has letters after its
first digit, and nothing else; when there is such a letter the token is the
lexical-error token. -/
theorem digit_in_middle_diagnostics (l : Lexer) (r : List Char)
    (hrun : ScansRun l isIdentChar r) (hstart : StartsWithLetter r)
    (hdbl : ¬ HasDoubleUnderscore r) :
    (∃ new, (getTok l).2.cerr = l.cerr ++ new ∧
      (∀ d ∈ new, d.msg = ":digit in the middle of the identifier") ∧
      new.length = lettersAfterFirstDigit r) ∧
    (0 < lettersAfterFirstDigit r → (getTok l).1 = tok_error) := by
  obtain ⟨c0, t0, hr0, hc0⟩ := hstart
  have hrun' := hrun
  obtain ⟨ws, rest0, hsee, hws, hne, hr, hrest⟩ := hrun
  constructor
  · obtain ⟨c, m, rest, hcm, hc, hs, htake, -⟩ := scansRun_start hrun' isIdentChar_not_space
    have hcc : c = c0 := by
      rw [hr0] at hcm
      simp only [List.cons.injEq] at hcm
      exact hcm.1.symm
    subst hcc
    have hcne : c ≠ '_' := by
      rintro rfl
      exact absurd hc0 (by decide)
    have hlast : (markLocation (skipSpaces l)).lastChar = code c := hs.1
    have hcond : (isalpha (markLocation (skipSpaces l)).lastChar ||
        (markLocation (skipSpaces l)).lastChar == 95) = true := by
      rw [hlast]; simp [hc0]
    obtain ⟨self, hself⟩ := getTok_eq_body l
    rw [hself, getTokBody_ident self l hcond]
    obtain ⟨new, e1, e2⟩ := lexIdentifier_cerr hs hcne
    rw [htake] at e2
    have hdm : ¬ HasDoubleUnderscore m := by
      intro h
      apply hdbl
      rw [hcm, double_underscore_cons]
      exact Or.inr h
    rw [idMsgs_count m _ hdm (by simp)] at e2
    simp only [Bool.false_eq_true, if_false] at e2
    have hdig : isdigit (code c) = false := by
      cases hd : isdigit (code c) with
      | false => rfl
      | true => exact absurd ⟨hd, hc0⟩ (not_digit_and_alpha _)
    have hcount : lettersAfterFirstDigit r = lettersAfterFirstDigit m := by
      rw [hcm, lettersAfterFirstDigit_cons, hdig]
      simp
    refine ⟨new, ?_, ?_, ?_⟩
    · rw [e1, (scanStart_fields l).2.2]
    · intro d hd
      have : d.msg ∈ new.map (fun d => d.msg) := List.mem_map_of_mem _ hd
      rw [e2] at this
      exact (List.mem_replicate.mp this).2
    · have := congrArg List.length e2
      simp only [List.length_map, List.length_replicate] at this
      rw [this, hcount]
  · intro hpos
    have hlad : HasLetterAfterDigit r := (lettersAfterFirstDigit_pos r).mp hpos
    have hkw : r ∉ keywords := by
      intro hk
      have : lettersAfterFirstDigit r = 0 := by
        simp only [keywords, List.mem_cons, List.mem_singleton, List.not_mem_nil, or_false] at hk
        rcases hk with rfl | rfl | rfl <;> decide
      omega
    have hhead : ∃ c ∈ r.head?, isalpha (code c) = true ∨ c = '_' :=
      ⟨c0, by rw [hr0]; rfl, Or.inl hc0⟩
    obtain ⟨-, -, -, -, -, -, hinvalid⟩ := getTok_identRun hsee hws hr hrest hhead
    exact hinvalid hkw (fun hv => hv.2.2 hlad)

theorem digit_in_middle_diagnostics_witness :
    ((getTok (LexerBuffer.new "a1b".toList "t.pony")).2.cerr =
        [⟨":digit in the middle of the identifier", 2, 0⟩] ∧
      (getTok (LexerBuffer.new "a1b".toList "t.pony")).1 = tok_error) ∧
    (∃ new, (getTok (LexerBuffer.new "x_1yz_w 2".toList "t.pony")).2.cerr = [] ++ new ∧
      (∀ d ∈ new, d.msg = ":digit in the middle of the identifier") ∧
      new.length = 3) ∧
    (∃ new, (getTok (LexerBuffer.new "ab_12".toList "t.pony")).2.cerr = [] ++ new ∧
      (∀ d ∈ new, d.msg = ":digit in the middle of the identifier") ∧
      new.length = 0) :=
  ⟨⟨rfl, (digit_in_middle_diagnostics (LexerBuffer.new "a1b".toList "t.pony") "a1b".toList
      ⟨" \n".toList, [], ⟨rfl, rfl⟩, by decide, by decide, by decide, by decide⟩
      ⟨'a', "1b".toList, rfl, by decide⟩ (by unfold HasDoubleUnderscore; decide)).2 (by decide)⟩,
    (digit_in_middle_diagnostics (LexerBuffer.new "x_1yz_w 2".toList "t.pony") "x_1yz_w".toList
      ⟨" \n".toList, " 2".toList, ⟨rfl, rfl⟩, by decide, by decide, by decide, by decide⟩
      ⟨'x', "_1yz_w".toList, rfl, by decide⟩ (by unfold HasDoubleUnderscore; decide)).1,
    (digit_in_middle_diagnostics (LexerBuffer.new "ab_12".toList "t.pony") "ab_12".toList
      ⟨" \n".toList, [], ⟨rfl, rfl⟩, by decide, by decide, by decide, by decide⟩
      ⟨'a', "b_12".toList, rfl, by decide⟩ (by unfold HasDoubleUnderscore; decide)).1⟩

/-! ## The assertions of `consume` and `getId` in the parser -/

theorem parseError_ne_assertFail {α : Type} (p : Parser) (a b : String) :
    (parseError p a b : Outcome α) ≠ .assertFail := by
  unfold parseError
  exact fun h => Outcome.noConfusion h

theorem finishCall_no_assert (identifier : List Char) (args : List ExprAST) (p : Parser)
    (h : p.cur = 41) : finishCall identifier args p ≠ .assertFail := by
  unfold finishCall
  rw [Parser.consume_eq h]
  simp only
  split_ifs
  · split
    · exact fun h => Outcome.noConfusion h
    · exact parseError_ne_assertFail _ _ _
  · exact fun h => Outcome.noConfusion h

/-- The argument loop fails no assertion of its own, and when it returns the
arguments the current token is the closing parenthesis. -/
theorem parseArgs_no_assert (PE : Parser → Outcome ExprAST)
    (hPE : ∀ q, PE q ≠ .assertFail) : ∀ (fuel : Nat) (args : List ExprAST) (p : Parser),
    parseArgs PE fuel args p ≠ .assertFail ∧
    ∀ as q, parseArgs PE fuel args p = .ret (some as) q → q.cur = 41 := by
  intro fuel
  induction fuel with
  | zero =>
    intro args p
    exact ⟨fun h => Outcome.noConfusion h, fun as q h => Outcome.noConfusion h⟩
  | succ n ih =>
    intro args p
    rw [parseArgs]
    cases hpe : PE p with
    | assertFail => exact absurd hpe (hPE p)
    | outOfFuel => exact ⟨fun h => Outcome.noConfusion h, fun as q h => Outcome.noConfusion h⟩
    | ret o p1 =>
      cases o with
      | none =>
        refine ⟨fun h => Outcome.noConfusion h, fun as q h => ?_⟩
        simp only [Outcome.ret.injEq] at h
        exact absurd h.1 (by simp)
      | some arg =>
        simp only
        by_cases h41 : p1.cur = 41
        · rw [if_pos h41]
          refine ⟨fun h => Outcome.noConfusion h, fun as q h => ?_⟩
          simp only [Outcome.ret.injEq] at h
          rw [← h.2]
          exact h41
        · rw [if_neg h41]
          by_cases h44 : p1.cur ≠ 44
          · rw [if_pos h44]
            refine ⟨parseError_ne_assertFail _ _ _, fun as q h => ?_⟩
            unfold parseError at h
            simp only [Outcome.ret.injEq] at h
            exact absurd h.1 (by simp)
          · rw [if_neg h44]
            exact ih _ _

theorem parseIdentifierExpr_no_assert (PE : Parser → Outcome ExprAST)
    (hPE : ∀ q, PE q ≠ .assertFail) (fuel : Nat) (p : Parser)
    (hid : p.cur = tok_identifier) :
    parseIdentifierExpr PE fuel p ≠ .assertFail := by
  unfold parseIdentifierExpr
  rw [getId_of_identifier hid]
  simp only
  by_cases h40 : p.next.cur = 40
  · rw [if_neg (not_not.mpr h40), Parser.consume_eq h40]
    simp only
    by_cases h41 : p.next.next.cur = 41
    · rw [if_neg (not_not.mpr h41)]
      exact finishCall_no_assert _ _ _ h41
    · rw [if_pos h41]
      obtain ⟨a1, a2⟩ := parseArgs_no_assert PE hPE fuel [] p.next.next
      cases hargs : parseArgs PE fuel [] p.next.next with
      | assertFail => exact absurd hargs a1
      | outOfFuel => exact fun h => Outcome.noConfusion h
      | ret o p3 =>
        cases o with
        | none => exact fun h => Outcome.noConfusion h
        | some args => exact finishCall_no_assert _ _ _ (a2 args p3 hargs)
  · rw [if_pos h40]
    exact fun h => Outcome.noConfusion h

theorem parseBinOpRHSLoop_no_assert (PP : Parser → Outcome ExprAST)
    (hPP : ∀ q, PP q ≠ .assertFail) : ∀ (fuel : Nat) (exprPrec : Int) (lhs : ExprAST)
    (p : Parser), parseBinOpRHSLoop PP fuel exprPrec lhs p ≠ .assertFail := by
  intro fuel
  induction fuel with
  | zero => intro _ _ _; exact fun h => Outcome.noConfusion h
  | succ n ih =>
    intro exprPrec lhs p
    rw [parseBinOpRHSLoop]
    split_ifs
    · exact fun h => Outcome.noConfusion h
    · rw [Parser.consume_eq rfl]
      simp only
      cases hpp : PP p.next with
      | assertFail => exact absurd hpp (hPP _)
      | outOfFuel => exact fun h => Outcome.noConfusion h
      | ret o p2 =>
        cases o with
        | none => exact parseError_ne_assertFail _ _ _
        | some rhs => exact ih _ _ _

theorem parseBinOpRHS_no_assert (PP : Parser → Outcome ExprAST)
    (hPP : ∀ q, PP q ≠ .assertFail) (fuel : Nat) (exprPrec : Int) (lhs : ExprAST)
    (p : Parser) : parseBinOpRHS PP fuel exprPrec lhs p ≠ .assertFail := by
  rw [parseBinOpRHS_eq_loop]
  exact parseBinOpRHSLoop_no_assert PP hPP fuel exprPrec lhs p

theorem parseExpression_no_assert (PP : Parser → Outcome ExprAST)
    (hPP : ∀ q, PP q ≠ .assertFail) (fuel : Nat) (p : Parser) :
    parseExpression PP fuel p ≠ .assertFail := by
  unfold parseExpression
  cases hpp : PP p with
  | assertFail => exact absurd hpp (hPP _)
  | outOfFuel => exact fun h => Outcome.noConfusion h
  | ret o p1 =>
    cases o with
    | none => exact fun h => Outcome.noConfusion h
    | some lhs => exact parseBinOpRHS_no_assert PP hPP fuel 0 lhs p1

theorem parsePrimary_no_assert : ∀ (n : Nat) (p : Parser), parsePrimary n p ≠ .assertFail := by
  intro n
  induction n with
  | zero => intro _; exact fun h => Outcome.noConfusion h
  | succ n ih =>
    intro p
    rw [parsePrimary]
    have hE : ∀ q, parseExpression (parsePrimary n) n q ≠ .assertFail :=
      parseExpression_no_assert _ ih n
    by_cases h1 : p.cur = tok_identifier
    · rw [if_pos h1]
      exact parseIdentifierExpr_no_assert _ hE n p h1
    · rw [if_neg h1]
      by_cases h2 : p.cur = tok_number
      · rw [if_pos h2]
        have : getValue p.lexer = some p.lexer.numStr := by
          unfold getValue
          exact if_pos h2
        rw [this]
        exact fun h => Outcome.noConfusion h
      · rw [if_neg h2]
        by_cases h3 : p.cur = 40
        · rw [if_pos h3]
          cases he : parseExpression (parsePrimary n) n p.next with
          | assertFail => exact absurd he (hE _)
          | outOfFuel => exact fun h => Outcome.noConfusion h
          | ret o p1 =>
            cases o with
            | none => exact fun h => Outcome.noConfusion h
            | some e =>
              simp only
              split_ifs
              · exact parseError_ne_assertFail _ _ _
              · exact fun h => Outcome.noConfusion h
        · rw [if_neg h3]
          exact parseError_ne_assertFail _ _ _

/-- C24: in `parseIdentifierExpr`, entered with an identifier as current token,
and in `parseBinOpRHS`, every `consume` is called with the current token and
`getId` with an identifier as current token: when the routines they call fail
no assertion, the two routines end without a failed assertion, on every
input. -/
theorem parser_assertions_unreachable (PE PP : Parser → Outcome ExprAST)
    (hPE : ∀ q, PE q ≠ .assertFail) (hPP : ∀ q, PP q ≠ .assertFail) :
    (∀ (fuel : Nat) (p : Parser), p.cur = tok_identifier →
      parseIdentifierExpr PE fuel p ≠ .assertFail) ∧
    (∀ (fuel : Nat) (exprPrec : Int) (lhs : ExprAST) (p : Parser),
      parseBinOpRHS PP fuel exprPrec lhs p ≠ .assertFail) :=
  ⟨fun fuel p hid => parseIdentifierExpr_no_assert PE hPE fuel p hid,
    fun fuel exprPrec lhs p => parseBinOpRHS_no_assert PP hPP fuel exprPrec lhs p⟩

theorem parser_assertions_unreachable_witness :
    parseIdentifierExpr (parseExpression (parsePrimary 3) 3) 3
        (Parser.new "f(1, x+2) )".toList "t.pony") ≠ .assertFail ∧
    parseBinOpRHS (parsePrimary 3) 3 (-1) (.Number ['1'])
        (Parser.new "1 + ) 2".toList "t.pony").next ≠ .assertFail :=
  ⟨(parser_assertions_unreachable (parseExpression (parsePrimary 3) 3) (parsePrimary 3)
      (parseExpression_no_assert _ (parsePrimary_no_assert 3) 3) (parsePrimary_no_assert 3)).1
      3 (Parser.new "f(1, x+2) )".toList "t.pony") rfl,
    (parser_assertions_unreachable (parseExpression (parsePrimary 3) 3) (parsePrimary 3)
      (parseExpression_no_assert _ (parsePrimary_no_assert 3) 3) (parsePrimary_no_assert 3)).2
      3 (-1) (.Number ['1']) (Parser.new "1 + ) 2".toList "t.pony").next⟩

end pony
